import Mathlib

/-!
# Semicolon linter (`tools/lint.c`): shallow embedding

C strings are modelled as lists of characters (`CStr`); a character stands for
one byte of the line and the terminating NUL is implicit: reading the byte at
the end of a string (`s[n]` with `n = strlen s`) gives `NUL`.  The `int`
counters of the scanner are modelled as `Int`: they move by at most the length
of a line per line, so overflow is out of reach for any file that fits in
memory.  The `ctype.h` predicates are those of the "C" locale.
-/

set_option linter.unusedVariables false

namespace Lint

/-- A C string: the bytes before the terminating NUL. -/
abbrev CStr := List Char

/-- The NUL terminator, the value of `s[strlen s]`. -/
def NUL : Char := Char.ofNat 0

/-- The byte `s[i]` for `i ≤ strlen s`. -/
def charAt (s : CStr) (i : Nat) : Char := s.getD i NUL

/-- The C-locale `isspace`: space, `\t`, `\n`, `\v`, `\f`, `\r`. -/
def isspace (c : Char) : Bool :=
  c.toNat == 32 || (9 ≤ c.toNat && c.toNat ≤ 13)

/-- The C-locale `isalnum`: ASCII digits and letters. -/
def isalnum (c : Char) : Bool :=
  (48 ≤ c.toNat && c.toNat ≤ 57) || (65 ≤ c.toNat && c.toNat ≤ 90) ||
    (97 ≤ c.toNat && c.toNat ≤ 122)

/-- The single quote character. -/
def SQUOTE : Char := Char.ofNat 39

/-- The backtick character. -/
def BTICK : Char := Char.ofNat 96

/-- `strncmp(s, p, strlen p) == 0` for a NUL-free literal `p`. -/
def starts (s : CStr) (p : String) : Bool := p.toList.isPrefixOf s

/-- `strcmp(s, p) == 0`. -/
def streq (s : CStr) (p : String) : Bool := s == p.toList

/-- `ends_with(s, suffix)`. -/
def ends_with (s : CStr) (suffix : String) : Bool := suffix.toList.isSuffixOf s

/-- `has_js_ext`. -/
def has_js_ext (p : CStr) : Bool := ends_with p ".js"

/-- `ltrim`: skip leading whitespace. -/
def ltrim (s : CStr) : CStr := s.dropWhile isspace

/-- `rtrim_inplace`: cut trailing whitespace. -/
def rtrim (s : CStr) : CStr := (s.reverse.dropWhile isspace).reverse

/-- The loop of `split_trailing_inline_comment`: `prev` is the byte before the
current position (`none` at position 0); on the first `//` whose previous byte
is not `:` the result is the text before it and the text from it on. -/
def comment_scan (prev : Option Char) : CStr → Option (CStr × CStr)
  | [] => none
  | c :: t =>
    match t with
    | [] => none
    | d :: _ =>
      if c = '/' ∧ d = '/' ∧ prev ≠ some ':' then some ([], c :: t)
      else (comment_scan (some c) t).map (fun p => (c :: p.1, p.2))

/-- `split_trailing_inline_comment`: `(code, comment)`. -/
def split_trailing_inline_comment (line : CStr) : CStr × CStr :=
  match comment_scan none line with
  | some (pre, comment) => (rtrim pre, comment)
  | none => (line, [])

/-- `count_char`. -/
def count_char (s : CStr) (c : Char) : Int := (s.count c : Nat)

/-- One step of the `switch` in `depth_deltas` on the triple `(p, b, c)`. -/
def depth_step (acc : Int × Int × Int) (x : Char) : Int × Int × Int :=
  if x = '(' then (acc.1 + 1, acc.2.1, acc.2.2)
  else if x = ')' then (acc.1 - 1, acc.2.1, acc.2.2)
  else if x = '[' then (acc.1, acc.2.1 + 1, acc.2.2)
  else if x = ']' then (acc.1, acc.2.1 - 1, acc.2.2)
  else if x = '{' then (acc.1, acc.2.1, acc.2.2 + 1)
  else if x = '}' then (acc.1, acc.2.1, acc.2.2 - 1)
  else acc

/-- `depth_deltas`: net `()`, `[]`, `{}` counts of a code segment. -/
def depth_deltas (code : CStr) : Int × Int × Int :=
  code.foldl depth_step (0, 0, 0)

/-- `starts_return_paren`. -/
def starts_return_paren (trim : CStr) : Bool :=
  if !starts trim "return" then false
  else charAt (ltrim (trim.drop 6)) 0 == '('

/-- `is_blank_after_comment`. -/
def is_blank_after_comment (trimmed : CStr) : Bool :=
  (split_trailing_inline_comment trimmed).1.all isspace

/-- `is_comment_only`. -/
def is_comment_only (trimmed : CStr) : Bool :=
  charAt trimmed 0 != NUL && charAt trimmed 0 == '/' && charAt trimmed 1 == '/'

/-- `starts_jsdoc_star`. -/
def starts_jsdoc_star (trimmed : CStr) : Bool :=
  if charAt trimmed 0 == '*' then true
  else if starts trimmed "/**" then true
  else false

/-- `starts_keyword_no_semi`; `req` is `OPT_REQUIRE_RETURN_SEMI`. -/
def starts_keyword_no_semi (req : Bool) (code : CStr) : Bool :=
  if starts code "if " || starts code "if(" then true
  else if starts code "for " || starts code "for(" then true
  else if starts code "while " || starts code "while(" then true
  else if starts code "switch " || starts code "switch(" then true
  else if streq code "else" || starts code "else " then true
  else if starts code "try" then true
  else if starts code "catch" then true
  else if starts code "finally" then true
  else if starts code "class " then true
  else if starts code "export " || starts code "export\x7b" then true
  else if starts code "import " || starts code "import(" then true
  else if starts code "function " then true
  else if starts code "async function " then true
  else if starts code "return " || starts code "return(" then
    (if req then false else true)
  else if starts code "throw " then true
  else if starts code "break" then true
  else if starts code "continue" then true
  else if starts code "yield" then true
  else if starts code "await " then true
  else false

/-- The last byte `code[n-1]` of a non-empty string. -/
def lastChar (s : CStr) : Char := s.getLastD NUL

/-- The byte `code[n-2]` of a string of length at least 2. -/
def last2Char (s : CStr) : Char := charAt s (s.length - 2)

/-- `has_trailing_structural`. -/
def has_trailing_structural (code : CStr) : Bool :=
  if code.length == 0 then true
  else
    let last := lastChar code
    if last == ';' || last == '{' || last == '}' || last == ':' || last == ',' || last == '('
    then true
    else if decide (code.length ≥ 2) && last2Char code == '=' && last == '>' then true
    else false

/-- `is_ignorable_line_logic`. -/
def is_ignorable_line_logic (req : Bool) (line : CStr) : Bool :=
  let trim := ltrim line
  if is_blank_after_comment trim then true
  else if starts_jsdoc_star trim || is_comment_only trim then true
  else if starts trim "/*" then true
  else if streq trim "const" || streq trim "let" || streq trim "var" then true
  else
    let code := (split_trailing_inline_comment trim).1
    starts_keyword_no_semi req code || has_trailing_structural code

/-- `needs_semicolon_codeonly`. -/
def needs_semicolon_codeonly (code : CStr) : Bool :=
  if code.length == 0 then true
  else if lastChar code == ';' then false
  else if decide (code.length ≥ 2) && last2Char code == '+' && lastChar code == '+' then true
  else if decide (code.length ≥ 2) && last2Char code == '-' && lastChar code == '-' then true
  else
    let last := lastChar code
    if isalnum last || last == '_' || last == ')' || last == ']' || last == '"' ||
        last == SQUOTE || last == BTICK then true
    else if last == ',' then false
    else true

/-- The file-scoped counters and block flags of `process_file`. -/
structure ScanState where
  in_var_block : Bool
  in_cond_block : Bool
  cond_paren_depth : Int
  in_return_block : Bool
  return_paren_depth : Int
  paren_depth : Int
  bracket_depth : Int
deriving DecidableEq, Repr

/-- The values of the counters before the first line. -/
def ScanState.init : ScanState := ⟨false, false, 0, false, 0, 0, 0⟩

/-- One of `+ - * / % ^ | &`. -/
def is_binop (c : Char) : Bool :=
  c == '+' || c == '-' || c == '*' || c == '/' || c == '%' || c == '^' || c == '|' || c == '&'

/-- The suppression tests of `process_file` that come before the block
trackers: running depths, trailing comma, trailing operator, and the lookahead
tests on the next line. -/
def suppress_continuation (paren_depth bracket_depth : Int) (code raw next_trimmed : CStr) :
    Bool :=
  let s : Bool := decide (paren_depth > 0) || decide (bracket_depth > 0)
  let s := if !s && decide (code.length > 0) && lastChar code == ',' then true else s
  let s := if !s && decide (code.length > 0) && is_binop (lastChar code) then true else s
  let s := if !s && (charAt next_trimmed 0 == ')' || charAt next_trimmed 0 == ']') then true
    else s
  let s := if !s && ((charAt next_trimmed 0 == '&' && charAt next_trimmed 1 == '&') ||
      (charAt next_trimmed 0 == '|' && charAt next_trimmed 1 == '|')) then true else s
  let s := if !s && is_binop (charAt next_trimmed 0) then true else s
  let s := if !s && charAt next_trimmed 0 == ')' &&
      (raw.any (fun c => !isspace c) && decide (raw.length > 0) && lastChar raw != ',' &&
        lastChar raw != ';') then true else s
  s

/-- The `const|let|var` block of `process_file`: new flag and new `suppress`. -/
def var_block_step (in_var_block : Bool) (raw trimmed : CStr) (suppress : Bool) : Bool × Bool :=
  let in_var := if !in_var_block &&
      (streq trimmed "const" || streq trimmed "let" || streq trimmed "var") then true
    else in_var_block
  if in_var then ((if raw.contains ';' then false else in_var), true)
  else (in_var, suppress)

/-- The pointer `check` of the conditional tracker and the test `starts`. -/
def cond_starts (trimmed : CStr) : Bool :=
  let check := ltrim ((ltrim trimmed).dropWhile (fun c => c == '}'))
  (starts check "if" && (charAt check 2 == ' ' || charAt check 2 == '(')) ||
  (starts check "while" && (charAt check 5 == ' ' || charAt check 5 == '(')) ||
  (starts check "for" && (charAt check 3 == ' ' || charAt check 3 == '(')) ||
  starts check "else if"

/-- The `if/while/for/else if` tracker of `process_file`: new flag, new
counter and new `suppress`. -/
def cond_block_step (in_cond_block : Bool) (cond_paren_depth : Int) (trimmed : CStr)
    (suppress : Bool) : Bool × Int × Bool :=
  if !in_cond_block then
    if cond_starts trimmed then
      let d := count_char trimmed '(' - count_char trimmed ')'
      if d > 0 then (true, d, true) else (in_cond_block, d, suppress)
    else (in_cond_block, cond_paren_depth, suppress)
  else
    let d := cond_paren_depth + (count_char trimmed '(' - count_char trimmed ')')
    ((if d ≤ 0 then false else in_cond_block), d, true)

/-- The `return ( ... )` tracker of `process_file`: new flag, new counter and
new `suppress`. -/
def return_block_step (in_return_block : Bool) (return_paren_depth : Int) (trimmed : CStr)
    (suppress : Bool) : Bool × Int × Bool :=
  if !in_return_block then
    if starts_return_paren trimmed then
      let d := count_char trimmed '(' - count_char trimmed ')'
      ((if d > 0 then true else in_return_block), d, suppress)
    else (in_return_block, return_paren_depth, suppress)
  else
    let d := return_paren_depth + (count_char trimmed '(' - count_char trimmed ')')
    ((if d ≤ 0 then false else in_return_block), d, true)

/-- The last suppression block of `process_file`: `||`, `&&`, `?`, `:`. -/
def suppress_logical (suppress : Bool) (trimmed next_trimmed : CStr) : Bool :=
  if !suppress then
    let s := if streq trimmed "||" || streq trimmed "&&" then true else suppress
    let s := if !s && decide (trimmed.length ≥ 2) &&
        ((last2Char trimmed == '|' && lastChar trimmed == '|') ||
         (last2Char trimmed == '&' && lastChar trimmed == '&')) then true else s
    let s := if !s && (charAt next_trimmed 0 == '?' || charAt next_trimmed 0 == ':') then true
      else s
    let s := if !s && (charAt trimmed 0 == '?' || charAt trimmed 0 == ':') then true else s
    s
  else suppress

/-- What one iteration of the line loop of `process_file` yields. -/
structure LineResult where
  /-- the counters after the line -/
  st : ScanState
  /-- the final value of `suppress` -/
  suppress : Bool
  /-- whether `path:lineno` is pushed to `missing_out` -/
  reported : Bool
  /-- the line written to the fix file in fix mode -/
  out : CStr
deriving DecidableEq, Repr

/-- The body of the line loop of `process_file` for the line `raw` with the
following line `next` (the empty string after the last line). -/
def process_line (req : Bool) (st : ScanState) (raw next : CStr) : LineResult :=
  let next_trimmed := ltrim next
  let code := (split_trailing_inline_comment raw).1
  let comment := (split_trailing_inline_comment raw).2
  let paren_depth := st.paren_depth + (depth_deltas code).1
  let bracket_depth := st.bracket_depth + (depth_deltas code).2.1
  let s0 := suppress_continuation paren_depth bracket_depth code raw next_trimmed
  let trimmed := ltrim raw
  let v := var_block_step st.in_var_block raw trimmed s0
  let c := cond_block_step st.in_cond_block st.cond_paren_depth trimmed v.2
  let r := return_block_step st.in_return_block st.return_paren_depth trimmed c.2.2
  let suppress := suppress_logical r.2.2 trimmed next_trimmed
  let reported := !suppress && (!is_ignorable_line_logic req raw && needs_semicolon_codeonly code)
  { st := ⟨v.1, c.1, c.2.1, r.1, r.2.1, paren_depth, bracket_depth⟩
    suppress := suppress
    reported := reported
    out := if reported then
        (if comment ≠ [] then code ++ ';' :: comment else code ++ [';'])
      else raw }

/-- The line loop of `process_file`: the results of the lines from index `i`
on, each with its `lineno = i + 1`. -/
def scan_lines (req : Bool) : Nat → ScanState → List CStr → List (Nat × LineResult)
  | _, _, [] => []
  | i, st, raw :: rest =>
    let r := process_line req st raw (rest.headD [])
    (i + 1, r) :: scan_lines req (i + 1) r.st rest

/-- The whole line loop on a file's lines. -/
def scan_file (req : Bool) (lines : List CStr) : List (Nat × LineResult) :=
  scan_lines req 0 ScanState.init lines

/-- The line numbers `process_file` pushes to `missing_out` for a file. -/
def violations (req : Bool) (lines : List CStr) : List Nat :=
  ((scan_file req lines).filter (fun p => p.2.reported)).map (fun p => p.1)

/-- The lines `process_file` writes to the fix file in fix mode. -/
def fix_output (req : Bool) (lines : List CStr) : List CStr :=
  (scan_file req lines).map (fun p => p.2.out)

/-- The counters as they stand when line index `k` (0-based) is reached: the
initial values for the first line, else the counters left by line `k - 1`. -/
def state_before (req : Bool) (lines : List CStr) : Nat → ScanState
  | 0 => ScanState.init
  | k + 1 => match (scan_file req lines)[k]? with
    | some p => p.2.st
    | none => ScanState.init

/-- What `main` and `process_file` see of the file system: which paths are
regular files, what `fopen(path, "r")` and the `getline` loop yield (the lines
without their line ends, `none` when the file cannot be opened), and whether
the temporary fix file can be created and renamed over the original. -/
structure FileSys where
  is_regular : CStr → Bool
  read : CStr → Option (List CStr)
  can_create_tmp : CStr → Bool
  can_rename : CStr → Bool

/-- An entry `path:lineno` of the `missing` vector. -/
structure Violation where
  path : CStr
  lineno : Nat
deriving DecidableEq, Repr

/-- The effect of one call of `process_file`. -/
structure FileOutcome where
  /-- the return value -/
  rc : Nat
  /-- the `missing_out` vector after the call -/
  missing : List Violation
  /-- the new content of `path`, when the fix file was renamed over it -/
  written : Option (List CStr)
  /-- whether the line loop ran -/
  scanned : Bool

/-- `process_file(path, fix_mode, missing_out)`. -/
def process_file (req : Bool) (fs : FileSys) (path : CStr) (fix_mode : Bool)
    (missing_out : List Violation) : FileOutcome :=
  match fs.read path with
  | none => ⟨0, missing_out, none, false⟩
  | some lines =>
    if fix_mode && !fs.can_create_tmp path then ⟨1, missing_out, none, false⟩
    else
      let missing := missing_out ++ (violations req lines).map (fun n => ⟨path, n⟩)
      if fix_mode then
        if !fs.can_rename path then ⟨1, missing, none, true⟩
        else ⟨0, missing, some (fix_output req lines), true⟩
      else ⟨0, missing, none, true⟩

/-- The file system after `path` got the content `written`. -/
def FileSys.write (fs : FileSys) (path : CStr) (written : Option (List CStr)) : FileSys :=
  match written with
  | none => fs
  | some lines => { fs with read := fun p => if p = path then some lines else fs.read p }

/-- What a run of `main` leaves behind. -/
structure RunResult where
  /-- the exit status -/
  status : Nat
  /-- the `missing` vector at the end -/
  missing : List Violation
  /-- the paths whose line loop ran, in order -/
  scanned : List CStr
  /-- the file system at the end -/
  fs : FileSys

/-- The `Run` loop of `main`: `process_file` on each path of `js` in turn. -/
def run_loop (req fix : Bool) : FileSys → List CStr → List Violation → List CStr →
    FileSys × List Violation × List CStr
  | fs, [], missing, scanned => (fs, missing, scanned)
  | fs, f :: rest, missing, scanned =>
    let o := process_file req fs f fix missing
    run_loop req fix (fs.write f o.written) rest o.missing
      (if o.scanned then scanned ++ [f] else scanned)

/-- The decision at the end of `main`, on the `missing` vector and `fix`. -/
def exit_status (missing : List Violation) (fix : Bool) : Nat :=
  if missing.length > 0 then (if fix then 0 else 1) else 0

/-- The part of `main` after the candidate list `files` is resolved: the
empty-list exits, the filter to existing `.js` files, the run and the exit
status. -/
def main_run (req fix : Bool) (fs : FileSys) (files : List CStr) : RunResult :=
  if files.length == 0 then ⟨0, [], [], fs⟩
  else
    let js := files.filter (fun f => has_js_ext f && fs.is_regular f)
    if js.length == 0 then ⟨0, [], [], fs⟩
    else
      let r := run_loop req fix fs js [] []
      ⟨exit_status r.2.1 fix, r.2.1, r.2.2, r.1⟩

/-- Spec 4.1: index `i` starts a comment: `line[i] = line[i+1] = '/'` and the
byte before `i`, if there is one, is not `:`. -/
def is_comment_start (line : CStr) (i : Nat) : Bool :=
  line.get? i == some '/' && line.get? (i + 1) == some '/' &&
    (i == 0 || line.get? (i - 1) != some ':')

/-- The keyword prefixes of spec 4.5 that make a line ignorable whatever the
configuration. -/
def ignorable_prefixes : List String :=
  ["if ", "if(", "for ", "for(", "while ", "while(", "switch ", "switch(", "else ",
   "try", "catch", "finally", "class ", "export ", "export\x7b", "import ", "import(",
   "function ", "async function ", "throw ", "break", "continue", "yield", "await "]

/-- Lines given as string literals. -/
def file_of (xs : List String) : List CStr := xs.map String.toList

/-- The counters after a line, which do not depend on the lookahead. -/
def step_state (st : ScanState) (raw : CStr) : ScanState := (process_line true st raw []).st

/-- The counters after a run of lines. -/
def run_state (st : ScanState) (pre : List CStr) : ScanState := pre.foldl step_state st

/-- The comment-start test at index `i` of a string whose preceding byte is
`prev` (`none` when the string starts the line). -/
def is_comment_start_from (prev : Option Char) (s : CStr) (i : Nat) : Bool :=
  s.get? i == some '/' && s.get? (i + 1) == some '/' &&
    ((if i = 0 then prev else s.get? (i - 1)) != some ':')

/-- A file system with the two regular files `a.js` (one line lacking its
semicolon) and `b.js` (clean), in which every fix file can be written. -/
def sample_fs : FileSys where
  is_regular := fun p => p == "a.js".toList || p == "b.js".toList
  read := fun p =>
    if p == "a.js".toList then some (file_of ["let x = 1"])
    else if p == "b.js".toList then some (file_of ["let y = 2;"])
    else none
  can_create_tmp := fun _ => true
  can_rename := fun _ => true

/-- The characters after which the need check asks for a terminator, without
the closing brackets: alphanumeric, `_`, and the three quote characters. -/
def is_word_or_quote (c : Char) : Bool :=
  isalnum c || c == '_' || c == '"' || c == SQUOTE || c == BTICK

/-- The line fix mode writes in place of a reported line. -/
def fix_line (raw : CStr) : CStr :=
  (split_trailing_inline_comment raw).1 ++ ';' :: (split_trailing_inline_comment raw).2

/-- Two sets of counters that the line loop cannot tell apart: all flags and
running depths agree, and the counter of a block tracker agrees whenever the
tracker is pending (an idle tracker assigns its counter before reading it). -/
def ScanState.equiv (a b : ScanState) : Prop :=
  a.in_var_block = b.in_var_block ∧
  a.in_cond_block = b.in_cond_block ∧
  (a.in_cond_block = true → a.cond_paren_depth = b.cond_paren_depth) ∧
  a.in_return_block = b.in_return_block ∧
  (a.in_return_block = true → a.return_paren_depth = b.return_paren_depth) ∧
  a.paren_depth = b.paren_depth ∧
  a.bracket_depth = b.bracket_depth

/-- The count of `(` minus `)` in the code segment of a line. -/
def code_paren_net (raw : CStr) : Int :=
  count_char (split_trailing_inline_comment raw).1 '(' -
    count_char (split_trailing_inline_comment raw).1 ')'

/-- The count of `[` minus `]` in the code segment of a line. -/
def code_bracket_net (raw : CStr) : Int :=
  count_char (split_trailing_inline_comment raw).1 '[' -
    count_char (split_trailing_inline_comment raw).1 ']'

/-- The count of `(` minus `)` in a whole line after its leading whitespace,
comment included: what the block trackers add to their counters. -/
def line_paren_net (raw : CStr) : Int :=
  count_char (ltrim raw) '(' - count_char (ltrim raw) ')'

/-- The file system `sample_fs` in which no temporary fix file can be created. -/
def no_tmp_fs : FileSys := { sample_fs with can_create_tmp := fun _ => false }

/-- The file system `sample_fs` in which no fix file can be renamed over its
original. -/
def no_rename_fs : FileSys := { sample_fs with can_rename := fun _ => false }

/-- The counter of a block tracker started at line index `t`, after line
index `j`: the sum of the `(` minus `)` counts of the lines `t` to `j`. -/
def tracker_counter (lines : List CStr) (t j : Nat) : Int :=
  (((lines.drop t).take (j - t + 1)).map line_paren_net).sum

/-- The pointer `check` of the conditional tracker: the line after its
leading whitespace, any leading closing braces, and whitespace again. -/
def cond_check (raw : CStr) : CStr :=
  ltrim ((ltrim raw).dropWhile (fun c => c == '}'))

/-- The line `b` is the line `a` with its leading whitespace replaced by
another run of whitespace. -/
def reindented (a b : CStr) : Prop :=
  ∃ ws ws' t : CStr, ws.all isspace = true ∧ ws'.all isspace = true ∧
    a = ws ++ t ∧ b = ws' ++ t

/-! ## The line loop -/

theorem var_block_step_fst (b : Bool) (raw trimmed : CStr) (s s' : Bool) :
    (var_block_step b raw trimmed s).1 = (var_block_step b raw trimmed s').1 := by
  unfold var_block_step
  simp only []
  split <;> split <;> rfl

theorem cond_block_step_fst (b : Bool) (d : Int) (trimmed : CStr) (s s' : Bool) :
    (cond_block_step b d trimmed s).1 = (cond_block_step b d trimmed s').1 ∧
    (cond_block_step b d trimmed s).2.1 = (cond_block_step b d trimmed s').2.1 := by
  unfold cond_block_step
  simp only []
  split
  · split
    · split <;> exact ⟨rfl, rfl⟩
    · exact ⟨rfl, rfl⟩
  · exact ⟨rfl, rfl⟩

theorem return_block_step_fst (b : Bool) (d : Int) (trimmed : CStr) (s s' : Bool) :
    (return_block_step b d trimmed s).1 = (return_block_step b d trimmed s').1 ∧
    (return_block_step b d trimmed s).2.1 = (return_block_step b d trimmed s').2.1 := by
  unfold return_block_step
  simp only []
  split
  · split <;> exact ⟨rfl, rfl⟩
  · exact ⟨rfl, rfl⟩

theorem process_line_st (req : Bool) (st : ScanState) (raw next : CStr) :
    (process_line req st raw next).st = step_state st raw := by
  simp only [step_state, process_line]
  congr 1
  · exact var_block_step_fst _ _ _ _ _
  · exact (cond_block_step_fst _ _ _ _ _).1
  · exact (cond_block_step_fst _ _ _ _ _).2
  · exact (return_block_step_fst _ _ _ _ _).1
  · exact (return_block_step_fst _ _ _ _ _).2

theorem scan_lines_length (req : Bool) (lines : List CStr) :
    ∀ (i : Nat) (st : ScanState), (scan_lines req i st lines).length = lines.length := by
  induction lines with
  | nil => intro i st; rfl
  | cons raw rest ih => intro i st; simp [scan_lines, ih]

theorem scan_lines_get (req : Bool) (lines : List CStr) :
    ∀ (i : Nat) (st : ScanState) (k : Nat) (raw : CStr), lines[k]? = some raw →
      (scan_lines req i st lines)[k]? =
        some (i + k + 1,
          process_line req (run_state st (lines.take k)) raw (lines.getD (k + 1) [])) := by
  induction lines with
  | nil => intro i st k raw h; simp at h
  | cons l rest ih =>
    intro i st k raw h
    cases k with
    | zero =>
      simp at h
      subst h
      cases rest <;> simp [scan_lines, run_state]
    | succ k =>
      simp at h
      have := ih (i + 1) (process_line req st l (rest.headD [])).st k raw h
      rw [process_line_st] at this
      simp only [scan_lines, List.getElem?_cons_succ, process_line_st, this]
      simp [run_state, Nat.add_assoc, Nat.add_comm 1 k, List.getD_eq_getElem?_getD]

theorem scan_file_get (req : Bool) (lines : List CStr) (k : Nat) (raw : CStr)
    (h : lines[k]? = some raw) :
    (scan_file req lines)[k]? =
      some (k + 1,
        process_line req (run_state ScanState.init (lines.take k)) raw
          (lines.getD (k + 1) [])) := by
  have := scan_lines_get req lines 0 ScanState.init k raw h
  simpa [scan_file] using this

theorem scan_file_length (req : Bool) (lines : List CStr) :
    (scan_file req lines).length = lines.length :=
  scan_lines_length req lines 0 ScanState.init

theorem state_before_eq (req : Bool) (lines : List CStr) (k : Nat) (hk : k ≤ lines.length) :
    state_before req lines k = run_state ScanState.init (lines.take k) := by
  cases k with
  | zero => simp [state_before, run_state]
  | succ k =>
    have hk' : k < lines.length := hk
    have hget : lines[k]? = some lines[k] := List.getElem?_eq_getElem hk'
    simp only [state_before, scan_file_get req lines k _ hget, process_line_st]
    have ht : lines.take (k + 1) = lines.take k ++ [lines[k]] := by
      rw [List.take_succ, hget]; rfl
    rw [ht, run_state, run_state, List.foldl_append]
    rfl

/-- A line number is pushed to `missing_out` exactly when its line's result is
a report. -/
theorem mem_violations (req : Bool) (lines : List CStr) (n : Nat) :
    n ∈ violations req lines ↔
      ∃ k r, n = k + 1 ∧ (scan_file req lines)[k]? = some (k + 1, r) ∧ r.reported = true := by
  constructor
  · intro h
    simp only [violations, List.mem_map, List.mem_filter] at h
    obtain ⟨p, ⟨hp, hrep⟩, rfl⟩ := h
    obtain ⟨k, hk, hpk⟩ := List.getElem_of_mem hp
    have hk' : k < lines.length := by rw [scan_file_length] at hk; exact hk
    have hget : lines[k]? = some lines[k] := List.getElem?_eq_getElem hk'
    have h2 := scan_file_get req lines k _ hget
    rw [List.getElem?_eq_getElem hk, hpk] at h2
    refine ⟨k, p.2, ?_, ?_, hrep⟩
    · have := congrArg Prod.fst (Option.some.inj h2); simpa using this
    · rw [List.getElem?_eq_getElem hk, hpk]
      have := congrArg Prod.fst (Option.some.inj h2)
      simp at this
      rw [← this]
  · rintro ⟨k, r, rfl, hget, hrep⟩
    simp only [violations, List.mem_map, List.mem_filter]
    exact ⟨(k + 1, r), ⟨List.mem_iff_getElem?.mpr ⟨k, hget⟩, hrep⟩, rfl⟩

theorem not_mem_violations (req : Bool) (lines : List CStr) (k : Nat) (r : LineResult)
    (hget : (scan_file req lines)[k]? = some (k + 1, r)) (hrep : r.reported = false) :
    k + 1 ∉ violations req lines := by
  rw [mem_violations]
  rintro ⟨k', r', hk, hget', hrep'⟩
  have : k' = k := by omega
  subst this
  rw [hget] at hget'
  have := congrArg Prod.snd (Option.some.inj hget')
  simp at this
  subst this
  rw [hrep] at hrep'
  exact Bool.noConfusion hrep'

/-! ## Suppression only ever goes up -/

theorem var_block_step_mono (b : Bool) (raw trimmed : CStr) (s : Bool) (h : s = true) :
    (var_block_step b raw trimmed s).2 = true := by
  unfold var_block_step
  simp only []
  split <;> split <;> simp [h]

theorem cond_block_step_mono (b : Bool) (d : Int) (trimmed : CStr) (s : Bool) (h : s = true) :
    (cond_block_step b d trimmed s).2.2 = true := by
  unfold cond_block_step
  simp only []
  split
  · split
    · split <;> simp [h]
    · simp [h]
  · rfl

theorem return_block_step_mono (b : Bool) (d : Int) (trimmed : CStr) (s : Bool)
    (h : s = true) : (return_block_step b d trimmed s).2.2 = true := by
  unfold return_block_step
  simp only []
  split
  · split <;> simp [h]
  · rfl

theorem suppress_logical_mono (s : Bool) (trimmed next_trimmed : CStr) (h : s = true) :
    suppress_logical s trimmed next_trimmed = true := by
  unfold suppress_logical
  simp [h]

/-- Once `suppress` is set in the first block of tests it stays set. -/
theorem suppress_of_continuation (req : Bool) (st : ScanState) (raw next : CStr)
    (h : suppress_continuation
      (st.paren_depth + (depth_deltas (split_trailing_inline_comment raw).1).1)
      (st.bracket_depth + (depth_deltas (split_trailing_inline_comment raw).1).2.1)
      (split_trailing_inline_comment raw).1 raw (ltrim next) = true) :
    (process_line req st raw next).suppress = true := by
  simp only [process_line]
  apply suppress_logical_mono
  apply return_block_step_mono
  apply cond_block_step_mono
  apply var_block_step_mono
  exact h

theorem reported_imp (req : Bool) (st : ScanState) (raw next : CStr)
    (h : (process_line req st raw next).reported = true) :
    (process_line req st raw next).suppress = false ∧
    is_ignorable_line_logic req raw = false ∧
    needs_semicolon_codeonly (split_trailing_inline_comment raw).1 = true := by
  simp only [process_line, Bool.and_eq_true, Bool.not_eq_true'] at h ⊢
  exact h

theorem not_reported_of_suppress (req : Bool) (st : ScanState) (raw next : CStr)
    (h : (process_line req st raw next).suppress = true) :
    (process_line req st raw next).reported = false := by
  cases hr : (process_line req st raw next).reported
  · rfl
  · have := (reported_imp req st raw next hr).1
    rw [h] at this
    exact Bool.noConfusion this

/-! ## The suppression tests as disjunctions -/

theorem set_if_eq (s c : Bool) : (if (!s && c) = true then true else s) = (s || c) := by
  cases s <;> cases c <;> rfl

theorem suppress_continuation_eq (pd bd : Int) (code raw nt : CStr) :
    suppress_continuation pd bd code raw nt =
      (decide (pd > 0) || decide (bd > 0) ||
        (decide (code.length > 0) && lastChar code == ',') ||
        (decide (code.length > 0) && is_binop (lastChar code)) ||
        (charAt nt 0 == ')' || charAt nt 0 == ']') ||
        ((charAt nt 0 == '&' && charAt nt 1 == '&') ||
          (charAt nt 0 == '|' && charAt nt 1 == '|')) ||
        is_binop (charAt nt 0) ||
        (charAt nt 0 == ')' &&
          (raw.any (fun c => !isspace c) && decide (raw.length > 0) && lastChar raw != ',' &&
            lastChar raw != ';'))) := by
  simp only [suppress_continuation, Bool.and_assoc, set_if_eq]

theorem lastChar_of_getLast? (s : CStr) (c : Char) (h : s.getLast? = some c) :
    s ≠ [] ∧ s.length > 0 ∧ lastChar s = c := by
  have hne : s ≠ [] := by
    intro h0; rw [h0] at h; simp at h
  refine ⟨hne, List.length_pos.mpr hne, ?_⟩
  unfold lastChar
  rw [List.getLastD_eq_getLast?, h]
  rfl

theorem needs_semicolon_of_semicolon (code : CStr) (h : code.getLast? = some ';') :
    needs_semicolon_codeonly code = false := by
  obtain ⟨hne, hlen, hlast⟩ := lastChar_of_getLast? code _ h
  unfold needs_semicolon_codeonly
  have : (code.length == 0) = false := by
    simp [hne]
  simp [this, hlast]

/-- C1: a line whose code segment ends with `;` is never reported: the need
check answers "no" on it, so the loop body does not report it whatever the
counters and the next line are, and its line number is not among the
violations of the file. -/
theorem semicolon_terminated_never_reported (req : Bool) (lines : List CStr) (k : Nat)
    (raw : CStr) (hraw : lines[k]? = some raw)
    (hend : (split_trailing_inline_comment raw).1.getLast? = some ';') :
    needs_semicolon_codeonly (split_trailing_inline_comment raw).1 = false ∧
    (∀ st next, (process_line req st raw next).reported = false) ∧
    (∃ r, (scan_file req lines)[k]? = some (k + 1, r) ∧ r.reported = false) ∧
    k + 1 ∉ violations req lines := by
  have hneed := needs_semicolon_of_semicolon _ hend
  have hall : ∀ st next, (process_line req st raw next).reported = false := by
    intro st next
    cases hr : (process_line req st raw next).reported
    · rfl
    · have := (reported_imp req st raw next hr).2.2
      rw [hneed] at this
      exact Bool.noConfusion this
  have hget := scan_file_get req lines k raw hraw
  exact ⟨hneed, hall, ⟨_, hget, hall _ _⟩, not_mem_violations req lines k _ hget (hall _ _)⟩

theorem semicolon_terminated_never_reported_witness :
    needs_semicolon_codeonly (split_trailing_inline_comment "x = 1; // c".toList).1 = false ∧
    1 + 1 ∉ violations true (file_of ["let y = 2", "x = 1; // c"]) ∧
    violations true (file_of ["let y = 2", "x = 1; // c"]) = [1] := by
  have h := semicolon_terminated_never_reported true (file_of ["let y = 2", "x = 1; // c"]) 1
    "x = 1; // c".toList (by decide) (by decide)
  exact ⟨h.1, h.2.2.2, by decide⟩

/-! ## Comment splitting -/

theorem is_comment_start_eq (line : CStr) (i : Nat) :
    is_comment_start line i = is_comment_start_from none line i := by
  unfold is_comment_start is_comment_start_from
  cases i <;> simp

theorem is_comment_start_from_succ (prev : Option Char) (c : Char) (t : CStr) (j : Nat) :
    is_comment_start_from prev (c :: t) (j + 1) = is_comment_start_from (some c) t j := by
  unfold is_comment_start_from
  cases j <;> simp

theorem comment_scan_cons_cons (prev : Option Char) (c d : Char) (t : CStr) :
    comment_scan prev (c :: d :: t) =
      if c = '/' ∧ d = '/' ∧ prev ≠ some ':' then some ([], c :: d :: t)
      else (comment_scan (some c) (d :: t)).map (fun p => (c :: p.1, p.2)) := by
  rw [comment_scan]

theorem comment_scan_some (s : CStr) :
    ∀ (prev : Option Char) (pre com : CStr), comment_scan prev s = some (pre, com) →
      s = pre ++ com ∧ is_comment_start_from prev s pre.length = true ∧
      ∀ j, j < pre.length → is_comment_start_from prev s j = false := by
  induction s with
  | nil => intro prev pre com h; simp [comment_scan] at h
  | cons c t ih =>
    intro prev pre com h
    cases t with
    | nil => simp [comment_scan] at h
    | cons d t' =>
      rw [comment_scan_cons_cons] at h
      split at h
      · rename_i hc
        simp at h
        obtain ⟨rfl, rfl⟩ := h
        obtain ⟨rfl, rfl, hp⟩ := hc
        refine ⟨rfl, ?_, ?_⟩
        · simp [is_comment_start_from, hp]
        · intro j hj; simp at hj
      · rename_i hc
        cases hrec : comment_scan (some c) (d :: t') with
        | none => rw [hrec] at h; simp at h
        | some p =>
          rw [hrec] at h
          simp at h
          obtain ⟨rfl, rfl⟩ := h
          obtain ⟨h1, h2, h3⟩ := ih (some c) p.1 p.2 hrec
          refine ⟨?_, ?_, ?_⟩
          · simp; exact h1
          · simp only [List.length_cons]
            rw [is_comment_start_from_succ]; exact h2
          · intro j hj
            cases j with
            | zero =>
              simp only [is_comment_start_from]
              simp only [not_and, ne_eq, Decidable.not_not] at hc
              by_cases hcc : c = '/'
              · by_cases hd : d = '/'
                · simp [hcc, hd, hc hcc hd]
                · simp [hd]
              · simp [hcc]
            | succ j =>
              rw [is_comment_start_from_succ]
              exact h3 j (by simpa using hj)

theorem comment_scan_none (s : CStr) :
    ∀ (prev : Option Char), comment_scan prev s = none →
      ∀ j, is_comment_start_from prev s j = false := by
  induction s with
  | nil => intro prev h j; simp [is_comment_start_from]
  | cons c t ih =>
    intro prev h j
    cases t with
    | nil =>
      simp [is_comment_start_from]
    | cons d t' =>
      rw [comment_scan_cons_cons] at h
      split at h
      · simp at h
      · rename_i hc
        simp at h
        cases j with
        | zero =>
          simp only [is_comment_start_from]
          simp only [not_and, ne_eq, Decidable.not_not] at hc
          by_cases hcc : c = '/'
          · by_cases hd : d = '/'
            · simp [hcc, hd, hc hcc hd]
            · simp [hd]
          · simp [hcc]
        | succ j =>
          rw [is_comment_start_from_succ]
          exact ih (some c) h j

theorem rtrim_decomp (s : CStr) :
    ∃ ws : CStr, ws.all isspace = true ∧ s = rtrim s ++ ws := by
  refine ⟨(s.reverse.takeWhile isspace).reverse, ?_, ?_⟩
  · rw [List.all_reverse]; exact List.all_takeWhile
  · unfold rtrim
    rw [← List.reverse_append, List.takeWhile_append_dropWhile, List.reverse_reverse]

/-- The two segments and the whitespace cut between them make up the line. -/
theorem split_decomp (line : CStr) :
    ∃ ws : CStr, ws.all isspace = true ∧
      line = (split_trailing_inline_comment line).1 ++ ws ++
        (split_trailing_inline_comment line).2 := by
  unfold split_trailing_inline_comment
  cases h : comment_scan none line with
  | none => exact ⟨[], rfl, by simp⟩
  | some p =>
    obtain ⟨pre, com⟩ := p
    obtain ⟨h1, -, -⟩ := comment_scan_some line none pre com h
    obtain ⟨ws, hws, hpre⟩ := rtrim_decomp pre
    refine ⟨ws, hws, ?_⟩
    simp only
    rw [← hpre]; exact h1

/-! ## Fix output -/

theorem process_line_out (req : Bool) (st : ScanState) (raw next : CStr) :
    (process_line req st raw next).out =
      if (process_line req st raw next).reported = true then
        (split_trailing_inline_comment raw).1 ++ ';' :: (split_trailing_inline_comment raw).2
      else raw := by
  simp only [process_line]
  split
  · split
    · rfl
    · rename_i h; simp at h; simp [h]
  · rfl

/-- A rewritten line never equals the line it replaces. -/
theorem fixed_ne_raw (raw : CStr) :
    (split_trailing_inline_comment raw).1 ++ ';' :: (split_trailing_inline_comment raw).2 ≠
      raw := by
  obtain ⟨ws, hws, hraw⟩ := split_decomp raw
  intro h
  generalize (split_trailing_inline_comment raw).1 = code at h hraw
  generalize (split_trailing_inline_comment raw).2 = comment at h hraw
  rw [hraw] at h
  have h2 := congrArg (List.count ';') h
  have hws0 : List.count ';' ws = 0 := by
    rw [List.count_eq_zero]
    intro hmem
    have := List.all_eq_true.mp hws _ hmem
    revert this; decide
  simp [List.count_append, List.count_cons, hws0] at h2

theorem fix_output_get (req : Bool) (lines : List CStr) (k : Nat) (raw : CStr)
    (h : lines[k]? = some raw) :
    (fix_output req lines)[k]? =
      some (process_line req (run_state ScanState.init (lines.take k)) raw
        (lines.getD (k + 1) [])).out := by
  simp [fix_output, scan_file_get req lines k raw h]

/-- C3: the fix output has as many lines as the input; a reported line is
written as `code ++ ";" ++ comment` and any other line as it was read, so the
changed lines are exactly the reported ones. -/
theorem fix_output_lines (req : Bool) (lines : List CStr) :
    (fix_output req lines).length = lines.length ∧
    ∀ k raw, lines[k]? = some raw →
      ∃ r, (scan_file req lines)[k]? = some (k + 1, r) ∧
        (r.reported = true ↔ k + 1 ∈ violations req lines) ∧
        (fix_output req lines)[k]? = some
          (if k + 1 ∈ violations req lines then
            (split_trailing_inline_comment raw).1 ++ ";".toList ++
              (split_trailing_inline_comment raw).2
          else raw) ∧
        ((fix_output req lines)[k]? ≠ some raw ↔ k + 1 ∈ violations req lines) := by
  refine ⟨by simp [fix_output, scan_file_length], ?_⟩
  intro k raw hraw
  have hget := scan_file_get req lines k raw hraw
  have hout := fix_output_get req lines k raw hraw
  have hpo := process_line_out req (run_state ScanState.init (lines.take k)) raw
    (lines.getD (k + 1) [])
  have hiff : (process_line req (run_state ScanState.init (lines.take k)) raw
      (lines.getD (k + 1) [])).reported = true ↔ k + 1 ∈ violations req lines := by
    constructor
    · intro hr
      exact (mem_violations req lines (k + 1)).mpr ⟨k, _, rfl, hget, hr⟩
    · intro hv
      cases hr : (process_line req (run_state ScanState.init (lines.take k)) raw
        (lines.getD (k + 1) [])).reported
      · exact absurd hv (not_mem_violations req lines k _ hget hr)
      · rfl
  generalize process_line req (run_state ScanState.init (lines.take k)) raw
    (lines.getD (k + 1) []) = r at hget hout hiff hpo
  refine ⟨r, hget, hiff, ?_, ?_⟩
  · rw [hout, hpo]
    by_cases hv : k + 1 ∈ violations req lines
    · rw [if_pos hv, if_pos (hiff.mpr hv)]; simp
    · rw [if_neg hv, if_neg (fun h => hv (hiff.mp h))]
  · rw [hout, hpo]
    by_cases hv : k + 1 ∈ violations req lines
    · rw [if_pos (hiff.mpr hv)]
      simp only [hv, iff_true]
      intro h
      exact fixed_ne_raw raw (Option.some.inj h)
    · rw [if_neg (fun h => hv (hiff.mp h))]
      simp [hv]

theorem fix_output_lines_witness :
    (fix_output true (file_of ["let x = 1  // one", "f(x);"])).length = 2 ∧
    (fix_output true (file_of ["let x = 1  // one", "f(x);"]))[0]? =
      some "let x = 1;// one".toList ∧
    0 + 1 ∈ violations true (file_of ["let x = 1  // one", "f(x);"]) := by
  obtain ⟨hlen, h⟩ := fix_output_lines true (file_of ["let x = 1  // one", "f(x);"])
  obtain ⟨r, -, -, hout, hch⟩ := h 0 "let x = 1  // one".toList (by decide)
  have hv : 0 + 1 ∈ violations true (file_of ["let x = 1  // one", "f(x);"]) := by decide
  refine ⟨hlen, ?_, hv⟩
  rw [hout, if_pos hv]
  decide

/-! ## Trailing comma and operators -/

theorem suppress_of_trailing (pd bd : Int) (code raw nt : CStr) (c : Char)
    (hend : code.getLast? = some c)
    (hc : c ∈ [',', '+', '-', '*', '/', '%', '^', '|', '&']) :
    suppress_continuation pd bd code raw nt = true := by
  obtain ⟨hne, hlen, hlast⟩ := lastChar_of_getLast? code c hend
  rw [suppress_continuation_eq, hlast]
  have h1 : decide (code.length > 0) = true := by simpa using hlen
  have h2 : (c == ',' || is_binop c) = true := by
    revert hc; simp only [List.mem_cons, List.mem_singleton, List.not_mem_nil, or_false]
    rintro (h | h | h | h | h | h | h | h | h) <;> subst h <;> decide
  rw [h1]
  cases h3 : (c == ',') <;> simp_all

/-- C5: a line whose code segment ends with `,` or with one of
`+ - * / % ^ | &` is suppressed and not reported, whatever the counters, the
configuration and the next line are. -/
theorem trailing_comma_or_operator_suppressed (req : Bool) (lines : List CStr) (k : Nat)
    (raw : CStr) (c : Char) (hraw : lines[k]? = some raw)
    (hend : (split_trailing_inline_comment raw).1.getLast? = some c)
    (hc : c ∈ [',', '+', '-', '*', '/', '%', '^', '|', '&']) :
    (∀ st next, (process_line req st raw next).suppress = true ∧
      (process_line req st raw next).reported = false) ∧
    (∃ r, (scan_file req lines)[k]? = some (k + 1, r) ∧ r.suppress = true ∧
      r.reported = false) ∧
    k + 1 ∉ violations req lines := by
  have hall : ∀ st next, (process_line req st raw next).suppress = true ∧
      (process_line req st raw next).reported = false := by
    intro st next
    have hs := suppress_of_continuation req st raw next
      (suppress_of_trailing _ _ _ raw (ltrim next) c hend hc)
    exact ⟨hs, not_reported_of_suppress req st raw next hs⟩
  have hget := scan_file_get req lines k raw hraw
  exact ⟨hall, ⟨_, hget, (hall _ _).1, (hall _ _).2⟩,
    not_mem_violations req lines k _ hget (hall _ _).2⟩

theorem trailing_comma_or_operator_suppressed_witness :
    0 + 1 ∉ violations true (file_of ["let x = 1,"]) ∧
    violations true (file_of ["let x = 1,"]) = [] ∧
    violations false (file_of ["let x = 1,"]) = [] ∧
    violations true (file_of ["i++", "j--"]) = [] :=
  ⟨(trailing_comma_or_operator_suppressed true (file_of ["let x = 1,"]) 0 "let x = 1,".toList
      ',' (by decide) (by decide) (by decide)).2.2,
    by decide, by decide, by decide⟩

theorem rtrim_last_not_space (s : CStr) (c : Char) (h : (rtrim s).getLast? = some c) :
    isspace c = false := by
  have hne : rtrim s ≠ [] := by
    intro h0; rw [h0] at h; simp at h
  have h1 : ¬ isspace ((List.rdropWhile isspace s).getLast hne) = true :=
    List.rdropWhile_last_not isspace s hne
  have h2 : (rtrim s).getLast? = some ((List.rdropWhile isspace s).getLast hne) :=
    List.getLast?_eq_getLast _ hne
  rw [h] at h2
  rw [Option.some.inj h2]
  simpa using h1

theorem split_of_first_start (line : CStr) (i : Nat) (hi : is_comment_start line i = true)
    (hmin : ∀ j, j < i → is_comment_start line j = false) :
    comment_scan none line = some (line.take i, line.drop i) := by
  cases h : comment_scan none line with
  | none =>
    have := comment_scan_none line none h i
    rw [← is_comment_start_eq, hi] at this
    exact Bool.noConfusion this
  | some p =>
    obtain ⟨pre, com⟩ := p
    obtain ⟨h1, h2, h3⟩ := comment_scan_some line none pre com h
    have hlen : pre.length = i := by
      rcases Nat.lt_trichotomy pre.length i with hlt | heq | hgt
      · have := hmin _ hlt
        rw [is_comment_start_eq, h2] at this
        exact Bool.noConfusion this
      · exact heq
      · have := h3 _ hgt
        rw [← is_comment_start_eq, hi] at this
        exact Bool.noConfusion this
    subst hlen
    rw [h1]
    simp

theorem split_of_no_start (line : CStr) (h : ∀ i, is_comment_start line i = false) :
    split_trailing_inline_comment line = (line, []) := by
  unfold split_trailing_inline_comment
  cases hs : comment_scan none line with
  | none => rfl
  | some p =>
    obtain ⟨pre, com⟩ := p
    obtain ⟨-, h2, -⟩ := comment_scan_some line none pre com hs
    rw [← is_comment_start_eq, h] at h2
    exact Bool.noConfusion h2

/-- C9: `split_trailing_inline_comment` is the comment splitter of the spec.
With `i` the first index where `//` stands and is not preceded by `:`, the
code is the text before `i` without its trailing whitespace and the comment is
the text from `i` on, so the comment starts with `//`, the code does not end
in whitespace and the line is code, whitespace, comment; when there is no such
index the code is the whole line as it is and the comment is empty, which is
the case of a line whose every `//` comes right after a `:`. -/
theorem split_matches_comment_splitter (line : CStr) :
    (∀ i, is_comment_start line i = true →
      (∀ j, j < i → is_comment_start line j = false) →
      split_trailing_inline_comment line = (rtrim (line.take i), line.drop i) ∧
      "//".toList <+: (split_trailing_inline_comment line).2 ∧
      (∀ c, (split_trailing_inline_comment line).1.getLast? = some c → isspace c = false) ∧
      ∃ ws : CStr, ws.all isspace = true ∧
        line = (split_trailing_inline_comment line).1 ++ ws ++
          (split_trailing_inline_comment line).2) ∧
    ((∀ i, is_comment_start line i = false) →
      split_trailing_inline_comment line = (line, [])) ∧
    ((∀ i, line.get? i = some '/' → line.get? (i + 1) = some '/' →
        0 < i ∧ line.get? (i - 1) = some ':') →
      split_trailing_inline_comment line = (line, [])) := by
  refine ⟨?_, split_of_no_start line, ?_⟩
  · intro i hi hmin
    have hs := split_of_first_start line i hi hmin
    have heq : split_trailing_inline_comment line = (rtrim (line.take i), line.drop i) := by
      unfold split_trailing_inline_comment; rw [hs]
    refine ⟨heq, ?_, ?_, split_decomp line⟩
    · rw [heq]
      simp only [is_comment_start, Bool.and_eq_true, beq_iff_eq] at hi
      obtain ⟨⟨h0, h1⟩, -⟩ := hi
      have hd0 : (line.drop i).get? 0 = some '/' := by
        rw [List.get?_eq_getElem?, List.getElem?_drop]; simpa using h0
      have hd1 : (line.drop i).get? 1 = some '/' := by
        rw [List.get?_eq_getElem?, List.getElem?_drop]; simpa using h1
      generalize line.drop i = d at hd0 hd1
      match d, hd0, hd1 with
      | a :: b :: rest, hd0, hd1 =>
        simp at hd0 hd1
        subst hd0 hd1
        exact ⟨rest, rfl⟩
    · intro c hc
      rw [heq] at hc
      exact rtrim_last_not_space _ c hc
  · intro h
    apply split_of_no_start
    intro i
    cases hi : is_comment_start line i
    · rfl
    · simp only [is_comment_start, Bool.and_eq_true, beq_iff_eq, Bool.or_eq_true,
        bne_iff_ne, ne_eq] at hi
      obtain ⟨⟨h0, h1⟩, h2⟩ := hi
      obtain ⟨hpos, hprev⟩ := h i h0 h1
      rcases h2 with h2 | h2
      · omega
      · exact absurd hprev h2

theorem split_matches_comment_splitter_witness :
    split_trailing_inline_comment "x = 1  // see http://a".toList =
      ("x = 1".toList, "// see http://a".toList) ∧
    split_trailing_inline_comment "const url = \"http://example.com\"".toList =
      ("const url = \"http://example.com\"".toList, []) ∧
    split_trailing_inline_comment "a = b:///c ".toList = ("a = b:/".toList, "//c ".toList) ∧
    split_trailing_inline_comment "x = 1 ".toList = ("x = 1 ".toList, []) := by
  refine ⟨?_, ?_, by decide, by decide⟩
  · have h := (split_matches_comment_splitter "x = 1  // see http://a".toList).1 7
      (by decide) (by decide)
    rw [h.1]; decide
  · apply (split_matches_comment_splitter "const url = \"http://example.com\"".toList).2.2
    have hb : ∀ i, i < 40 →
        "const url = \"http://example.com\"".toList.get? i = some '/' →
        "const url = \"http://example.com\"".toList.get? (i + 1) = some '/' →
        0 < i ∧ "const url = \"http://example.com\"".toList.get? (i - 1) = some ':' := by
      decide
    intro i h0 h1
    by_cases hi : i < 40
    · exact hb i hi h0 h1
    · rw [List.get?_eq_none.mpr (by simp only [String.toList]; simp at hi ⊢; omega)] at h0
      exact Option.noConfusion h0

/-! ## Exit status -/

/-- C10: the exit status is 1 exactly when the `missing` vector is non-empty
and fix mode is off, and 0 otherwise; `main` exits with that status, and with
an empty candidate list, or one that holds no existing `.js` file, it exits 0
without running the line loop on any file. -/
theorem exit_status_spec (req fix : Bool) (fs : FileSys) (files : List CStr)
    (missing : List Violation) :
    (exit_status missing fix = 1 ↔ (missing ≠ [] ∧ fix = false)) ∧
    (exit_status missing fix = 0 ↔ (missing = [] ∨ fix = true)) ∧
    (main_run req fix fs files).status = exit_status (main_run req fix fs files).missing fix ∧
    ((files = [] ∨ files.filter (fun f => has_js_ext f && fs.is_regular f) = []) →
      (main_run req fix fs files).status = 0 ∧ (main_run req fix fs files).scanned = [] ∧
      (main_run req fix fs files).missing = []) := by
  refine ⟨?_, ?_, ?_, ?_⟩
  · cases missing <;> cases fix <;> simp [exit_status]
  · cases missing <;> cases fix <;> simp [exit_status]
  · unfold main_run
    split
    · rfl
    · simp only []
      split <;> rfl
  · rintro (h | h)
    · subst h; simp [main_run]
    · unfold main_run
      split
      · simp
      · simp [h]

theorem exit_status_spec_witness :
    (main_run true false sample_fs []).status = 0 ∧
    (main_run true false sample_fs [] ).scanned = [] ∧
    (main_run true false sample_fs (file_of ["notes.txt", "gone.js"])).status = 0 ∧
    (main_run true false sample_fs (file_of ["notes.txt", "gone.js"])).scanned = [] ∧
    (main_run true false sample_fs (file_of ["a.js", "b.js"])).status = 1 ∧
    (main_run true true sample_fs (file_of ["a.js", "b.js"])).status = 0 ∧
    (main_run true false sample_fs (file_of ["b.js"])).status = 0 := by
  have h1 := (exit_status_spec true false sample_fs [] []).2.2.2 (Or.inl rfl)
  have h2 := (exit_status_spec true false sample_fs (file_of ["notes.txt", "gone.js"]) []).2.2.2
    (Or.inr (by decide))
  exact ⟨h1.1, h1.2.1, h2.1, h2.2.1, by decide, by decide, by decide⟩

/-! ## The declaration block -/

theorem step_state_in_var (st : ScanState) (raw : CStr) :
    (step_state st raw).in_var_block =
      (var_block_step st.in_var_block raw (ltrim raw) false).1 := by
  simp only [step_state, process_line]
  exact var_block_step_fst _ _ _ _ _

theorem var_block_step_pending (raw trimmed : CStr) (s : Bool) :
    var_block_step true raw trimmed s = (!raw.contains ';', true) := by
  unfold var_block_step
  cases h : raw.contains ';' <;> simp [h]

theorem var_block_step_trigger (raw trimmed : CStr) (s : Bool)
    (h : trimmed ∈ ["const".toList, "let".toList, "var".toList]) :
    var_block_step false raw trimmed s = (!raw.contains ';', true) := by
  have h1 : (streq trimmed "const" || streq trimmed "let" || streq trimmed "var") = true := by
    simp only [List.mem_cons, List.mem_singleton, List.not_mem_nil, or_false] at h
    simp only [streq, Bool.or_eq_true, beq_iff_eq]
    tauto
  unfold var_block_step
  cases h2 : raw.contains ';' <;> simp [h1, h2]

/-- The loop body on a line reached or entered with the declaration block
pending sets `suppress` and leaves the block pending unless the line holds a
`;`. -/
theorem process_line_in_var (req : Bool) (st : ScanState) (raw next : CStr)
    (h : st.in_var_block = true ∨
      ltrim raw ∈ ["const".toList, "let".toList, "var".toList]) :
    (process_line req st raw next).suppress = true ∧
    (process_line req st raw next).reported = false ∧
    (process_line req st raw next).st.in_var_block = !raw.contains ';' := by
  have hv : ∀ s, var_block_step st.in_var_block raw (ltrim raw) s = (!raw.contains ';', true) := by
    intro s
    rcases h with h | h
    · rw [h]; exact var_block_step_pending _ _ _
    · cases hb : st.in_var_block
      · exact var_block_step_trigger _ _ _ h
      · exact var_block_step_pending _ _ _
  have hs : (process_line req st raw next).suppress = true := by
    simp only [process_line]
    apply suppress_logical_mono
    apply return_block_step_mono
    apply cond_block_step_mono
    rw [hv]
  refine ⟨hs, not_reported_of_suppress req st raw next hs, ?_⟩
  rw [process_line_st, step_state_in_var, hv]

theorem no_semicolon_of_ltrim_keyword (raw : CStr)
    (h : ltrim raw ∈ ["const".toList, "let".toList, "var".toList]) :
    raw.contains ';' = false := by
  have hdec : raw = raw.takeWhile isspace ++ ltrim raw :=
    (List.takeWhile_append_dropWhile isspace raw).symm
  have h1 : ∀ c ∈ raw.takeWhile isspace, c ≠ ';' := by
    intro c hc heq
    have := List.mem_takeWhile_imp hc
    rw [heq] at this
    revert this; decide
  have h2 : ∀ c ∈ ltrim raw, c ≠ ';' := by
    simp only [List.mem_cons, List.mem_singleton, List.not_mem_nil, or_false] at h
    rcases h with h | h | h <;> rw [h] <;> decide
  rw [Bool.eq_false_iff]
  intro hc
  simp only [List.contains_iff_exists_mem_beq, beq_iff_eq] at hc
  obtain ⟨c, hc, rfl⟩ := hc
  rw [hdec, List.mem_append] at hc
  rcases hc with hc | hc
  · exact h1 _ hc rfl
  · exact h2 _ hc rfl

/-- From the trigger line on, the block is pending after every line as long
as no line after the trigger holds a `;`. -/
theorem in_var_after (lines : List CStr) (t : Nat) (traw : CStr)
    (ht : lines[t]? = some traw)
    (hidle : (run_state ScanState.init (lines.take t)).in_var_block = false)
    (htrig : ltrim traw ∈ ["const".toList, "let".toList, "var".toList]) :
    ∀ d, t + d < lines.length →
      (∀ i l, t < i → i ≤ t + d → lines[i]? = some l → l.contains ';' = false) →
      (run_state ScanState.init (lines.take (t + d + 1))).in_var_block = true := by
  intro d
  induction d with
  | zero =>
    intro hlen hno
    have htk : lines.take (t + 0 + 1) = lines.take t ++ [traw] := by
      rw [Nat.add_zero, List.take_succ, ht]; rfl
    rw [htk, run_state, List.foldl_append]
    have := (process_line_in_var true (run_state ScanState.init (lines.take t)) traw []
      (Or.inr htrig)).2.2
    rw [process_line_st, no_semicolon_of_ltrim_keyword traw htrig] at this
    simpa [run_state] using this
  | succ d ih =>
    intro hlen hno
    have hprev := ih (by omega) (fun i l h1 h2 h3 => hno i l h1 (by omega) h3)
    have hget : lines[t + d + 1]? = some lines[t + d + 1] := List.getElem?_eq_getElem (by omega)
    have htk : lines.take (t + (d + 1) + 1) = lines.take (t + d + 1) ++ [lines[t + d + 1]] := by
      rw [show t + (d + 1) + 1 = (t + d + 1) + 1 from rfl, List.take_succ, hget]; rfl
    rw [htk, run_state, List.foldl_append]
    have := (process_line_in_var true (run_state ScanState.init (lines.take (t + d + 1)))
      lines[t + d + 1] [] (Or.inl hprev)).2.2
    rw [process_line_st, hno (t + d + 1) _ (by omega) (by omega) hget] at this
    simpa [run_state] using this

/-- C7: when a line that is exactly `const`, `let` or `var` after its leading
whitespace is reached with the declaration block idle, that line and every
later line up to and including the first one that holds a `;` are suppressed
and not reported; after each of them the block is pending unless the line
holds a `;`, so it is idle again right after the closing line. -/
theorem declaration_block_suppressed (req : Bool) (lines : List CStr) (t j : Nat)
    (traw raw : CStr) (ht : lines[t]? = some traw)
    (hidle : (state_before req lines t).in_var_block = false)
    (htrig : ltrim traw ∈ ["const".toList, "let".toList, "var".toList])
    (htj : t ≤ j) (hj : lines[j]? = some raw)
    (hno : ∀ i l, t < i → i < j → lines[i]? = some l → l.contains ';' = false) :
    ∃ r, (scan_file req lines)[j]? = some (j + 1, r) ∧ r.suppress = true ∧
      r.reported = false ∧ j + 1 ∉ violations req lines ∧
      r.st.in_var_block = !raw.contains ';' ∧
      (state_before req lines (j + 1)).in_var_block = !raw.contains ';' := by
  have htlen : t < lines.length := by
    by_contra hge
    rw [List.getElem?_eq_none (by omega)] at ht
    exact Option.noConfusion ht
  have hjlen : j < lines.length := by
    by_contra hge
    rw [List.getElem?_eq_none (by omega)] at hj
    exact Option.noConfusion hj
  rw [state_before_eq req lines t (by omega)] at hidle
  have hget := scan_file_get req lines j raw hj
  have hcond : (run_state ScanState.init (lines.take j)).in_var_block = true ∨
      ltrim raw ∈ ["const".toList, "let".toList, "var".toList] := by
    rcases Nat.eq_or_lt_of_le htj with heq | hlt
    · subst heq
      rw [ht] at hj
      rw [← Option.some.inj hj]
      exact Or.inr htrig
    · left
      obtain ⟨d, rfl⟩ : ∃ d, j = t + d + 1 := ⟨j - t - 1, by omega⟩
      exact in_var_after lines t traw ht hidle htrig d (by omega)
        (fun i l h1 h2 h3 => hno i l h1 (by omega) h3)
  obtain ⟨h1, h2, h3⟩ := process_line_in_var req _ raw (lines.getD (j + 1) []) hcond
  refine ⟨_, hget, h1, h2, not_mem_violations req lines j _ hget h2, h3, ?_⟩
  simp only [state_before, hget]
  exact h3

theorem declaration_block_suppressed_witness :
    violations true (file_of ["const", "  \x7ba, b\x7d = obj;"]) = [] ∧
    (state_before true (file_of ["const", "  \x7ba, b\x7d = obj;"]) 1).in_var_block = true ∧
    (state_before true (file_of ["const", "  \x7ba, b\x7d = obj;"]) 2).in_var_block = false ∧
    1 + 1 ∉ violations true (file_of ["const", "  \x7ba, b\x7d = obj;"]) := by
  obtain ⟨r, -, -, -, hv, -, hst⟩ := declaration_block_suppressed true
    (file_of ["const", "  \x7ba, b\x7d = obj;"]) 0 1 "const".toList
    "  \x7ba, b\x7d = obj;".toList (by decide) (by decide) (by decide) (by decide) (by decide)
    (by intro i l h1 h2; omega)
  exact ⟨by decide, by decide, by decide, hv⟩

/-! ## Trimming and splitting -/

theorem isspace_ne (c x : Char) (hc : isspace c = true) (hx : isspace x = false) : c ≠ x := by
  intro h; rw [h, hx] at hc; exact Bool.noConfusion hc

theorem comment_scan_prev (prev : Option Char) (s : CStr) (h : prev ≠ some ':') :
    comment_scan prev s = comment_scan none s := by
  cases s with
  | nil => rfl
  | cons c t =>
    cases t with
    | nil => rfl
    | cons d t' =>
      rw [comment_scan_cons_cons, comment_scan_cons_cons]
      simp [h]

theorem comment_scan_space_cons (prev : Option Char) (c : Char) (t : CStr)
    (hc : isspace c = true) :
    comment_scan prev (c :: t) = (comment_scan none t).map (fun p => (c :: p.1, p.2)) := by
  cases t with
  | nil => rfl
  | cons d t' =>
    have h1 : c ≠ '/' := isspace_ne c _ hc (by decide)
    have h2 : c ≠ ':' := isspace_ne c _ hc (by decide)
    rw [comment_scan_cons_cons, if_neg (fun h => h1 h.1),
      comment_scan_prev (some c) _ (by simpa using h2)]

theorem comment_scan_ws_append (ws s : CStr) (hws : ws.all isspace = true) :
    comment_scan none (ws ++ s) = (comment_scan none s).map (fun p => (ws ++ p.1, p.2)) := by
  induction ws with
  | nil => simp
  | cons c ws ih =>
    simp only [List.all_cons, Bool.and_eq_true] at hws
    rw [List.cons_append, comment_scan_space_cons none c _ hws.1, ih hws.2]
    cases comment_scan none s <;> simp

theorem rtrim_cons_of_not_space (a : Char) (t : CStr) (ha : isspace a = false) :
    rtrim (a :: t) = a :: rtrim t := by
  unfold rtrim
  rw [List.reverse_cons, List.dropWhile_append]
  split
  · rename_i h
    rw [List.isEmpty_iff] at h
    simp [h, List.dropWhile, ha]
  · simp

theorem rtrim_append_of_ne_nil (x y : CStr) (hy : rtrim y ≠ []) :
    rtrim (x ++ y) = x ++ rtrim y := by
  unfold rtrim at hy ⊢
  rw [List.reverse_append, List.dropWhile_append]
  split
  · rename_i h
    rw [List.isEmpty_iff] at h
    rw [h] at hy
    exact absurd rfl hy
  · simp

theorem rtrim_of_all_space (ws : CStr) (h : ws.all isspace = true) : rtrim ws = [] := by
  unfold rtrim
  rw [List.reverse_eq_nil_iff, List.dropWhile_eq_nil_iff]
  intro c hc
  exact List.all_eq_true.mp h c (List.mem_reverse.mp hc)

theorem ltrim_head_not_space (s : CStr) (a : Char) (t : CStr) (h : ltrim s = a :: t) :
    isspace a = false := by
  have := List.head?_dropWhile_not isspace s
  unfold ltrim at h
  rw [h] at this
  simpa using this

theorem ltrim_ws_append (ws s : CStr) (hws : ws.all isspace = true) :
    ltrim (ws ++ s) = ltrim s := by
  unfold ltrim
  exact List.dropWhile_append_of_pos (fun a ha => List.all_eq_true.mp hws a ha)

theorem ltrim_cons_of_not_space (a : Char) (t : CStr) (ha : isspace a = false) :
    ltrim (a :: t) = a :: t := by
  unfold ltrim
  rw [List.dropWhile_cons_of_neg]
  simp [ha]

theorem ltrim_decomp (s : CStr) :
    (s.takeWhile isspace).all isspace = true ∧ s = s.takeWhile isspace ++ ltrim s :=
  ⟨List.all_takeWhile, (List.takeWhile_append_dropWhile isspace s).symm⟩

/-- Splitting the left-trimmed line gives the left-trimmed code segment and
the same comment. -/
theorem split_ltrim (raw : CStr) :
    split_trailing_inline_comment (ltrim raw) =
      (ltrim (split_trailing_inline_comment raw).1, (split_trailing_inline_comment raw).2) := by
  obtain ⟨hws, hdec⟩ := ltrim_decomp raw
  generalize raw.takeWhile isspace = ws at hws hdec
  have hscan := comment_scan_ws_append ws (ltrim raw) hws
  rw [← hdec] at hscan
  unfold split_trailing_inline_comment
  rw [hscan]
  cases hs : comment_scan none (ltrim raw) with
  | none => rfl
  | some p =>
    obtain ⟨pre, com⟩ := p
    simp only [Option.map_some']
    congr 1
    obtain ⟨h1, -, -⟩ := comment_scan_some _ none pre com hs
    cases pre with
    | nil =>
      rw [List.append_nil, rtrim_of_all_space ws hws]
      rfl
    | cons a pre' =>
      have ha : isspace a = false := ltrim_head_not_space raw a (pre' ++ com) (by simpa using h1)
      rw [rtrim_append_of_ne_nil ws (a :: pre') (by rw [rtrim_cons_of_not_space a pre' ha]; simp),
        rtrim_cons_of_not_space a pre' ha, ltrim_ws_append ws _ hws,
        ltrim_cons_of_not_space a _ ha]

theorem ltrim_append_of_ne_nil (x y : CStr) (hx : ltrim x ≠ []) :
    ltrim (x ++ y) = ltrim x ++ y := by
  unfold ltrim at hx ⊢
  rw [List.dropWhile_append]
  split
  · rename_i h
    rw [List.isEmpty_iff] at h
    exact absurd h hx
  · rfl

/-- The left-trimmed line begins with the left-trimmed code segment when that
is not empty. -/
theorem ltrim_code_leads (raw : CStr)
    (h : ltrim (split_trailing_inline_comment raw).1 ≠ []) :
    ltrim (split_trailing_inline_comment raw).1 <+: ltrim raw := by
  obtain ⟨ws, -, hraw⟩ := split_decomp raw
  generalize (split_trailing_inline_comment raw).1 = code at h hraw
  generalize (split_trailing_inline_comment raw).2 = comment at hraw
  rw [hraw, List.append_assoc, ltrim_append_of_ne_nil code _ h]
  exact List.prefix_append _ _

/-! ## Last characters -/

theorem lastChar_concat (pre : CStr) (y : Char) : lastChar (pre ++ [y]) = y := by
  simp [lastChar]

theorem last2Char_concat (pre : CStr) (x y : Char) : last2Char (pre ++ [x, y]) = x := by
  have h : (pre ++ [x, y]).length - 2 = pre.length := by simp
  rw [last2Char, h, charAt, List.getD_eq_getElem?_getD, List.getElem?_append_right (le_refl _)]
  simp

theorem exists_last_two (s : CStr) (h : s.length ≥ 2) : ∃ pre x y, s = pre ++ [x, y] := by
  rcases List.eq_nil_or_concat s with h0 | ⟨s1, y, rfl⟩
  · subst h0; simp at h
  · rcases List.eq_nil_or_concat s1 with h1 | ⟨s2, x, rfl⟩
    · subst h1; simp at h
    · exact ⟨s2, x, y, by simp⟩

theorem ends1_iff (s : CStr) (c : Char) :
    (decide (s.length > 0) && lastChar s == c) = true ↔ s.getLast? = some c := by
  rcases List.eq_nil_or_concat s with h0 | ⟨s1, y, rfl⟩
  · subst h0; simp
  · simp [lastChar_concat]

theorem ends2_iff (s : CStr) (a b : Char) :
    (decide (s.length ≥ 2) && last2Char s == a && lastChar s == b) = true ↔ [a, b] <:+ s := by
  by_cases h : s.length ≥ 2
  · obtain ⟨pre, x, y, rfl⟩ := exists_last_two s h
    rw [show pre ++ [x, y] = (pre ++ [x]) ++ [y] by simp, lastChar_concat,
      show (pre ++ [x]) ++ [y] = pre ++ [x, y] by simp, last2Char_concat]
    simp only [h, decide_True, Bool.true_and, Bool.and_eq_true, beq_iff_eq]
    constructor
    · rintro ⟨rfl, rfl⟩; exact List.suffix_append _ _
    · intro hs
      have h2 : [x, y] <:+ pre ++ [x, y] := List.suffix_append _ _
      have h3 := List.suffix_or_suffix_of_suffix hs h2
      have h4 : [a, b] = [x, y] := by
        rcases h3 with h3 | h3
        · exact List.IsSuffix.eq_of_length h3 (by simp)
        · exact (List.IsSuffix.eq_of_length h3 (by simp)).symm
      simp at h4
      exact ⟨h4.1.symm, h4.2.symm⟩
  · simp only [h, decide_False, Bool.false_and]
    constructor
    · intro hf; exact Bool.noConfusion hf
    intro hs
    have := List.IsSuffix.length_le hs
    simp at this
    omega

theorem suffix_pair_concat (pre : CStr) (x y a b : Char) :
    [a, b] <:+ pre ++ [x, y] ↔ a = x ∧ b = y := by
  rw [← ends2_iff, show pre ++ [x, y] = (pre ++ [x]) ++ [y] by simp, lastChar_concat,
    show (pre ++ [x]) ++ [y] = pre ++ [x, y] by simp, last2Char_concat]
  simp
  constructor <;> rintro ⟨rfl, rfl⟩ <;> exact ⟨rfl, rfl⟩

theorem eq_nil_or_snoc (s : CStr) : s = [] ∨ ∃ pre y, s = pre ++ [y] := by
  rcases List.eq_nil_or_concat s with h0 | ⟨pre, y, h⟩
  · exact Or.inl h0
  · exact Or.inr ⟨pre, y, by simpa using h⟩

theorem has_trailing_structural_iff (code : CStr) :
    has_trailing_structural code = true ↔
      code = [] ∨ (∃ c, code.getLast? = some c ∧ c ∈ [';', '{', '}', ':', ',', '(']) ∨
        "=>".toList <:+ code := by
  rcases eq_nil_or_snoc code with h0 | ⟨pre, y, rfl⟩
  · subst h0; simp [has_trailing_structural]
  · have hlen : ((pre ++ [y]).length == 0) = false := by simp
    have h2 := ends2_iff (pre ++ [y]) '=' '>'
    have hA : (pre ++ [y] = []) ↔ False := by simp
    have hB : (∃ c, (pre ++ [y]).getLast? = some c ∧ c ∈ [';', '{', '}', ':', ',', '(']) ↔
        (y == ';' || y == '{' || y == '}' || y == ':' || y == ',' || y == '(') = true := by
      simp [or_assoc]
    unfold has_trailing_structural
    simp only [hlen, Bool.false_eq_true, if_false, lastChar_concat] at h2 ⊢
    rw [show "=>".toList = ['=', '>'] from rfl, ← h2, hA, hB]
    generalize (y == ';' || y == '{' || y == '}' || y == ':' || y == ',' || y == '(') = b1
    generalize (decide ((pre ++ [y]).length ≥ 2) && last2Char (pre ++ [y]) == '=' &&
      y == '>') = b2
    cases b1 <;> cases b2 <;> simp

theorem getLast?_ws_append (ws t : CStr) (ht : t ≠ []) :
    (ws ++ t).getLast? = t.getLast? := by
  rcases eq_nil_or_snoc t with h0 | ⟨pre, y, rfl⟩
  · exact absurd h0 ht
  · rw [← List.append_assoc]; simp

theorem suffix_pair_ws_append (ws t : CStr) (a b : Char) (hws : ws.all isspace = true)
    (ht : t ≠ []) (ha : isspace a = false) :
    [a, b] <:+ ws ++ t ↔ [a, b] <:+ t := by
  constructor
  · intro h
    rcases eq_nil_or_snoc t with h0 | ⟨t1, y, rfl⟩
    · exact absurd h0 ht
    · rcases eq_nil_or_snoc t1 with h1 | ⟨t2, x, rfl⟩
      · subst h1
        rcases eq_nil_or_snoc ws with h2 | ⟨ws1, w, rfl⟩
        · subst h2
          have := List.IsSuffix.length_le h
          simp at this
        · rw [List.nil_append, List.append_assoc] at h
          have := (suffix_pair_concat ws1 w y a b).mp h
          have hw : isspace w = true :=
            List.all_eq_true.mp hws w (by simp)
          rw [← this.1, ha] at hw
          exact Bool.noConfusion hw
      · rw [List.append_assoc] at h ⊢
        rw [← List.append_assoc] at h
        have := (suffix_pair_concat (ws ++ t2) x y a b).mp h
        exact (suffix_pair_concat t2 x y a b).mpr this
  · intro h
    exact h.trans (List.suffix_append _ _)

theorem has_trailing_structural_ltrim (code : CStr) (h : ltrim code ≠ []) :
    has_trailing_structural (ltrim code) = has_trailing_structural code := by
  obtain ⟨hws, hdec⟩ := ltrim_decomp code
  generalize code.takeWhile isspace = ws at hws hdec
  have hne : code ≠ [] := by
    intro h0; rw [h0] at h; exact h rfl
  rw [Bool.eq_iff_iff, has_trailing_structural_iff, has_trailing_structural_iff]
  have h1 : code.getLast? = (ltrim code).getLast? := by
    conv_lhs => rw [hdec]
    exact getLast?_ws_append ws _ h
  have h2 : "=>".toList <:+ code ↔ "=>".toList <:+ ltrim code := by
    conv_lhs => rw [hdec]
    exact suffix_pair_ws_append ws _ '=' '>' hws h (by decide)
  rw [h1, h2]
  simp [h, hne]

theorem starts_of_head_ne (s : CStr) (p : String) (c : Char) (hs : s.head? = some c)
    (hp : p.toList.head? ≠ some c) (hne : p.toList ≠ []) : starts s p = false := by
  unfold starts
  generalize p.toList = q at hp hne
  cases q with
  | nil => exact absurd rfl hne
  | cons d q' =>
    cases s with
    | nil => simp at hs
    | cons e s' =>
      simp at hs hp
      subst hs
      simp only [List.isPrefixOf, Bool.and_eq_false_imp, beq_iff_eq]
      intro h
      exact absurd h hp

theorem streq_of_head_ne (s : CStr) (p : String) (c : Char) (hs : s.head? = some c)
    (hp : p.toList.head? ≠ some c) : streq s p = false := by
  unfold streq
  rw [beq_eq_false_iff_ne]
  intro h
  rw [h] at hs
  exact hp hs

theorem starts_iff (s : CStr) (p : String) : starts s p = true ↔ p.toList <+: s := by
  unfold starts
  exact List.isPrefixOf_iff_prefix

theorem starts_mono (s t : CStr) (p : String) (h : starts s p = true) (hst : s <+: t) :
    starts t p = true := by
  rw [starts_iff] at h ⊢
  exact h.trans hst

/-- On code that begins with `return ` or `return(` the keyword test is the
negation of the flag. -/
theorem starts_keyword_return (req : Bool) (code : CStr)
    (h : starts code "return " = true ∨ starts code "return(" = true) :
    starts_keyword_no_semi req code = !req := by
  have hhead : code.head? = some 'r' := by
    rcases h with h | h <;> rw [starts_iff] at h <;> obtain ⟨t, rfl⟩ := h <;> rfl
  have hs : ∀ p : String, p.toList.head? ≠ some 'r' → p.toList ≠ [] → starts code p = false :=
    fun p hp hne => starts_of_head_ne code p 'r' hhead hp hne
  have hr : (starts code "return " || starts code "return(") = true := by
    rcases h with h | h <;> simp [h]
  unfold starts_keyword_no_semi
  rw [hs "if " (by decide) (by decide), hs "if(" (by decide) (by decide),
    hs "for " (by decide) (by decide), hs "for(" (by decide) (by decide),
    hs "while " (by decide) (by decide), hs "while(" (by decide) (by decide),
    hs "switch " (by decide) (by decide), hs "switch(" (by decide) (by decide),
    streq_of_head_ne code "else" 'r' hhead (by decide),
    hs "else " (by decide) (by decide), hs "try" (by decide) (by decide),
    hs "catch" (by decide) (by decide), hs "finally" (by decide) (by decide),
    hs "class " (by decide) (by decide), hs "export " (by decide) (by decide),
    hs "export\x7b" (by decide) (by decide), hs "import " (by decide) (by decide),
    hs "import(" (by decide) (by decide), hs "function " (by decide) (by decide),
    hs "async function " (by decide) (by decide), hr]
  cases req <;> rfl

theorem charAt_zero_of_starts (s : CStr) (p : String) (c : Char) (h : starts s p = true)
    (hp : p.toList.head? = some c) : charAt s 0 = c := by
  rw [starts_iff] at h
  obtain ⟨t, rfl⟩ := h
  generalize p.toList = q at hp
  cases q with
  | nil => simp at hp
  | cons d q' =>
    simp at hp
    subst hp
    rfl

/-- When the left-trimmed line is not blank before its comment, does not
begin with `*` or `/` and is not a bare `const`, `let` or `var`, the ignorable
verdict is the keyword test or the trailing-structure test on its code. -/
theorem is_ignorable_eq (req : Bool) (raw : CStr)
    (h1 : (ltrim (split_trailing_inline_comment raw).1).all isspace = false)
    (h2 : charAt (ltrim raw) 0 ≠ '*') (h3 : charAt (ltrim raw) 0 ≠ '/')
    (h4 : ltrim raw ∉ ["const".toList, "let".toList, "var".toList]) :
    is_ignorable_line_logic req raw =
      (starts_keyword_no_semi req (ltrim (split_trailing_inline_comment raw).1) ||
        has_trailing_structural (ltrim (split_trailing_inline_comment raw).1)) := by
  have hb : is_blank_after_comment (ltrim raw) = false := by
    unfold is_blank_after_comment
    rw [split_ltrim]; exact h1
  have hj : starts_jsdoc_star (ltrim raw) = false := by
    unfold starts_jsdoc_star
    have : starts (ltrim raw) "/**" = false := by
      cases hs : starts (ltrim raw) "/**"
      · rfl
      · exact absurd (charAt_zero_of_starts _ _ '/' hs rfl) h3
    simp [this, h2]
  have hc : is_comment_only (ltrim raw) = false := by
    unfold is_comment_only
    simp [h3]
  have hs : starts (ltrim raw) "/*" = false := by
    cases hs : starts (ltrim raw) "/*"
    · rfl
    · exact absurd (charAt_zero_of_starts _ _ '/' hs rfl) h3
  have hk : (streq (ltrim raw) "const" || streq (ltrim raw) "let" ||
      streq (ltrim raw) "var") = false := by
    simp only [List.mem_cons, List.mem_singleton, List.not_mem_nil, or_false, not_or] at h4
    simp only [streq, Bool.or_eq_false_iff, beq_eq_false_iff_ne, ne_eq]
    exact ⟨⟨h4.1, h4.2.1⟩, h4.2.2⟩
  unfold is_ignorable_line_logic
  simp only [hb, hj, hc, hs, hk, Bool.or_self, Bool.false_eq_true, if_false, split_ltrim]

theorem all_isspace_false_of_head (s : CStr) (c : Char) (h : s.head? = some c)
    (hc : isspace c = false) : s.all isspace = false := by
  cases s with
  | nil => simp at h
  | cons a t =>
    simp at h
    subst h
    simp [hc]

theorem charAt_zero_of_head (s : CStr) (c : Char) (h : s.head? = some c) : charAt s 0 = c := by
  cases s with
  | nil => simp at h
  | cons a t => simp at h; subst h; rfl

theorem head_of_leading (s t : CStr) (c : Char) (h : s <+: t) (hs : s.head? = some c) :
    t.head? = some c := by
  obtain ⟨u, rfl⟩ := h
  cases s with
  | nil => simp at hs
  | cons a s' => simpa using hs

/-- C8: the flag decides the exemption of `return` statements.  For a line
whose left-trimmed code begins with `return ` or `return(`: with the flag
false the line is never reported; with the flag true the keyword test gives no
exemption, the line is ignorable exactly when its code ends with one of
`; { } : , (` or with `=>`, and else it is reported exactly when it is not
suppressed and the need check says yes. -/
theorem return_exemption_follows_flag (lines : List CStr) (k : Nat) (raw : CStr)
    (hraw : lines[k]? = some raw)
    (hshape : "return ".toList <+: ltrim (split_trailing_inline_comment raw).1 ∨
      "return(".toList <+: ltrim (split_trailing_inline_comment raw).1) :
    (∀ st next, (process_line false st raw next).reported = false) ∧
    k + 1 ∉ violations false lines ∧
    starts_keyword_no_semi false (ltrim (split_trailing_inline_comment raw).1) = true ∧
    starts_keyword_no_semi true (ltrim (split_trailing_inline_comment raw).1) = false ∧
    (is_ignorable_line_logic true raw = true ↔
      ((∃ c, (split_trailing_inline_comment raw).1.getLast? = some c ∧
          c ∈ [';', '{', '}', ':', ',', '(']) ∨
        "=>".toList <:+ (split_trailing_inline_comment raw).1)) ∧
    (∀ st next, (process_line true st raw next).reported =
      (!(process_line true st raw next).suppress &&
        (!has_trailing_structural (split_trailing_inline_comment raw).1 &&
          needs_semicolon_codeonly (split_trailing_inline_comment raw).1))) := by
  have hst : starts (ltrim (split_trailing_inline_comment raw).1) "return " = true ∨
      starts (ltrim (split_trailing_inline_comment raw).1) "return(" = true := by
    rcases hshape with h | h
    · exact Or.inl ((starts_iff _ _).mpr h)
    · exact Or.inr ((starts_iff _ _).mpr h)
  have hhead : (ltrim (split_trailing_inline_comment raw).1).head? = some 'r' := by
    rcases hshape with h | h <;> obtain ⟨t, ht⟩ := h <;> rw [← ht] <;> rfl
  have hne : ltrim (split_trailing_inline_comment raw).1 ≠ [] := by
    intro h0; rw [h0] at hhead; simp at hhead
  have hcne : (split_trailing_inline_comment raw).1 ≠ [] := by
    intro h0; rw [h0] at hne; exact hne rfl
  have hthead : (ltrim raw).head? = some 'r' :=
    head_of_leading _ _ _ (ltrim_code_leads raw hne) hhead
  have hc0 : charAt (ltrim raw) 0 = 'r' := charAt_zero_of_head _ _ hthead
  have hign : ∀ req, is_ignorable_line_logic req raw =
      (!req || has_trailing_structural (split_trailing_inline_comment raw).1) := by
    intro req
    rw [is_ignorable_eq req raw (all_isspace_false_of_head _ _ hhead (by decide))
      (by rw [hc0]; decide) (by rw [hc0]; decide)
      (by
        intro hmem
        simp only [List.mem_cons, List.mem_singleton, List.not_mem_nil, or_false] at hmem
        rcases hmem with h | h | h <;> rw [h] at hthead <;> revert hthead <;> decide),
      starts_keyword_return req _ hst, has_trailing_structural_ltrim _ hne]
  have hfalse : ∀ st next, (process_line false st raw next).reported = false := by
    intro st next
    cases hr : (process_line false st raw next).reported
    · rfl
    · have := (reported_imp false st raw next hr).2.1
      rw [hign false] at this
      simp at this
  have hget := scan_file_get false lines k raw hraw
  refine ⟨hfalse, not_mem_violations false lines k _ hget (hfalse _ _),
    starts_keyword_return false _ hst, starts_keyword_return true _ hst, ?_, ?_⟩
  · rw [hign true]
    simp only [Bool.not_true, Bool.false_or]
    rw [has_trailing_structural_iff]
    simp [hcne]
  · intro st next
    have h1 : (process_line true st raw next).reported =
        (!(process_line true st raw next).suppress &&
          (!is_ignorable_line_logic true raw &&
            needs_semicolon_codeonly (split_trailing_inline_comment raw).1)) := rfl
    rw [h1, hign true]
    simp

theorem return_exemption_follows_flag_witness :
    violations true (file_of ["return x"]) = [1] ∧
    violations false (file_of ["return x"]) = [] ∧
    0 + 1 ∉ violations false (file_of ["return x"]) ∧
    violations true (file_of ["return x;", "return \x7b", "return(y)"]) = [3] := by
  have h := return_exemption_follows_flag (file_of ["return x"]) 0 "return x".toList
    (by decide) (Or.inl (by decide))
  exact ⟨by decide, by decide, h.2.1, by decide⟩

/-! ## The return block -/

/-- A line reached with the return block pending is suppressed. -/
theorem process_line_in_return (req : Bool) (st : ScanState) (raw next : CStr)
    (h : st.in_return_block = true) :
    (process_line req st raw next).suppress = true ∧
    (process_line req st raw next).reported = false := by
  have hs : (process_line req st raw next).suppress = true := by
    simp only [process_line]
    apply suppress_logical_mono
    unfold return_block_step
    simp [h]
  exact ⟨hs, not_reported_of_suppress req st raw next hs⟩

/-- C6: on the file `s = ")";` / `return (a` / `  .b);` the second line
starts the return block (the block is idle before it, the line begins with
`return (` and has one more `(` than `)`, and the block is pending after it),
yet the loop body leaves `suppress` unset on it and reports it, and fix mode
rewrites it to `return (a;`.  The four-line example of the spec gives no
violation, its first line being suppressed by the running depth. -/
theorem return_trigger_line_reported :
    (state_before true (file_of ["s = \")\";", "return (a", "  .b);"]) 1).in_return_block
      = false ∧
    starts_return_paren (ltrim "return (a".toList) = true ∧
    count_char (ltrim "return (a".toList) '(' - count_char (ltrim "return (a".toList) ')' = 1 ∧
    (state_before true (file_of ["s = \")\";", "return (a", "  .b);"]) 2).in_return_block
      = true ∧
    ((scan_file true (file_of ["s = \")\";", "return (a", "  .b);"]))[1]?.map
      (fun p => (p.2.suppress, p.2.reported))) = some (false, true) ∧
    violations true (file_of ["s = \")\";", "return (a", "  .b);"]) = [2] ∧
    fix_output true (file_of ["s = \")\";", "return (a", "  .b);"]) =
      file_of ["s = \")\";", "return (a;", "  .b);"] ∧
    violations true (file_of ["return (a) // (see below"]) = [1] ∧
    violations true (file_of ["return (", "  a &&", "  b", ")"]) = [] := by
  refine ⟨by decide, by decide, by decide, by decide, by decide, by decide, by decide,
    by decide, by decide⟩

/-! ## A single unterminated statement -/

theorem word_or_quote_ne (c x : Char) (hc : is_word_or_quote c = true)
    (hx : is_word_or_quote x = false) : c ≠ x := by
  intro h; rw [h, hx] at hc; exact Bool.noConfusion hc

theorem word_or_quote_not_space (c : Char) (hc : is_word_or_quote c = true) :
    isspace c = false := by
  cases hs : isspace c
  · rfl
  · exfalso
    have h1 : c.toNat = 32 ∨ (9 ≤ c.toNat ∧ c.toNat ≤ 13) := by
      simpa [isspace] using hs
    simp only [is_word_or_quote, isalnum, Bool.or_eq_true, Bool.and_eq_true,
      decide_eq_true_eq, beq_iff_eq] at hc
    rcases hc with (((hc | hc) | hc) | hc) | hc
    · omega
    · subst hc; revert h1; decide
    · subst hc; revert h1; decide
    · subst hc; revert h1; decide
    · subst hc; revert h1; decide

theorem depth_foldl_no_brackets (s : CStr) (h : ∀ c ∈ s, c ∉ ['(', ')', '[', ']']) :
    ∀ acc : Int × Int × Int,
      (s.foldl depth_step acc).1 = acc.1 ∧ (s.foldl depth_step acc).2.1 = acc.2.1 := by
  induction s with
  | nil => intro acc; exact ⟨rfl, rfl⟩
  | cons c t ih =>
    intro acc
    have hc := h c (List.mem_cons_self _ _)
    simp only [List.mem_cons, List.mem_singleton, List.not_mem_nil, or_false, not_or] at hc
    obtain ⟨h1, h2, h3, h4⟩ := hc
    have ht := ih (fun x hx => h x (List.mem_cons_of_mem _ hx)) (depth_step acc c)
    rw [List.foldl_cons, ht.1, ht.2]
    unfold depth_step
    simp only [h1, h2, h3, h4, if_false]
    split
    · exact ⟨rfl, rfl⟩
    · split <;> exact ⟨rfl, rfl⟩

theorem count_char_zero (s : CStr) (x : Char) (h : x ∉ s) : count_char s x = 0 := by
  unfold count_char
  rw [List.count_eq_zero.mpr h]
  rfl

theorem mem_of_mem_ltrim (s : CStr) (c : Char) (h : c ∈ ltrim s) : c ∈ s :=
  (List.dropWhile_suffix isspace).subset h

theorem split_of_colon_slashes (line : CStr)
    (h : ∀ i, line.get? i = some '/' → line.get? (i + 1) = some '/' →
      0 < i ∧ line.get? (i - 1) = some ':') :
    split_trailing_inline_comment line = (line, []) := by
  apply split_of_no_start
  intro i
  cases hi : is_comment_start line i
  · rfl
  · simp only [is_comment_start, Bool.and_eq_true, beq_iff_eq, Bool.or_eq_true,
      bne_iff_ne, ne_eq] at hi
    obtain ⟨⟨h0, h1⟩, h2⟩ := hi
    obtain ⟨hpos, hprev⟩ := h i h0 h1
    rcases h2 with h2 | h2
    · omega
    · exact absurd hprev h2

theorem violations_singleton (req : Bool) (l : CStr)
    (h : (process_line req ScanState.init l []).reported = true) :
    violations req [l] = [1] := by
  simp [violations, scan_file, scan_lines, h]

theorem ltrim_ne_nil_of_last (l : CStr) (c : Char) (h : l.getLast? = some c)
    (hc : isspace c = false) : ltrim l ≠ [] ∧ (ltrim l).getLast? = some c := by
  obtain ⟨hws, hdec⟩ := ltrim_decomp l
  generalize l.takeWhile isspace = ws at hws hdec
  have hne : ltrim l ≠ [] := by
    intro h0
    rw [h0, List.append_nil] at hdec
    rw [hdec] at h
    have := List.all_eq_true.mp hws c (List.mem_of_mem_getLast? h)
    rw [hc] at this
    exact Bool.noConfusion this
  refine ⟨hne, ?_⟩
  rw [← getLast?_ws_append ws _ hne, ← hdec, h]

theorem needs_semicolon_of_word_or_quote (code : CStr) (c : Char)
    (h : code.getLast? = some c) (hc : is_word_or_quote c = true) :
    needs_semicolon_codeonly code = true := by
  obtain ⟨hne, hlen, hlast⟩ := lastChar_of_getLast? code c h
  have h0 : (code.length == 0) = false := by simp [hne]
  have h1 : (c == ';') = false := by
    rw [beq_eq_false_iff_ne]; exact word_or_quote_ne c _ hc (by decide)
  have h2 : (isalnum c || c == '_' || c == ')' || c == ']' || c == '"' || c == SQUOTE ||
      c == BTICK) = true := by
    simp only [is_word_or_quote, Bool.or_eq_true] at hc ⊢
    tauto
  unfold needs_semicolon_codeonly
  simp only [h0, hlast, h1, h2, Bool.false_eq_true, if_false, if_true]
  split
  · rfl
  · split <;> rfl

theorem starts_keyword_none (code : CStr)
    (helse : code ≠ "else".toList)
    (hkw : ∀ p ∈ ignorable_prefixes, ¬ p.toList <+: code) :
    starts_keyword_no_semi true code = false := by
  have hs : ∀ p ∈ ignorable_prefixes, starts code p = false := by
    intro p hp
    cases h : starts code p
    · rfl
    · exact absurd ((starts_iff _ _).mp h) (hkw p hp)
  have he : streq code "else" = false := by
    unfold streq; rw [beq_eq_false_iff_ne]; exact helse
  unfold starts_keyword_no_semi
  rw [hs "if " (by decide), hs "if(" (by decide), hs "for " (by decide), hs "for(" (by decide),
    hs "while " (by decide), hs "while(" (by decide), hs "switch " (by decide),
    hs "switch(" (by decide), he, hs "else " (by decide), hs "try" (by decide),
    hs "catch" (by decide), hs "finally" (by decide), hs "class " (by decide),
    hs "export " (by decide), hs "export\x7b" (by decide), hs "import " (by decide),
    hs "import(" (by decide), hs "function " (by decide), hs "async function " (by decide),
    hs "throw " (by decide), hs "break" (by decide), hs "continue" (by decide),
    hs "yield" (by decide), hs "await " (by decide)]
  simp

/-- C4: with the default configuration, a one-line file whose line has no
round or square bracket, has `//` only right after a `:`, ends with an
alphanumeric character, `_` or a quote, does not begin (after its leading
whitespace) with `?`, `:`, `*` or `/`, is not a bare `const`, `let`, `var` or
`else` and begins with none of the ignorable keyword prefixes, yields exactly
one violation, at line 1. -/
theorem single_unterminated_line_reported (l : CStr)
    (hpar : ∀ c ∈ l, c ∉ ['(', ')', '[', ']'])
    (hsl : ∀ i, l.get? i = some '/' → l.get? (i + 1) = some '/' →
      0 < i ∧ l.get? (i - 1) = some ':')
    (hlast : ∃ c, l.getLast? = some c ∧ is_word_or_quote c = true)
    (hfirst : ∀ c, (ltrim l).head? = some c → c ∉ ['?', ':', '*', '/'])
    (hdecl : ltrim l ∉ ["const".toList, "let".toList, "var".toList])
    (helse : ltrim l ≠ "else".toList)
    (hkw : ∀ p ∈ ignorable_prefixes, ¬ p.toList <+: ltrim l) :
    violations true [l] = [1] := by
  obtain ⟨c, hc, hcls⟩ := hlast
  have hsplit := split_of_colon_slashes l hsl
  have hsp : isspace c = false := word_or_quote_not_space c hcls
  obtain ⟨htne, htlast⟩ := ltrim_ne_nil_of_last l c hc hsp
  obtain ⟨hlne, hllen, hllast⟩ := lastChar_of_getLast? l c hc
  obtain ⟨-, htlen, htlastc⟩ := lastChar_of_getLast? (ltrim l) c htlast
  obtain ⟨a, t, hat⟩ := List.exists_cons_of_ne_nil htne
  have hhead : (ltrim l).head? = some a := by rw [hat]; rfl
  have hc0 : charAt (ltrim l) 0 = a := charAt_zero_of_head _ _ hhead
  have ha := hfirst a hhead
  simp only [List.mem_cons, List.mem_singleton, List.not_mem_nil, or_false, not_or] at ha
  obtain ⟨ha1, ha2, ha3, ha4⟩ := ha
  have hasp : isspace a = false := ltrim_head_not_space l a t hat
  have hdd := depth_foldl_no_brackets l hpar (0, 0, 0)
  have hcnt : count_char (ltrim l) '(' - count_char (ltrim l) ')' = 0 := by
    rw [count_char_zero _ _ (fun h => hpar _ (mem_of_mem_ltrim l _ h) (by simp)),
      count_char_zero _ _ (fun h => hpar _ (mem_of_mem_ltrim l _ h) (by simp))]
    rfl
  -- the first block of tests
  have hs0 : suppress_continuation (ScanState.init.paren_depth + (depth_deltas l).1)
      (ScanState.init.bracket_depth + (depth_deltas l).2.1) l l (ltrim []) = false := by
    have hbin : is_binop c = false := by
      unfold is_binop
      simp only [Bool.or_eq_false_iff, beq_eq_false_iff_ne, ne_eq]
      refine ⟨⟨⟨⟨⟨⟨⟨?_, ?_⟩, ?_⟩, ?_⟩, ?_⟩, ?_⟩, ?_⟩, ?_⟩ <;>
        exact word_or_quote_ne c _ hcls (by decide)
    have hcomma : (c == ',') = false := by
      rw [beq_eq_false_iff_ne]; exact word_or_quote_ne c _ hcls (by decide)
    have e0 : charAt (ltrim []) 0 = NUL := rfl
    have e1 : (NUL == ')') = false := by decide
    have e2 : (NUL == ']') = false := by decide
    have e3 : (NUL == '&') = false := by decide
    have e4 : (NUL == '|') = false := by decide
    have e5 : is_binop NUL = false := by decide
    have e6 : decide (ScanState.init.paren_depth + (0 : Int) > 0) = false := by decide
    have e7 : decide (ScanState.init.bracket_depth + (0 : Int) > 0) = false := by decide
    rw [suppress_continuation_eq, hllast, hbin, hcomma]
    unfold depth_deltas
    rw [hdd.1, hdd.2, e0, e1, e2, e3, e4, e5, e6, e7]
    simp
  -- the block trackers
  have hv : var_block_step false l (ltrim l) false = (false, false) := by
    have : (streq (ltrim l) "const" || streq (ltrim l) "let" || streq (ltrim l) "var") =
        false := by
      simp only [List.mem_cons, List.mem_singleton, List.not_mem_nil, or_false, not_or] at hdecl
      simp only [streq, Bool.or_eq_false_iff, beq_eq_false_iff_ne, ne_eq]
      exact ⟨⟨hdecl.1, hdecl.2.1⟩, hdecl.2.2⟩
    unfold var_block_step
    simp [this]
  have hcb : (cond_block_step false 0 (ltrim l) false).2.2 = false := by
    unfold cond_block_step
    simp only [hcnt, Bool.not_false, if_true]
    split
    · split
      · rename_i h; exact absurd h (by decide)
      · rfl
    · rfl
  have hrb : (return_block_step false 0 (ltrim l) false).2.2 = false := by
    unfold return_block_step
    simp only [Bool.not_false, if_true]
    split <;> rfl
  have hlog : suppress_logical false (ltrim l) (ltrim []) = false := by
    have hne1 : c ≠ '|' := word_or_quote_ne c _ hcls (by decide)
    have hne2 : c ≠ '&' := word_or_quote_ne c _ hcls (by decide)
    have h1 : streq (ltrim l) "||" = false := by
      unfold streq; rw [beq_eq_false_iff_ne]
      intro h; rw [h] at htlast
      exact hne1 (Option.some.inj htlast).symm
    have h2 : streq (ltrim l) "&&" = false := by
      unfold streq; rw [beq_eq_false_iff_ne]
      intro h; rw [h] at htlast
      exact hne2 (Option.some.inj htlast).symm
    have h3 : (c == '|') = false := by rw [beq_eq_false_iff_ne]; exact hne1
    have h4 : (c == '&') = false := by rw [beq_eq_false_iff_ne]; exact hne2
    have h5 : (a == '?') = false := by rw [beq_eq_false_iff_ne]; exact ha1
    have h6 : (a == ':') = false := by rw [beq_eq_false_iff_ne]; exact ha2
    unfold suppress_logical
    simp only [h1, h2, htlastc, h3, h4, hc0, h5, h6, Bool.and_false, Bool.or_false,
      Bool.not_false, Bool.true_and, Bool.false_eq_true, if_false, if_true]
    decide
  have hsup : (process_line true ScanState.init l []).suppress = false := by
    simp only [process_line, hsplit]
    rw [hs0]
    simp only [ScanState.init, hv]
    rw [hcb, hrb, hlog]
  -- the ignorable test
  have hign : is_ignorable_line_logic true l = false := by
    rw [is_ignorable_eq true l (by rw [hsplit]; exact all_isspace_false_of_head _ _ hhead hasp)
      (by rw [hc0]; exact ha3) (by rw [hc0]; exact ha4) hdecl]
    rw [hsplit]
    have hk := starts_keyword_none (ltrim l) helse hkw
    have hts : has_trailing_structural (ltrim l) = false := by
      rw [Bool.eq_false_iff]
      intro hts
      rw [has_trailing_structural_iff] at hts
      rcases hts with h0 | ⟨x, hx, hmem⟩ | hsuf
      · exact htne h0
      · rw [htlast] at hx
        have hx' : c = x := Option.some.inj hx
        subst hx'
        simp only [List.mem_cons, List.mem_singleton, List.not_mem_nil, or_false] at hmem
        rcases hmem with h | h | h | h | h | h <;>
          exact word_or_quote_ne c _ hcls (by decide) h
      · have : (ltrim l).getLast? = some '>' := by
          obtain ⟨pre, hpre⟩ := hsuf
          rw [← hpre]
          simp [List.getLast?_append]
        rw [htlast] at this
        exact word_or_quote_ne c _ hcls (by decide) (Option.some.inj this)
    simp [hk, hts]
  have hneed : needs_semicolon_codeonly (split_trailing_inline_comment l).1 = true := by
    rw [hsplit]; exact needs_semicolon_of_word_or_quote l c hc hcls
  apply violations_singleton
  have h1 : (process_line true ScanState.init l []).reported =
      (!(process_line true ScanState.init l []).suppress &&
        (!is_ignorable_line_logic true l &&
          needs_semicolon_codeonly (split_trailing_inline_comment l).1)) := rfl
  rw [h1, hsup, hign, hneed]
  rfl

theorem single_unterminated_line_reported_witness :
    violations true [ "let x = 1".toList ] = [1] ∧
    violations true [ "const url = \"http://example.com\"".toList ] = [1] := by
  refine ⟨?_, by decide⟩
  apply single_unterminated_line_reported "let x = 1".toList
  · decide
  · have hb : ∀ i, i < 12 →
        "let x = 1".toList.get? i = some '/' → "let x = 1".toList.get? (i + 1) = some '/' →
        0 < i ∧ "let x = 1".toList.get? (i - 1) = some ':' := by
      decide
    intro i h0 h1
    by_cases hi : i < 12
    · exact hb i hi h0 h1
    · rw [List.get?_eq_none.mpr (by simp only [String.toList]; simp at hi ⊢; omega)] at h0
      exact Option.noConfusion h0
  · exact ⟨'1', by decide, by decide⟩
  · intro c hc
    have : c = 'l' := by
      have h : (ltrim "let x = 1".toList).head? = some 'l' := by decide
      rw [h] at hc; exact (Option.some.inj hc).symm
    subst this; decide
  · decide
  · decide
  · decide

/-! ## Fix mode run twice -/

theorem dropWhile_append_sep (p : Char → Bool) (x y : CStr) (b : Char) (hb : p b = false) :
    (x ++ b :: y).dropWhile p = x.dropWhile p ++ b :: y := by
  induction x with
  | nil => simp [List.dropWhile, hb]
  | cons a x ih =>
    simp only [List.cons_append, List.dropWhile_cons]
    split
    · exact ih
    · rfl

theorem prefix_of_prefix_append_sep (p x y : CStr) (b : Char) (h : p <+: x ++ b :: y)
    (hb : b ∉ p) : p <+: x := by
  rcases List.prefix_or_prefix_of_prefix h (List.prefix_append x (b :: y)) with h1 | h1
  · exact h1
  · obtain ⟨p', hp'⟩ := h1
    cases p' with
    | nil => rw [List.append_nil] at hp'; rw [← hp']
    | cons c p'' =>
      exfalso
      obtain ⟨z, hz⟩ := h
      rw [← hp', List.append_assoc] at hz
      have := List.append_cancel_left hz
      simp at this
      apply hb
      rw [← hp', ← this.1]
      simp

theorem split_comment_head (raw : CStr) :
    (split_trailing_inline_comment raw).2 = [] ∨
      (split_trailing_inline_comment raw).2.head? = some '/' := by
  unfold split_trailing_inline_comment
  cases h : comment_scan none raw with
  | none => exact Or.inl rfl
  | some p =>
    obtain ⟨pre, com⟩ := p
    right
    obtain ⟨h1, h2, -⟩ := comment_scan_some raw none pre com h
    simp only [is_comment_start_from, Bool.and_eq_true, beq_iff_eq] at h2
    have h3 := h2.1.1
    rw [h1, List.get?_eq_getElem?, List.getElem?_append_right (le_refl _)] at h3
    simp only [Nat.sub_self] at h3
    cases com with
    | nil => simp at h3
    | cons a com' => simpa using h3

/-- The shape of a line and of its rewrite: the left-trimmed code, then
whitespace and the comment, or `;` and the comment. -/
theorem ltrim_raw_and_fix (raw : CStr) (h : ltrim (split_trailing_inline_comment raw).1 ≠ []) :
    ∃ ws : CStr, ws.all isspace = true ∧
      ltrim raw = ltrim (split_trailing_inline_comment raw).1 ++
        (ws ++ (split_trailing_inline_comment raw).2) ∧
      ltrim (fix_line raw) = ltrim (split_trailing_inline_comment raw).1 ++
        ';' :: (split_trailing_inline_comment raw).2 := by
  obtain ⟨ws, hws, hraw⟩ := split_decomp raw
  refine ⟨ws, hws, ?_, ?_⟩
  · conv_lhs => rw [hraw]
    rw [List.append_assoc, ltrim_append_of_ne_nil _ _ h]
  · unfold fix_line
    rw [ltrim_append_of_ne_nil _ _ h]

theorem comment_scan_none_concat (s : CStr) :
    ∀ prev, comment_scan prev s = none → comment_scan prev (s ++ [';']) = none := by
  induction s with
  | nil => intro prev _; rfl
  | cons c t ih =>
    intro prev h
    cases t with
    | nil =>
      rw [List.singleton_append, comment_scan_cons_cons,
        if_neg (fun h => absurd h.2.1 (by decide))]
      rfl
    | cons d t' =>
      rw [comment_scan_cons_cons] at h
      rw [List.cons_append, List.cons_append, comment_scan_cons_cons]
      split at h
      · exact Option.noConfusion h
      · rename_i hc
        rw [if_neg hc]
        rw [Option.map_eq_none'] at h ⊢
        exact ih (some c) h

theorem comment_scan_found_form (prev : Option Char) (s pre com : CStr)
    (h : comment_scan prev s = some (pre, com)) : ∃ rest, com = '/' :: '/' :: rest := by
  obtain ⟨h1, h2, -⟩ := comment_scan_some s prev pre com h
  simp only [is_comment_start_from, Bool.and_eq_true, beq_iff_eq] at h2
  have h3 := h2.1.1
  have h4 := h2.1.2
  rw [h1, List.get?_eq_getElem?, List.getElem?_append_right (le_refl _)] at h3
  rw [h1, List.get?_eq_getElem?, List.getElem?_append_right (Nat.le_succ _)] at h4
  simp only [Nat.sub_self, Nat.add_sub_cancel_left] at h3 h4
  cases com with
  | nil => simp at h3
  | cons a com' =>
    cases com' with
    | nil => simp at h4
    | cons b rest =>
      simp at h3 h4
      subst h3 h4
      exact ⟨rest, rfl⟩

/-- Putting `;` between a prefix of the text before the comment and the
comment moves the comment boundary right behind the `;`. -/
theorem comment_scan_sep (x : CStr) :
    ∀ (prev : Option Char) (pre com : CStr),
      comment_scan prev (pre ++ com) = some (pre, com) → x <+: pre →
      comment_scan prev (x ++ ';' :: com) = some (x ++ [';'], com) := by
  induction x with
  | nil =>
    intro prev pre com h _
    obtain ⟨rest, rfl⟩ := comment_scan_found_form prev _ pre com h
    rw [List.nil_append, comment_scan_cons_cons, if_neg (fun h => absurd h.1 (by decide)),
      comment_scan_cons_cons, if_pos ⟨rfl, rfl, by decide⟩]
    rfl
  | cons c x' ih =>
    intro prev pre com h hx
    obtain ⟨rest, hcom⟩ := comment_scan_found_form prev _ pre com h
    obtain ⟨z, hz⟩ := hx
    cases pre with
    | nil => simp at hz
    | cons c' pre' =>
      simp only [List.cons_append, List.cons.injEq] at hz
      obtain ⟨rfl, hz⟩ := hz
      have hx' : x' <+: pre' := ⟨z, hz⟩
      -- the scan of the original text steps over `c`
      have hstep : (¬ (c = '/' ∧ (pre' ++ com).head? = some '/' ∧ prev ≠ some ':')) ∧
          comment_scan (some c) (pre' ++ com) = some (pre', com) := by
        have hne : pre' ++ com ≠ [] := by rw [hcom]; simp
        obtain ⟨d, t, hdt⟩ := List.exists_cons_of_ne_nil hne
        rw [List.cons_append, hdt, comment_scan_cons_cons] at h
        rw [hdt]
        split at h
        · simp at h
        · rename_i hc
          constructor
          · simpa using hc
          · cases hrec : comment_scan (some c) (d :: t) with
            | none => rw [hrec] at h; simp at h
            | some q =>
              rw [hrec] at h
              simp at h
              obtain ⟨q1, q2⟩ := q
              simp at h
              rw [h.1, h.2]
      have hrec := ih (some c) pre' com hstep.2 hx'
      have hne : x' ++ ';' :: com ≠ [] := by simp
      obtain ⟨d, t, hdt⟩ := List.exists_cons_of_ne_nil hne
      rw [List.cons_append, hdt, comment_scan_cons_cons, ← hdt, hrec]
      have hcond : ¬ (c = '/' ∧ d = '/' ∧ prev ≠ some ':') := by
        rintro ⟨hc1, hd1, hp1⟩
        apply hstep.1
        refine ⟨hc1, ?_, hp1⟩
        cases x' with
        | nil =>
          simp at hdt
          rw [← hdt.1] at hd1
          exact absurd hd1 (by decide)
        | cons e x'' =>
          simp at hdt
          rw [← hz]
          simp [hdt.1, hd1]
      rw [if_neg hcond]
      rfl

theorem rtrim_concat_semicolon (y : CStr) : rtrim (y ++ [';']) = y ++ [';'] := by
  have := List.rdropWhile_concat_neg isspace y ';' (by decide)
  exact this

theorem split_fix_line (raw : CStr) :
    split_trailing_inline_comment (fix_line raw) =
      ((split_trailing_inline_comment raw).1 ++ [';'], (split_trailing_inline_comment raw).2) := by
  unfold fix_line
  unfold split_trailing_inline_comment
  cases h : comment_scan none raw with
  | none =>
    simp only []
    rw [comment_scan_none_concat raw none h]
  | some p =>
    obtain ⟨pre, com⟩ := p
    obtain ⟨h1, -, -⟩ := comment_scan_some raw none pre com h
    rw [h1] at h
    simp only []
    rw [comment_scan_sep (rtrim pre) none pre com h (List.rdropWhile_prefix isspace pre)]
    simp only []
    rw [rtrim_concat_semicolon]

theorem binop_of_amp_or_bar (a : Char) (h : is_binop a = false) :
    (a == '&') = false ∧ (a == '|') = false := by
  simp only [is_binop, Bool.or_eq_false_iff] at h
  exact ⟨h.2, h.1.2⟩

/-- The first block of tests reads the next line only through its first
character after the leading whitespace. -/
theorem suppress_continuation_la (pd bd : Int) (code raw nt nt' : CStr)
    (h : charAt nt 0 = charAt nt' 0) :
    suppress_continuation pd bd code raw nt = suppress_continuation pd bd code raw nt' := by
  rw [suppress_continuation_eq, suppress_continuation_eq, h]
  cases hb : is_binop (charAt nt' 0)
  · obtain ⟨h1, h2⟩ := binop_of_amp_or_bar _ hb
    simp only [h1, h2, Bool.false_and, Bool.or_false]
  · simp only [Bool.or_true, Bool.true_or]

theorem suppress_logical_la (s : Bool) (trimmed nt nt' : CStr)
    (h : charAt nt 0 = charAt nt' 0) :
    suppress_logical s trimmed nt = suppress_logical s trimmed nt' := by
  unfold suppress_logical
  rw [h]

theorem process_line_la (req : Bool) (st : ScanState) (raw next next' : CStr)
    (h : charAt (ltrim next) 0 = charAt (ltrim next') 0) :
    (process_line req st raw next).suppress = (process_line req st raw next').suppress ∧
    (process_line req st raw next).reported = (process_line req st raw next').reported := by
  have hs : (process_line req st raw next).suppress = (process_line req st raw next').suppress := by
    simp only [process_line]
    rw [suppress_logical_la _ _ _ _ h, suppress_continuation_la _ _ _ _ _ _ h]
  refine ⟨hs, ?_⟩
  have h1 : ∀ nx, (process_line req st raw nx).reported =
      (!(process_line req st raw nx).suppress &&
        (!is_ignorable_line_logic req raw &&
          needs_semicolon_codeonly (split_trailing_inline_comment raw).1)) := fun _ => rfl
  rw [h1, h1, hs]

theorem cond_block_step_equiv (b : Bool) (d d' : Int) (t : CStr) (s : Bool)
    (h : b = true → d = d') :
    (cond_block_step b d t s).1 = (cond_block_step b d' t s).1 ∧
    (cond_block_step b d t s).2.2 = (cond_block_step b d' t s).2.2 ∧
    ((cond_block_step b d t s).1 = true →
      (cond_block_step b d t s).2.1 = (cond_block_step b d' t s).2.1) := by
  cases b
  · unfold cond_block_step
    simp only [Bool.not_false, if_true]
    split
    · exact ⟨rfl, rfl, fun _ => rfl⟩
    · exact ⟨rfl, rfl, fun h => Bool.noConfusion h⟩
  · rw [h rfl]
    exact ⟨rfl, rfl, fun _ => rfl⟩

theorem return_block_step_equiv (b : Bool) (d d' : Int) (t : CStr) (s : Bool)
    (h : b = true → d = d') :
    (return_block_step b d t s).1 = (return_block_step b d' t s).1 ∧
    (return_block_step b d t s).2.2 = (return_block_step b d' t s).2.2 ∧
    ((return_block_step b d t s).1 = true →
      (return_block_step b d t s).2.1 = (return_block_step b d' t s).2.1) := by
  cases b
  · unfold return_block_step
    simp only [Bool.not_false, if_true]
    split
    · exact ⟨rfl, rfl, fun _ => rfl⟩
    · exact ⟨rfl, rfl, fun h => Bool.noConfusion h⟩
  · rw [h rfl]
    exact ⟨rfl, rfl, fun _ => rfl⟩

theorem equiv_refl (a : ScanState) : a.equiv a :=
  ⟨rfl, rfl, fun _ => rfl, rfl, fun _ => rfl, rfl, rfl⟩

/-- The loop body cannot tell equivalent counters apart: same verdicts, and
equivalent counters afterwards. -/
theorem process_line_equiv (req : Bool) (st st2 : ScanState) (raw next : CStr)
    (h : st.equiv st2) :
    (process_line req st raw next).suppress = (process_line req st2 raw next).suppress ∧
    (process_line req st raw next).reported = (process_line req st2 raw next).reported ∧
    (process_line req st raw next).st.equiv (process_line req st2 raw next).st := by
  obtain ⟨h1, h2, h3, h4, h5, h6, h7⟩ := h
  have hs : (process_line req st raw next).suppress = (process_line req st2 raw next).suppress := by
    simp only [process_line]
    rw [h1, h2, h4, h6, h7]
    rw [(return_block_step_equiv st2.in_return_block st.return_paren_depth
        st2.return_paren_depth _ _ (by rw [← h4]; exact h5)).2.1,
      (cond_block_step_equiv st2.in_cond_block st.cond_paren_depth
        st2.cond_paren_depth _ _ (by rw [← h2]; exact h3)).2.1]
  refine ⟨hs, ?_, ?_⟩
  · have hr : ∀ s, (process_line req s raw next).reported =
        (!(process_line req s raw next).suppress &&
          (!is_ignorable_line_logic req raw &&
            needs_semicolon_codeonly (split_trailing_inline_comment raw).1)) := fun _ => rfl
    rw [hr, hr, hs]
  · rw [process_line_st, process_line_st]
    simp only [step_state, process_line, ScanState.equiv]
    rw [h1, h2, h4, h6, h7]
    have hc := cond_block_step_equiv st2.in_cond_block st.cond_paren_depth
        st2.cond_paren_depth (ltrim raw)
    have hr := return_block_step_equiv st2.in_return_block st.return_paren_depth
        st2.return_paren_depth (ltrim raw)
    refine ⟨rfl, ?_, ?_, ?_, ?_, rfl, rfl⟩
    · rw [(cond_block_step_fst _ _ _ _ false).1,
        (cond_block_step_fst _ st2.cond_paren_depth _ _ false).1]
      exact (hc false (by rw [← h2]; exact h3)).1
    · rw [(cond_block_step_fst _ _ _ _ false).1, (cond_block_step_fst _ _ _ _ false).2,
        (cond_block_step_fst _ st2.cond_paren_depth _ _ false).2]
      exact (hc false (by rw [← h2]; exact h3)).2.2
    · rw [(return_block_step_fst _ _ _ _ false).1,
        (return_block_step_fst _ st2.return_paren_depth _ _ false).1]
      exact (hr false (by rw [← h4]; exact h5)).1
    · rw [(return_block_step_fst _ _ _ _ false).1, (return_block_step_fst _ _ _ _ false).2,
        (return_block_step_fst _ st2.return_paren_depth _ _ false).2]
      exact (hr false (by rw [← h4]; exact h5)).2.2

theorem dropWhile_append_of_ne_nil (p : Char → Bool) (x y : CStr) (h : x.dropWhile p ≠ []) :
    (x ++ y).dropWhile p = x.dropWhile p ++ y := by
  rw [List.dropWhile_append]
  split
  · rename_i h0
    rw [List.isEmpty_iff] at h0
    exact absurd h0 h
  · rfl

theorem starts_and_next (s : CStr) (p : String) (n : Nat) (c : Char)
    (hn : p.toList.length = n) (hc : c ≠ NUL) :
    (starts s p && charAt s n == c) = true ↔ (p.toList ++ [c]) <+: s := by
  rw [Bool.and_eq_true, starts_iff, beq_iff_eq]
  constructor
  · rintro ⟨⟨t, rfl⟩, h2⟩
    rw [← hn, charAt, List.getD_eq_getElem?_getD, List.getElem?_append_right (le_refl _),
      Nat.sub_self] at h2
    cases t with
    | nil => exact absurd h2.symm hc
    | cons a t' =>
      simp at h2
      subst h2
      exact ⟨t', by simp⟩
  · rintro ⟨t, rfl⟩
    refine ⟨⟨c :: t, by simp⟩, ?_⟩
    rw [← hn, charAt, List.getD_eq_getElem?_getD, List.append_assoc,
      List.getElem?_append_right (le_refl _), Nat.sub_self]
    simp

theorem starts_and_next2 (s : CStr) (p : String) (n : Nat) (hn : p.toList.length = n) :
    (starts s p && (charAt s n == ' ' || charAt s n == '(')) = true ↔
      ((p.toList ++ [' ']) <+: s ∨ (p.toList ++ ['(']) <+: s) := by
  rw [Bool.and_or_distrib_left, Bool.or_eq_true, starts_and_next s p n ' ' hn (by decide),
    starts_and_next s p n '(' hn (by decide)]

/-- The test `starts` of the conditional tracker as a prefix test. -/
theorem cond_test_iff (check : CStr) :
    ((starts check "if" && (charAt check 2 == ' ' || charAt check 2 == '(')) ||
      (starts check "while" && (charAt check 5 == ' ' || charAt check 5 == '(')) ||
      (starts check "for" && (charAt check 3 == ' ' || charAt check 3 == '(')) ||
      starts check "else if") = true ↔
    ((("if ".toList <+: check ∨ "if(".toList <+: check) ∨
      ("while ".toList <+: check ∨ "while(".toList <+: check)) ∨
      ("for ".toList <+: check ∨ "for(".toList <+: check)) ∨
      "else if".toList <+: check := by
  rw [Bool.or_eq_true, Bool.or_eq_true, Bool.or_eq_true, starts_and_next2 check "if" 2 rfl,
    starts_and_next2 check "while" 5 rfl, starts_and_next2 check "for" 3 rfl, starts_iff]
  rfl

theorem cond_check_fix (c0 com : CStr) :
    ltrim ((ltrim (c0 ++ ';' :: com)).dropWhile (fun c => c == '}')) =
      ltrim ((ltrim c0).dropWhile (fun c => c == '}')) ++ ';' :: com := by
  unfold ltrim
  rw [dropWhile_append_sep _ _ _ _ (by decide), dropWhile_append_sep _ _ _ _ (by decide),
    dropWhile_append_sep _ _ _ _ (by decide)]

theorem cond_check_raw (c0 tail : CStr)
    (h : ltrim ((ltrim c0).dropWhile (fun c => c == '}')) ≠ []) :
    ltrim ((ltrim (c0 ++ tail)).dropWhile (fun c => c == '}')) =
      ltrim ((ltrim c0).dropWhile (fun c => c == '}')) ++ tail := by
  have h1 : (ltrim c0).dropWhile (fun c => c == '}') ≠ [] := by
    intro h0; rw [h0] at h; exact h rfl
  have h2 : ltrim c0 ≠ [] := by
    intro h0; rw [h0] at h1; exact h1 rfl
  unfold ltrim at h h1 h2 ⊢
  rw [dropWhile_append_of_ne_nil _ _ _ h2, dropWhile_append_of_ne_nil _ _ _ h1,
    dropWhile_append_of_ne_nil _ _ _ h]

/-- If the rewritten line passes the `starts` test of the conditional tracker
then so does the line it replaces. -/
theorem cond_starts_of_fix (c0 com tail : CStr)
    (h : cond_starts (c0 ++ ';' :: com) = true) : cond_starts (c0 ++ tail) = true := by
  unfold cond_starts at h ⊢
  simp only [] at h ⊢
  rw [cond_test_iff] at h ⊢
  rw [cond_check_fix] at h
  have key : ∀ q : CStr, ';' ∉ q → q ≠ [] →
      q <+: ltrim ((ltrim c0).dropWhile (fun c => c == '}')) ++ ';' :: com →
      q <+: ltrim ((ltrim (c0 ++ tail)).dropWhile (fun c => c == '}')) := by
    intro q hq' hne hpre
    have hu := prefix_of_prefix_append_sep _ _ _ _ hpre hq'
    have hune : ltrim ((ltrim c0).dropWhile (fun c => c == '}')) ≠ [] := by
      intro h0
      rw [h0] at hu
      exact hne (List.prefix_nil.mp hu)
    rw [cond_check_raw c0 tail hune]
    exact hu.trans (List.prefix_append _ _)
  rcases h with (((h | h) | (h | h)) | (h | h)) | h
  · exact Or.inl (Or.inl (Or.inl (Or.inl (key _ (by decide) (by decide) h))))
  · exact Or.inl (Or.inl (Or.inl (Or.inr (key _ (by decide) (by decide) h))))
  · exact Or.inl (Or.inl (Or.inr (Or.inl (key _ (by decide) (by decide) h))))
  · exact Or.inl (Or.inl (Or.inr (Or.inr (key _ (by decide) (by decide) h))))
  · exact Or.inl (Or.inr (Or.inl (key _ (by decide) (by decide) h)))
  · exact Or.inl (Or.inr (Or.inr (key _ (by decide) (by decide) h)))
  · exact Or.inr (key _ (by decide) (by decide) h)

/-- Text appended to a line does not change `starts_return_paren` when it does
not begin with a letter of `return` and its first character after leading
whitespace is not `(`. -/
theorem starts_return_paren_append (c0 tail : CStr)
    (h1 : ∀ b, tail.head? = some b → b ∉ "return".toList)
    (h2 : charAt (ltrim tail) 0 ≠ '(') :
    starts_return_paren (c0 ++ tail) = starts_return_paren c0 := by
  have hst : starts (c0 ++ tail) "return" = starts c0 "return" := by
    rw [Bool.eq_iff_iff, starts_iff, starts_iff]
    constructor
    · intro h
      cases tail with
      | nil => simpa using h
      | cons b y => exact prefix_of_prefix_append_sep _ _ _ _ h (h1 b rfl)
    · intro h
      exact h.trans (List.prefix_append _ _)
  unfold starts_return_paren
  rw [hst]
  cases hs : starts c0 "return"
  · rfl
  · simp only [Bool.not_true, Bool.false_eq_true, if_false]
    obtain ⟨c1, rfl⟩ := (starts_iff _ _).mp hs
    have hd1 : ("return".toList ++ c1 ++ tail).drop 6 = c1 ++ tail := by
      rw [List.append_assoc]
      exact List.drop_left' rfl
    have hd2 : ("return".toList ++ c1).drop 6 = c1 := List.drop_left' rfl
    rw [hd1, hd2]
    by_cases hc1 : ltrim c1 = []
    · have hall : c1.all isspace = true := by
        rw [List.all_eq_true]
        exact List.dropWhile_eq_nil_iff.mp hc1
      rw [ltrim_ws_append c1 tail hall, hc1]
      have : (charAt (ltrim tail) 0 == '(') = false := by
        rw [beq_eq_false_iff_ne]; exact h2
      rw [this]
      rfl
    · rw [ltrim_append_of_ne_nil c1 tail hc1]
      obtain ⟨a, t, hat⟩ := List.exists_cons_of_ne_nil hc1
      rw [hat]
      rfl

theorem inert_tail_raw (ws com : CStr) (hws : ws.all isspace = true)
    (hcom : com = [] ∨ com.head? = some '/') :
    (∀ b, (ws ++ com).head? = some b → b ∉ "return".toList) ∧
    charAt (ltrim (ws ++ com)) 0 ≠ '(' := by
  constructor
  · intro b hb
    cases ws with
    | nil =>
      rcases hcom with h | h
      · rw [h] at hb; simp at hb
      · rw [List.nil_append, h] at hb
        rw [← Option.some.inj hb]; decide
    | cons w ws' =>
      simp at hb
      subst hb
      have hw : isspace w = true := by
        simp only [List.all_cons, Bool.and_eq_true] at hws
        exact hws.1
      intro hmem
      simp only [String.toList, List.mem_cons, List.mem_singleton, List.not_mem_nil,
        or_false] at hmem
      rcases hmem with h | h | h | h | h | h <;> rw [h] at hw <;> revert hw <;> decide
  · rw [ltrim_ws_append ws com hws]
    rcases hcom with h | h
    · rw [h]; decide
    · cases com with
      | nil => simp at h
      | cons a com' =>
        simp at h
        subst h
        rw [ltrim_cons_of_not_space _ _ (by decide)]
        show '/' ≠ '('
        decide

theorem inert_tail_fix (com : CStr) :
    (∀ b, (';' :: com).head? = some b → b ∉ "return".toList) ∧
    charAt (ltrim (';' :: com)) 0 ≠ '(' := by
  constructor
  · intro b hb
    simp at hb
    subst hb
    decide
  · rw [ltrim_cons_of_not_space _ _ (by decide)]
    show ';' ≠ '('
    decide

theorem count_char_append (x y : CStr) (c : Char) :
    count_char (x ++ y) c = count_char x c + count_char y c := by
  simp [count_char, List.count_append]

theorem count_char_ws (ws : CStr) (c : Char) (hws : ws.all isspace = true)
    (hc : isspace c = false) : count_char ws c = 0 := by
  apply count_char_zero
  intro hmem
  have := List.all_eq_true.mp hws c hmem
  rw [hc] at this
  exact Bool.noConfusion this

/-- What the trackers read of a line is the same for the line and for its
rewrite, as far as it goes: the bracket counts, the return test, and the
conditional test in one direction; the rewrite is no bare declaration
keyword. -/
theorem raw_vs_fix (raw : CStr) (h : ltrim (split_trailing_inline_comment raw).1 ≠ []) :
    count_char (ltrim (fix_line raw)) '(' = count_char (ltrim raw) '(' ∧
    count_char (ltrim (fix_line raw)) ')' = count_char (ltrim raw) ')' ∧
    starts_return_paren (ltrim (fix_line raw)) = starts_return_paren (ltrim raw) ∧
    (cond_starts (ltrim (fix_line raw)) = true → cond_starts (ltrim raw) = true) ∧
    (streq (ltrim (fix_line raw)) "const" || streq (ltrim (fix_line raw)) "let" ||
      streq (ltrim (fix_line raw)) "var") = false ∧
    charAt (ltrim (fix_line raw)) 0 = charAt (ltrim raw) 0 := by
  obtain ⟨ws, hws, hraw, hfix⟩ := ltrim_raw_and_fix raw h
  have hcom := split_comment_head raw
  generalize (split_trailing_inline_comment raw).2 = com at hraw hfix hcom
  generalize ltrim (split_trailing_inline_comment raw).1 = c0 at hraw hfix h
  rw [hraw, hfix]
  refine ⟨?_, ?_, ?_, ?_, ?_, ?_⟩
  · rw [count_char_append, count_char_append, count_char_append,
      count_char_ws ws _ hws (by decide)]
    rw [show (';' :: com) = [';'] ++ com from rfl, count_char_append]
    rw [show count_char [';'] '(' = 0 from rfl]
  · rw [count_char_append, count_char_append, count_char_append,
      count_char_ws ws _ hws (by decide)]
    rw [show (';' :: com) = [';'] ++ com from rfl, count_char_append]
    rw [show count_char [';'] ')' = 0 from rfl]
  · rw [starts_return_paren_append c0 _ (inert_tail_fix com).1 (inert_tail_fix com).2,
      starts_return_paren_append c0 _ (inert_tail_raw ws com hws hcom).1
        (inert_tail_raw ws com hws hcom).2]
  · exact cond_starts_of_fix c0 com _
  · have hmem : ';' ∈ c0 ++ ';' :: com := by simp
    simp only [streq, Bool.or_eq_false_iff, beq_eq_false_iff_ne, ne_eq]
    refine ⟨⟨?_, ?_⟩, ?_⟩ <;> intro heq <;> rw [heq] at hmem <;> revert hmem <;> decide
  · obtain ⟨a, t, hat⟩ := List.exists_cons_of_ne_nil h
    rw [hat]
    rfl

theorem suppress_logical_unsup (s : Bool) (t nt : CStr)
    (h : suppress_logical s t nt = false) : s = false := by
  cases s
  · rfl
  · rw [suppress_logical_mono true t nt rfl] at h
    exact Bool.noConfusion h

theorem return_block_step_unsup (b : Bool) (d : Int) (t : CStr) (s : Bool)
    (h : (return_block_step b d t s).2.2 = false) : b = false ∧ s = false := by
  cases b
  · refine ⟨rfl, ?_⟩
    cases s
    · rfl
    · rw [return_block_step_mono false d t true rfl] at h
      exact Bool.noConfusion h
  · exact Bool.noConfusion h

theorem cond_block_step_unsup (b : Bool) (d : Int) (t : CStr) (s : Bool)
    (h : (cond_block_step b d t s).2.2 = false) :
    b = false ∧ s = false ∧
      ¬ (cond_starts t = true ∧ count_char t '(' - count_char t ')' > 0) := by
  cases b
  · refine ⟨rfl, ?_, ?_⟩
    · cases s
      · rfl
      · rw [cond_block_step_mono false d t true rfl] at h
        exact Bool.noConfusion h
    · rintro ⟨h1, h2⟩
      unfold cond_block_step at h
      simp only [Bool.not_false, if_true, h1, h2] at h
      exact Bool.noConfusion h
  · exact Bool.noConfusion h

theorem var_block_step_unsup (b : Bool) (raw t : CStr) (s : Bool)
    (h : (var_block_step b raw t s).2 = false) :
    b = false ∧ s = false ∧
      (streq t "const" || streq t "let" || streq t "var") = false := by
  cases b
  · cases hd : (streq t "const" || streq t "let" || streq t "var")
    · refine ⟨rfl, ?_, rfl⟩
      cases s
      · rfl
      · rw [var_block_step_mono false raw t true rfl] at h
        exact Bool.noConfusion h
    · unfold var_block_step at h
      simp only [Bool.not_false, Bool.true_and, hd, if_true] at h
      exact Bool.noConfusion h
  · unfold var_block_step at h
    simp at h

theorem var_block_step_idle (raw t : CStr) (s : Bool)
    (hd : (streq t "const" || streq t "let" || streq t "var") = false) :
    var_block_step false raw t s = (false, s) := by
  unfold var_block_step
  simp [hd]

theorem cond_block_step_idle (d : Int) (t : CStr) (s : Bool)
    (h : ¬ (cond_starts t = true ∧ count_char t '(' - count_char t ')' > 0)) :
    (cond_block_step false d t s).1 = false := by
  unfold cond_block_step
  simp only [Bool.not_false, if_true]
  split
  · rename_i h1
    split
    · rename_i h2; exact absurd ⟨h1, h2⟩ h
    · rfl
  · rfl

theorem return_block_step_idle (d d' : Int) (t t' : CStr) (s s' : Bool)
    (h1 : starts_return_paren t' = starts_return_paren t)
    (h2 : count_char t' '(' = count_char t '(') (h3 : count_char t' ')' = count_char t ')') :
    (return_block_step false d t s).1 = (return_block_step false d' t' s').1 ∧
    ((return_block_step false d t s).1 = true →
      (return_block_step false d t s).2.1 = (return_block_step false d' t' s').2.1) := by
  unfold return_block_step
  simp only [Bool.not_false, if_true, h1, h2, h3]
  split
  · exact ⟨rfl, fun _ => rfl⟩
  · exact ⟨rfl, fun h => Bool.noConfusion h⟩

/-- What holds of a reported line. -/
theorem reported_facts (req : Bool) (st : ScanState) (raw next : CStr)
    (h : (process_line req st raw next).reported = true) :
    ltrim (split_trailing_inline_comment raw).1 ≠ [] ∧
    st.in_var_block = false ∧ st.in_cond_block = false ∧ st.in_return_block = false ∧
    (streq (ltrim raw) "const" || streq (ltrim raw) "let" || streq (ltrim raw) "var")
      = false ∧
    ¬ (cond_starts (ltrim raw) = true ∧
      count_char (ltrim raw) '(' - count_char (ltrim raw) ')' > 0) := by
  obtain ⟨hs, hi, -⟩ := reported_imp req st raw next h
  have hne : ltrim (split_trailing_inline_comment raw).1 ≠ [] := by
    intro h0
    have hb : is_blank_after_comment (ltrim raw) = true := by
      unfold is_blank_after_comment
      rw [split_ltrim, h0]
      rfl
    unfold is_ignorable_line_logic at hi
    simp [hb] at hi
  simp only [process_line] at hs
  have h1 := suppress_logical_unsup _ _ _ hs
  obtain ⟨h2, h3⟩ := return_block_step_unsup _ _ _ _ h1
  obtain ⟨h4, h5, h6⟩ := cond_block_step_unsup _ _ _ _ h3
  obtain ⟨h7, -, h8⟩ := var_block_step_unsup _ _ _ _ h5
  exact ⟨hne, h7, h4, h2, h8, h6⟩

theorem depth_deltas_concat_semicolon (code : CStr) :
    depth_deltas (code ++ [';']) = depth_deltas code := by
  unfold depth_deltas
  rw [List.foldl_append]
  rfl

/-- After a reported line the counters are the same, up to equivalence,
whether the loop read the line or its rewrite. -/
theorem step_fix_equiv (req : Bool) (st st2 : ScanState) (raw next : CStr)
    (he : st.equiv st2) (hrep : (process_line req st raw next).reported = true) :
    (step_state st raw).equiv (step_state st2 (fix_line raw)) := by
  obtain ⟨hne, hv, hc, hr, hdecl, hcond⟩ := reported_facts req st raw next hrep
  obtain ⟨e1, e2, e3, e4, e5, e6, e7⟩ := he
  obtain ⟨f1, f2, f3, f4, f5, -⟩ := raw_vs_fix raw hne
  have hv2 : st2.in_var_block = false := by rw [← e1]; exact hv
  have hc2 : st2.in_cond_block = false := by rw [← e2]; exact hc
  have hr2 : st2.in_return_block = false := by rw [← e4]; exact hr
  have hcond2 : ¬ (cond_starts (ltrim (fix_line raw)) = true ∧
      count_char (ltrim (fix_line raw)) '(' - count_char (ltrim (fix_line raw)) ')' > 0) := by
    rintro ⟨h1, h2⟩
    rw [f1, f2] at h2
    exact hcond ⟨f4 h1, h2⟩
  simp only [step_state, process_line, ScanState.equiv, split_fix_line,
    depth_deltas_concat_semicolon]
  rw [hv, hc, hr, hv2, hc2, hr2, var_block_step_idle _ _ _ hdecl, var_block_step_idle _ _ _ f5]
  have hri := return_block_step_idle st.return_paren_depth st2.return_paren_depth (ltrim raw)
    (ltrim (fix_line raw))
  refine ⟨rfl, ?_, ?_, ?_, ?_, by rw [e6], by rw [e7]⟩
  · rw [cond_block_step_idle _ _ _ hcond, cond_block_step_idle _ _ _ hcond2]
  · intro h
    rw [cond_block_step_idle _ _ _ hcond] at h
    exact Bool.noConfusion h
  · exact (hri _ _ f3 f1 f2).1
  · exact (hri _ _ f3 f1 f2).2

theorem out_lookahead (req : Bool) (st : ScanState) (raw next : CStr) :
    charAt (ltrim (process_line req st raw next).out) 0 = charAt (ltrim raw) 0 := by
  rw [process_line_out]
  split
  · rename_i h
    exact (raw_vs_fix raw (reported_facts req st raw next h).1).2.2.2.2.2
  · rfl

/-- One line of the second pass: the loop body on the line written by the
first pass, with equivalent counters and the same lookahead character, does
not report, and leaves equivalent counters. -/
theorem second_pass_line (req : Bool) (st st2 : ScanState) (raw next next2 : CStr)
    (he : st.equiv st2) (hla : charAt (ltrim next2) 0 = charAt (ltrim next) 0) :
    (process_line req st2 (process_line req st raw next).out next2).reported = false ∧
    (process_line req st raw next).st.equiv
      (process_line req st2 (process_line req st raw next).out next2).st := by
  cases hrep : (process_line req st raw next).reported
  · have hout : (process_line req st raw next).out = raw := by
      rw [process_line_out, hrep]; rfl
    rw [hout]
    obtain ⟨-, h2, h3⟩ := process_line_equiv req st st2 raw next he
    have h4 := (process_line_la req st2 raw next2 next hla).2
    refine ⟨by rw [h4, ← h2, hrep], ?_⟩
    rw [process_line_st, process_line_st] at h3 ⊢
    exact h3
  · have hout : (process_line req st raw next).out = fix_line raw := by
      rw [process_line_out, hrep]; rfl
    rw [hout]
    constructor
    · cases h : (process_line req st2 (fix_line raw) next2).reported
      · rfl
      · have := (reported_imp req st2 (fix_line raw) next2 h).2.2
        rw [split_fix_line, needs_semicolon_of_semicolon _ (by simp)] at this
        exact Bool.noConfusion this
    · rw [process_line_st, process_line_st]
      exact step_fix_equiv req st st2 raw next he hrep

theorem second_pass_scan (req : Bool) (lines : List CStr) :
    ∀ (i j : Nat) (st st2 : ScanState), st.equiv st2 →
      ∀ p ∈ scan_lines req j st2 ((scan_lines req i st lines).map (fun p => p.2.out)),
        p.2.reported = false := by
  induction lines with
  | nil => intro i j st st2 _ p hp; simp [scan_lines] at hp
  | cons raw rest ih =>
    intro i j st st2 he p hp
    have hla : charAt (ltrim (((scan_lines req (i + 1)
        (process_line req st raw (rest.headD [])).st rest).map (fun p => p.2.out)).headD [])) 0 =
        charAt (ltrim (rest.headD [])) 0 := by
      cases rest with
      | nil => rfl
      | cons raw' rest' =>
        simp only [scan_lines, List.map_cons, List.headD_cons]
        exact out_lookahead req _ raw' _
    obtain ⟨h1, h2⟩ := second_pass_line req st st2 raw (rest.headD []) _ he hla
    simp only [scan_lines, List.map_cons, List.mem_cons] at hp
    rcases hp with hp | hp
    · rw [hp]; exact h1
    · exact ih (i + 1) (j + 1) _ _ h2 p hp

theorem out_of_not_reported (req : Bool) (ls : List CStr) :
    ∀ (i : Nat) (st : ScanState),
      (∀ p ∈ scan_lines req i st ls, p.2.reported = false) →
      (scan_lines req i st ls).map (fun p => p.2.out) = ls := by
  induction ls with
  | nil => intro i st _; rfl
  | cons raw rest ih =>
    intro i st h
    simp only [scan_lines, List.map_cons, List.mem_cons, forall_eq_or_imp] at h ⊢
    rw [ih (i + 1) _ h.2, process_line_out, h.1]
    rfl

/-- C2: fix mode is idempotent on every input: scanning the lines that fix
mode writes reports no violation, and fix mode writes those lines back
unchanged. -/
theorem fix_mode_idempotent (req : Bool) (lines : List CStr) :
    violations req (fix_output req lines) = [] ∧
    fix_output req (fix_output req lines) = fix_output req lines := by
  have h := second_pass_scan req lines 0 0 ScanState.init ScanState.init
    (equiv_refl ScanState.init)
  constructor
  · simp only [violations, scan_file, fix_output, List.map_eq_nil_iff, List.filter_eq_nil_iff]
    intro p hp
    rw [h p hp]
    exact Bool.false_ne_true
  · exact out_of_not_reported req _ 0 ScanState.init h

/-! ## The need check -/

theorem needs_semicolon_false_iff (code : CStr) :
    needs_semicolon_codeonly code = false ↔
      ∃ c, code.getLast? = some c ∧ (c = ';' ∨ c = ',') := by
  rcases eq_nil_or_snoc code with h0 | ⟨pre, y, rfl⟩
  · subst h0; simp [needs_semicolon_codeonly]
  · have hlen : ((pre ++ [y]).length == 0) = false := by simp
    have hl : (pre ++ [y]).getLast? = some y := by simp
    unfold needs_semicolon_codeonly
    simp only [hlen, lastChar_concat, hl, Option.some.injEq, exists_eq_left',
      Bool.false_eq_true, if_false]
    by_cases h1 : y = ';'
    · subst h1; simp
    · by_cases h2 : y = ','
      · subst h2
        have e1 : ((',' : Char) == ';') = false := by decide
        have e2 : ((',' : Char) == '+') = false := by decide
        have e3 : ((',' : Char) == '-') = false := by decide
        have e4 : (isalnum ',' || (',' : Char) == '_' || (',' : Char) == ')' ||
          (',' : Char) == ']' || (',' : Char) == '"' || (',' : Char) == SQUOTE ||
          (',' : Char) == BTICK) = false := by decide
        simp only [e1, e2, e3, e4, Bool.and_false, Bool.false_eq_true, if_false, beq_self_eq_true,
          if_true, or_true]
      · have e1 : (y == ';') = false := by rw [beq_eq_false_iff_ne]; exact h1
        have e2 : (y == ',') = false := by rw [beq_eq_false_iff_ne]; exact h2
        simp only [e1, e2, Bool.false_eq_true, if_false, h1, h2, or_self, iff_false,
          Bool.not_eq_false]
        split
        · rfl
        · split
          · rfl
          · split <;> rfl

theorem needs_semicolon_true_of (code : CStr)
    (h : ∀ c, code.getLast? = some c → c ≠ ';' ∧ c ≠ ',') :
    needs_semicolon_codeonly code = true := by
  cases hn : needs_semicolon_codeonly code
  · obtain ⟨c, hc, hcc⟩ := (needs_semicolon_false_iff code).mp hn
    obtain ⟨h1, h2⟩ := h c hc
    rcases hcc with h3 | h3
    · exact absurd h3 h1
    · exact absurd h3 h2
  · rfl

theorem last_of_suffix_pair (code : CStr) (a b : Char) (h : [a, b] <:+ code) :
    code.getLast? = some b := by
  obtain ⟨pre, rfl⟩ := h
  simp [List.getLast?_append]

/-- C13: the need check follows the decision list of the spec: empty code
needs a terminator; code ending in `;` does not; code ending in `++` or `--`
does; code ending in an alphanumeric character, `_`, `)`, `]` or a quote does;
code ending in `,` does not; any other code does.  So the answer is "no"
exactly for non-empty code whose last character is `;` or `,`. -/
theorem needs_semicolon_decision_list (code : CStr) :
    (code = [] → needs_semicolon_codeonly code = true) ∧
    (code.getLast? = some ';' → needs_semicolon_codeonly code = false) ∧
    (("++".toList <:+ code ∨ "--".toList <:+ code) → needs_semicolon_codeonly code = true) ∧
    (∀ c, code.getLast? = some c →
      (isalnum c = true ∨ c = '_' ∨ c = ')' ∨ c = ']' ∨ c = '"' ∨ c = SQUOTE ∨ c = BTICK) →
      needs_semicolon_codeonly code = true) ∧
    (code.getLast? = some ',' → needs_semicolon_codeonly code = false) ∧
    (∀ c, code.getLast? = some c → c ≠ ';' → c ≠ ',' →
      needs_semicolon_codeonly code = true) ∧
    (needs_semicolon_codeonly code = false ↔
      ∃ c, code.getLast? = some c ∧ (c = ';' ∨ c = ',')) := by
  refine ⟨?_, ?_, ?_, ?_, ?_, ?_, needs_semicolon_false_iff code⟩
  · intro h; subst h; rfl
  · intro h; exact (needs_semicolon_false_iff code).mpr ⟨_, h, Or.inl rfl⟩
  · intro h
    apply needs_semicolon_true_of
    intro c hc
    rcases h with h | h
    · have := last_of_suffix_pair code '+' '+' h
      rw [hc] at this
      rw [Option.some.inj this]; decide
    · have := last_of_suffix_pair code '-' '-' h
      rw [hc] at this
      rw [Option.some.inj this]; decide
  · intro c hc hcls
    apply needs_semicolon_true_of
    intro c' hc'
    rw [hc] at hc'
    rw [← Option.some.inj hc']
    constructor
    · intro h; subst h; revert hcls; decide
    · intro h; subst h; revert hcls; decide
  · intro h; exact (needs_semicolon_false_iff code).mpr ⟨_, h, Or.inr rfl⟩
  · intro c hc h1 h2
    apply needs_semicolon_true_of
    intro c' hc'
    rw [hc] at hc'
    rw [← Option.some.inj hc']
    exact ⟨h1, h2⟩

theorem needs_semicolon_decision_list_witness :
    needs_semicolon_codeonly [] = true ∧
    needs_semicolon_codeonly "f(x);".toList = false ∧
    needs_semicolon_codeonly "i++".toList = true ∧
    needs_semicolon_codeonly "i--".toList = true ∧
    needs_semicolon_codeonly "f(x)".toList = true ∧
    needs_semicolon_codeonly "a,".toList = false ∧
    needs_semicolon_codeonly "a >".toList = true :=
  ⟨(needs_semicolon_decision_list []).1 rfl,
    (needs_semicolon_decision_list "f(x);".toList).2.1 (by decide),
    (needs_semicolon_decision_list "i++".toList).2.2.1 (Or.inl (by decide)),
    (needs_semicolon_decision_list "i--".toList).2.2.1 (Or.inr (by decide)),
    (needs_semicolon_decision_list "f(x)".toList).2.2.2.1 ')' (by decide)
      (Or.inr (Or.inr (Or.inl rfl))),
    (needs_semicolon_decision_list "a,".toList).2.2.2.2.1 (by decide),
    (needs_semicolon_decision_list "a >".toList).2.2.2.2.2.1 '>' (by decide) (by decide)
      (by decide)⟩

/-! ## Order of the violations -/

theorem scan_lines_linenos (req : Bool) (lines : List CStr) :
    ∀ (i : Nat) (st : ScanState),
      (scan_lines req i st lines).map Prod.fst = List.range' (i + 1) lines.length := by
  induction lines with
  | nil => intro i st; rfl
  | cons raw rest ih =>
    intro i st
    simp only [scan_lines, List.map_cons, List.length_cons, List.range'_succ, ih]

theorem violations_sublist (req : Bool) (lines : List CStr) :
    List.Sublist (violations req lines) (List.range' 1 lines.length) := by
  have h := scan_lines_linenos req lines 0 ScanState.init
  rw [Nat.zero_add] at h
  rw [← h]
  exact List.Sublist.map _ (List.filter_sublist _)

/-- C11: the line numbers recorded for a file are strictly increasing in the
order recorded, so there is at most one per line; each lies between 1 and the
number of lines; and `k + 1` is recorded exactly when the loop body reports
the line at index `k`, the `(k + 1)`-th line of the file. -/
theorem violations_ordered (req : Bool) (lines : List CStr) :
    (violations req lines).Pairwise (fun a b => a < b) ∧
    (violations req lines).Nodup ∧
    (∀ n ∈ violations req lines, 1 ≤ n ∧ n ≤ lines.length) ∧
    (∀ n, n ∈ violations req lines ↔
      ∃ k raw, n = k + 1 ∧ lines[k]? = some raw ∧
        (process_line req (state_before req lines k) raw (lines.getD (k + 1) [])).reported
          = true) := by
  have hsub := violations_sublist req lines
  have hpw : (violations req lines).Pairwise (fun a b => a < b) :=
    List.Pairwise.sublist hsub (List.pairwise_lt_range' 1 lines.length)
  refine ⟨hpw, ?_, ?_, ?_⟩
  · exact List.Pairwise.imp (fun h => Nat.ne_of_lt h) hpw
  · intro n hn
    have := hsub.subset hn
    rw [List.mem_range'_1] at this
    omega
  · intro n
    rw [mem_violations]
    constructor
    · rintro ⟨k, r, rfl, hget, hrep⟩
      have hk : k < lines.length := by
        have := (List.getElem?_eq_some_iff.mp hget).1
        rw [scan_file_length] at this
        exact this
      have hraw : lines[k]? = some lines[k] := List.getElem?_eq_getElem hk
      have h2 := scan_file_get req lines k _ hraw
      rw [hget] at h2
      have h3 := congrArg Prod.snd (Option.some.inj h2)
      simp only at h3
      refine ⟨k, lines[k], rfl, hraw, ?_⟩
      rw [state_before_eq req lines k (by omega), ← h3]
      exact hrep
    · rintro ⟨k, raw, rfl, hraw, hrep⟩
      have hk : k < lines.length := (List.getElem?_eq_some_iff.mp hraw).1
      rw [state_before_eq req lines k (by omega)] at hrep
      exact ⟨k, _, rfl, scan_file_get req lines k raw hraw, hrep⟩

theorem violations_ordered_witness :
    violations true (file_of ["let a = 1", "f(a);", "", "g(a)", "h(a) // x"]) = [1, 4, 5] ∧
    (1 ≤ 4 ∧ 4 ≤ 5) := by
  have h := (violations_ordered true
    (file_of ["let a = 1", "f(a);", "", "g(a)", "h(a) // x"])).2.2.1 4 (by decide)
  exact ⟨by decide, h⟩

/-! ## Lookahead -/

theorem suppress_logical_eq (s : Bool) (t nt : CStr) :
    suppress_logical s t nt =
      (s || (streq t "||" || streq t "&&") ||
        (decide (t.length ≥ 2) &&
          ((last2Char t == '|' && lastChar t == '|') ||
            (last2Char t == '&' && lastChar t == '&'))) ||
        (charAt nt 0 == '?' || charAt nt 0 == ':') ||
        (charAt t 0 == '?' || charAt t 0 == ':')) := by
  cases s
  · simp only [suppress_logical, Bool.not_false, if_true, Bool.false_or, set_if_eq,
      Bool.and_assoc]
    cases (streq t "||" || streq t "&&") <;> simp
  · simp [suppress_logical]

theorem suppress_of_lookahead (req : Bool) (st : ScanState) (raw next : CStr) (c : Char)
    (hc : (ltrim next).head? = some c)
    (hmem : c ∈ [')', ']', '+', '-', '*', '/', '%', '^', '|', '&', '?', ':']) :
    (process_line req st raw next).suppress = true := by
  have h0 : charAt (ltrim next) 0 = c := charAt_zero_of_head _ _ hc
  simp only [List.mem_cons, List.mem_singleton, List.not_mem_nil, or_false] at hmem
  have hcases : ((c == ')' || c == ']') || is_binop c) = true ∨ (c == '?' || c == ':') = true := by
    rcases hmem with h | h | h | h | h | h | h | h | h | h | h | h <;> subst h <;> decide
  rcases hcases with h | h
  · apply suppress_of_continuation
    rw [suppress_continuation_eq, h0]
    rw [Bool.or_eq_true] at h
    rcases h with h | h
    · simp only [h, Bool.or_true, Bool.true_or]
    · simp only [h, Bool.or_true, Bool.true_or]
  · simp only [process_line]
    rw [suppress_logical_eq, h0, h]
    simp

/-- C14: a line whose following line begins, after its leading whitespace,
with one of `) ] + - * / % ^ | & ? :` is suppressed and not reported, whatever
the line itself holds; so also before a `//`, `/*` or `*` comment line.  The
last line of a file is scanned with the empty string as its next line, on
which no lookahead test fires: the two suppression blocks then reduce to
their tests on the line itself. -/
theorem lookahead_suppresses (req : Bool) (lines : List CStr) (k : Nat) (raw : CStr)
    (hraw : lines[k]? = some raw) :
    (∀ next c, lines[k + 1]? = some next → (ltrim next).head? = some c →
      c ∈ [')', ']', '+', '-', '*', '/', '%', '^', '|', '&', '?', ':'] →
      (∀ st, (process_line req st raw next).suppress = true) ∧
      (∃ r, (scan_file req lines)[k]? = some (k + 1, r) ∧ r.suppress = true ∧
        r.reported = false) ∧
      k + 1 ∉ violations req lines) ∧
    (lines[k + 1]? = none →
      (scan_file req lines)[k]? =
        some (k + 1, process_line req (state_before req lines k) raw []) ∧
      (∀ (pd bd : Int) (code line : CStr),
        suppress_continuation pd bd code line (ltrim []) =
          (decide (pd > 0) || decide (bd > 0) ||
            (decide (code.length > 0) && lastChar code == ',') ||
            (decide (code.length > 0) && is_binop (lastChar code)))) ∧
      (∀ (s : Bool) (t : CStr),
        suppress_logical s t (ltrim []) =
          (s || (streq t "||" || streq t "&&") ||
            (decide (t.length ≥ 2) &&
              ((last2Char t == '|' && lastChar t == '|') ||
                (last2Char t == '&' && lastChar t == '&'))) ||
            (charAt t 0 == '?' || charAt t 0 == ':')))) := by
  have hk : k < lines.length := (List.getElem?_eq_some_iff.mp hraw).1
  have hget := scan_file_get req lines k raw hraw
  constructor
  · intro next c hnext hc hmem
    have hall : ∀ st, (process_line req st raw next).suppress = true :=
      fun st => suppress_of_lookahead req st raw next c hc hmem
    have hnx : lines.getD (k + 1) [] = next := by
      rw [List.getD_eq_getElem?_getD, hnext]; rfl
    rw [hnx] at hget
    exact ⟨hall, ⟨_, hget, hall _, not_reported_of_suppress req _ raw next (hall _)⟩,
      not_mem_violations req lines k _ hget
        (not_reported_of_suppress req _ raw next (hall _))⟩
  · intro hnone
    have hnx : lines.getD (k + 1) [] = [] := by
      rw [List.getD_eq_getElem?_getD, hnone]; rfl
    rw [hnx, ← state_before_eq req lines k (by omega)] at hget
    refine ⟨hget, ?_, ?_⟩
    · intro pd bd code line
      have e0 : charAt (ltrim []) 0 = NUL := rfl
      have e1 : (NUL == ')') = false := by decide
      have e2 : (NUL == ']') = false := by decide
      have e3 : (NUL == '&') = false := by decide
      have e4 : (NUL == '|') = false := by decide
      have e5 : is_binop NUL = false := by decide
      rw [suppress_continuation_eq, e0, e1, e2, e3, e4, e5]
      simp
    · intro s t
      have e0 : charAt (ltrim []) 0 = NUL := rfl
      have e1 : (NUL == '?') = false := by decide
      have e2 : (NUL == ':') = false := by decide
      rw [suppress_logical_eq, e0, e1, e2]
      simp

theorem lookahead_suppresses_witness :
    0 + 1 ∉ violations true (file_of ["x = 1", "// note"]) ∧
    violations true (file_of ["x = 1", "// note"]) = [] ∧
    violations true (file_of ["x = 1", "/* note */"]) = [] ∧
    violations true (file_of ["x = 1", " * note"]) = [] ∧
    violations true (file_of ["x = cond", "  ? a", "  : b"]) = [] ∧
    (scan_file true (file_of ["x = 1"]))[0]? =
      some (0 + 1, process_line true (state_before true (file_of ["x = 1"]) 0)
        "x = 1".toList []) := by
  have h := lookahead_suppresses true (file_of ["x = 1", "// note"]) 0 "x = 1".toList
    (by decide)
  have h2 := lookahead_suppresses true (file_of ["x = 1"]) 0 "x = 1".toList (by decide)
  exact ⟨(h.1 "// note".toList '/' (by decide) (by decide) (by decide)).2.2, by decide,
    by decide, by decide, by decide, (h2.2 (by decide)).1⟩

/-! ## Running depths -/

theorem depth_foldl_eq (s : CStr) :
    ∀ acc : Int × Int × Int,
      (s.foldl depth_step acc).1 = acc.1 + (count_char s '(' - count_char s ')') ∧
      (s.foldl depth_step acc).2.1 = acc.2.1 + (count_char s '[' - count_char s ']') := by
  induction s with
  | nil => intro acc; simp [count_char]
  | cons c t ih =>
    intro acc
    obtain ⟨h1, h2⟩ := ih (depth_step acc c)
    rw [List.foldl_cons, h1, h2]
    simp only [count_char, List.count_cons]
    unfold depth_step
    by_cases e1 : c = '('
    · subst e1; simp; omega
    · by_cases e2 : c = ')'
      · subst e2; simp; omega
      · by_cases e3 : c = '['
        · subst e3; simp; omega
        · by_cases e4 : c = ']'
          · subst e4; simp; omega
          · simp only [e1, e2, e3, e4, if_false, beq_iff_eq]
            split
            · simp
            · split <;> simp

theorem depth_deltas_eq (code : CStr) :
    (depth_deltas code).1 = count_char code '(' - count_char code ')' ∧
    (depth_deltas code).2.1 = count_char code '[' - count_char code ']' := by
  have := depth_foldl_eq code (0, 0, 0)
  simpa [depth_deltas] using this

theorem step_state_depths (st : ScanState) (raw : CStr) :
    (step_state st raw).paren_depth = st.paren_depth + code_paren_net raw ∧
    (step_state st raw).bracket_depth = st.bracket_depth + code_bracket_net raw := by
  simp only [step_state, process_line, code_paren_net, code_bracket_net]
  rw [(depth_deltas_eq _).1, (depth_deltas_eq _).2]
  exact ⟨rfl, rfl⟩

theorem run_state_depths (pre : List CStr) :
    ∀ st : ScanState,
      (run_state st pre).paren_depth = st.paren_depth + (pre.map code_paren_net).sum ∧
      (run_state st pre).bracket_depth =
        st.bracket_depth + (pre.map code_bracket_net).sum := by
  induction pre with
  | nil => intro st; simp [run_state]
  | cons l rest ih =>
    intro st
    have h := ih (step_state st l)
    simp only [run_state, List.foldl_cons] at h ⊢
    rw [h.1, h.2, (step_state_depths st l).1, (step_state_depths st l).2]
    simp only [List.map_cons, List.sum_cons]
    constructor <;> ring

theorem suppress_of_depth (req : Bool) (st : ScanState) (raw next : CStr)
    (h : (process_line req st raw next).st.paren_depth > 0 ∨
      (process_line req st raw next).st.bracket_depth > 0) :
    (process_line req st raw next).suppress = true := by
  apply suppress_of_continuation
  rw [suppress_continuation_eq]
  have h' : (decide (st.paren_depth + (depth_deltas (split_trailing_inline_comment raw).1).1 > 0)
      || decide (st.bracket_depth + (depth_deltas (split_trailing_inline_comment raw).1).2.1 > 0))
      = true := by
    simp only [process_line] at h
    simpa using h
  simp only [h', Bool.true_or]

/-- C15: the running depths with which the suppression of the line at index
`k` is decided are the sums, over the code segments of the lines up to and
including that line, of the count of `(` minus `)` and of `[` minus `]`,
starting from 0; they are signed sums (never clamped); a line for which one of
them is positive is suppressed and not reported.  Of the three numbers
`depth_deltas` yields only the first two enter the suppression tests: on
`if (a) \x7b` / `x = 1` / `\x7d` the second line is reported although one
brace is open. -/
theorem running_depth_invariant (req : Bool) (lines : List CStr) (k : Nat) (raw : CStr)
    (hraw : lines[k]? = some raw) :
    (∃ r, (scan_file req lines)[k]? = some (k + 1, r) ∧
      r.st.paren_depth = ((lines.take (k + 1)).map code_paren_net).sum ∧
      r.st.bracket_depth = ((lines.take (k + 1)).map code_bracket_net).sum ∧
      ((r.st.paren_depth > 0 ∨ r.st.bracket_depth > 0) →
        r.suppress = true ∧ r.reported = false ∧ k + 1 ∉ violations req lines)) ∧
    (depth_deltas "if (a) \x7b".toList).2.2 = 1 ∧
    violations req (file_of ["if (a) \x7b", "x = 1", "\x7d"]) = [2] := by
  have hk : k < lines.length := (List.getElem?_eq_some_iff.mp hraw).1
  have hget := scan_file_get req lines k raw hraw
  have htk : lines.take (k + 1) = lines.take k ++ [raw] := by
    rw [List.take_succ, hraw]; rfl
  refine ⟨⟨_, hget, ?_, ?_, ?_⟩, by decide, by cases req <;> decide⟩
  · rw [process_line_st, (step_state_depths _ raw).1, (run_state_depths _ _).1, htk]
    simp [ScanState.init]
  · rw [process_line_st, (step_state_depths _ raw).2, (run_state_depths _ _).2, htk]
    simp [ScanState.init]
  · intro h
    have hs := suppress_of_depth req _ raw _ h
    exact ⟨hs, not_reported_of_suppress req _ raw _ hs,
      not_mem_violations req lines k _ hget (not_reported_of_suppress req _ raw _ hs)⟩

theorem running_depth_invariant_witness :
    (∃ r, (scan_file true (file_of ["a)", "f(b", "c"]))[1]? = some (1 + 1, r) ∧
      r.st.paren_depth = 0 ∧ r.suppress = false) ∧
    (∃ r, (scan_file true (file_of ["a)", "f(b", "c"]))[0]? = some (0 + 1, r) ∧
      r.st.paren_depth = -1) ∧
    violations true (file_of ["f(a,", "b", "c)"]) = [3] := by
  obtain ⟨⟨r, hr, hp, -, -⟩, -, -⟩ :=
    running_depth_invariant true (file_of ["a)", "f(b", "c"]) 1 "f(b".toList (by decide)
  refine ⟨⟨r, hr, ?_, ?_⟩, ⟨_, rfl, by decide⟩, by decide⟩
  · rw [hp]; decide
  · have : (scan_file true (file_of ["a)", "f(b", "c"]))[1]?.map (fun p => p.2.suppress) =
        some false := by decide
    rw [hr] at this
    simpa using this

/-! ## The configuration flag -/

theorem starts_keyword_flag_free (code : CStr)
    (h : (starts code "return " || starts code "return(") = false) :
    starts_keyword_no_semi true code = starts_keyword_no_semi false code := by
  unfold starts_keyword_no_semi
  simp only [h, Bool.false_eq_true, if_false]

theorem starts_keyword_flag_mono (code : CStr)
    (h : starts_keyword_no_semi true code = true) :
    starts_keyword_no_semi false code = true := by
  cases hr : (starts code "return " || starts code "return(")
  · rw [← starts_keyword_flag_free code hr]; exact h
  · have h1 : starts code "return " = true ∨ starts code "return(" = true := by
      simpa using hr
    rw [starts_keyword_return false code h1]
    rfl

theorem is_ignorable_flag_mono (raw : CStr) (h : is_ignorable_line_logic true raw = true) :
    is_ignorable_line_logic false raw = true := by
  unfold is_ignorable_line_logic at h ⊢
  simp only [] at h ⊢
  split
  · rfl
  · rename_i h1
    rw [if_neg h1] at h
    split
    · rfl
    · rename_i h2
      rw [if_neg h2] at h
      split
      · rfl
      · rename_i h3
        rw [if_neg h3] at h
        split
        · rfl
        · rename_i h4
          rw [if_neg h4] at h
          rw [Bool.or_eq_true] at h ⊢
          rcases h with h | h
          · exact Or.inl (starts_keyword_flag_mono _ h)
          · exact Or.inr h

theorem is_ignorable_flag_free (raw : CStr)
    (h : ¬ ("return ".toList <+: ltrim (split_trailing_inline_comment raw).1 ∨
      "return(".toList <+: ltrim (split_trailing_inline_comment raw).1)) :
    is_ignorable_line_logic true raw = is_ignorable_line_logic false raw := by
  have hr : (starts (split_trailing_inline_comment (ltrim raw)).1 "return " ||
      starts (split_trailing_inline_comment (ltrim raw)).1 "return(") = false := by
    rw [split_ltrim]
    rw [Bool.eq_false_iff]
    intro hc
    rw [Bool.or_eq_true, starts_iff, starts_iff] at hc
    exact h hc
  unfold is_ignorable_line_logic
  simp only []
  rw [starts_keyword_flag_free _ hr]

/-- C17: the flag only ever removes reports.  Every line number reported with
`require_return_terminator` false is reported with it true; for every line the
`suppress` verdict and the counters after the line are the same under both
values; and the ignorable verdict, hence the report, differs at most on lines
whose left-trimmed code begins with `return ` or `return(`. -/
theorem flag_monotone (lines : List CStr) :
    (∀ n ∈ violations false lines, n ∈ violations true lines) ∧
    (∀ k raw, lines[k]? = some raw →
      ∃ rt rf, (scan_file true lines)[k]? = some (k + 1, rt) ∧
        (scan_file false lines)[k]? = some (k + 1, rf) ∧
        rt.suppress = rf.suppress ∧ rt.st = rf.st ∧
        (rf.reported = true → rt.reported = true) ∧
        (¬ ("return ".toList <+: ltrim (split_trailing_inline_comment raw).1 ∨
            "return(".toList <+: ltrim (split_trailing_inline_comment raw).1) →
          is_ignorable_line_logic true raw = is_ignorable_line_logic false raw ∧
          rt.reported = rf.reported)) := by
  have hrep : ∀ (req : Bool) st raw next, (process_line req st raw next).reported =
      (!(process_line req st raw next).suppress &&
        (!is_ignorable_line_logic req raw &&
          needs_semicolon_codeonly (split_trailing_inline_comment raw).1)) :=
    fun _ _ _ _ => rfl
  have hsup : ∀ st raw next, (process_line true st raw next).suppress =
      (process_line false st raw next).suppress := fun _ _ _ => rfl
  have hmono : ∀ st raw next, (process_line false st raw next).reported = true →
      (process_line true st raw next).reported = true := by
    intro st raw next h
    obtain ⟨h1, h2, h3⟩ := reported_imp false st raw next h
    rw [hrep, hsup, h1, h3]
    cases hi : is_ignorable_line_logic true raw
    · rfl
    · rw [is_ignorable_flag_mono raw hi] at h2
      exact Bool.noConfusion h2
  have hline : ∀ k raw, lines[k]? = some raw →
      ∃ rt rf, (scan_file true lines)[k]? = some (k + 1, rt) ∧
        (scan_file false lines)[k]? = some (k + 1, rf) ∧
        rt.suppress = rf.suppress ∧ rt.st = rf.st ∧
        (rf.reported = true → rt.reported = true) ∧
        (¬ ("return ".toList <+: ltrim (split_trailing_inline_comment raw).1 ∨
            "return(".toList <+: ltrim (split_trailing_inline_comment raw).1) →
          is_ignorable_line_logic true raw = is_ignorable_line_logic false raw ∧
          rt.reported = rf.reported) := by
    intro k raw hraw
    refine ⟨_, _, scan_file_get true lines k raw hraw, scan_file_get false lines k raw hraw,
      hsup _ _ _, ?_, hmono _ _ _, ?_⟩
    · rw [process_line_st, process_line_st]
    · intro hshape
      have hi := is_ignorable_flag_free raw hshape
      refine ⟨hi, ?_⟩
      rw [hrep, hrep, hsup, hi]
  refine ⟨?_, hline⟩
  intro n hn
  rw [mem_violations] at hn ⊢
  obtain ⟨k, r, rfl, hget, hr⟩ := hn
  have hk : k < lines.length := by
    have := (List.getElem?_eq_some_iff.mp hget).1
    rw [scan_file_length] at this
    exact this
  obtain ⟨rt, rf, h1, h2, -, -, h5, -⟩ := hline k lines[k] (List.getElem?_eq_getElem hk)
  rw [hget] at h2
  have : r = rf := by
    have := congrArg Prod.snd (Option.some.inj h2)
    simpa using this
  subst this
  exact ⟨k, rt, rfl, h1, h5 hr⟩

theorem flag_monotone_witness :
    violations false (file_of ["let a = 1", "return a", "b()"]) = [1, 3] ∧
    violations true (file_of ["let a = 1", "return a", "b()"]) = [1, 2, 3] ∧
    3 ∈ violations true (file_of ["let a = 1", "return a", "b()"]) :=
  ⟨by decide, by decide,
    (flag_monotone (file_of ["let a = 1", "return a", "b()"])).1 3 (by decide)⟩

/-! ## Blank code is never reported -/

theorem ltrim_eq_nil_iff (s : CStr) : ltrim s = [] ↔ s.all isspace = true := by
  unfold ltrim
  rw [List.dropWhile_eq_nil_iff, List.all_eq_true]

theorem not_reported_of_blank_code (req : Bool) (st : ScanState) (raw next : CStr)
    (h : (split_trailing_inline_comment raw).1.all isspace = true) :
    (process_line req st raw next).reported = false := by
  cases hr : (process_line req st raw next).reported
  · rfl
  · exact absurd ((ltrim_eq_nil_iff _).mpr h) (reported_facts req st raw next hr).1

theorem blank_code_of_blank_line (raw : CStr) (h : raw.all isspace = true) :
    (split_trailing_inline_comment raw).1.all isspace = true := by
  rw [← ltrim_eq_nil_iff]
  have h1 : ltrim raw = [] := (ltrim_eq_nil_iff raw).mpr h
  have h2 := split_ltrim raw
  rw [h1] at h2
  have h3 := congrArg Prod.fst h2
  exact h3.symm

theorem blank_code_of_comment_line (raw : CStr) (h : "//".toList <+: ltrim raw) :
    (split_trailing_inline_comment raw).1.all isspace = true := by
  rw [← ltrim_eq_nil_iff]
  obtain ⟨rest, hrest⟩ := h
  have h2 := split_ltrim raw
  have h3 : split_trailing_inline_comment (ltrim raw) = ([], ltrim raw) := by
    rw [← hrest]
    unfold split_trailing_inline_comment
    rw [show "//".toList ++ rest = '/' :: '/' :: rest from rfl, comment_scan_cons_cons,
      if_pos ⟨rfl, rfl, by simp⟩]
    rfl
  rw [h3] at h2
  exact (congrArg Prod.fst h2).symm

/-- The code segment of a line does not begin, after its leading whitespace,
with `;//`: the `//` would have started the comment. -/
theorem ltrim_code_not_semicolon_slashes (raw x : CStr) :
    ltrim (split_trailing_inline_comment raw).1 ≠ ';' :: '/' :: '/' :: x := by
  intro h
  have hne : ltrim (split_trailing_inline_comment raw).1 ≠ [] := by rw [h]; simp
  obtain ⟨ws, -, hraw, -⟩ := ltrim_raw_and_fix raw hne
  have h2 := congrArg Prod.fst (split_ltrim raw)
  rw [hraw, h] at h2
  have h3 : split_trailing_inline_comment
      ((';' :: '/' :: '/' :: x) ++ (ws ++ (split_trailing_inline_comment raw).2)) =
      ([';'], '/' :: '/' :: (x ++ (ws ++ (split_trailing_inline_comment raw).2))) := by
    unfold split_trailing_inline_comment
    rw [List.cons_append, List.cons_append, List.cons_append, comment_scan_cons_cons,
      if_neg (fun hc => absurd hc.1 (by decide)), comment_scan_cons_cons,
      if_pos ⟨rfl, rfl, by decide⟩]
    rfl
  rw [h3] at h2
  simp at h2

/-- The rewrite of a line with non-blank code is not, after its leading
whitespace, a bare `;` or a `;` followed by a `//` comment. -/
theorem fix_line_not_bare (raw rest : CStr)
    (hne : ltrim (split_trailing_inline_comment raw).1 ≠ [])
    (hlast : (split_trailing_inline_comment raw).1.getLast? ≠ some ';')
    (h : ltrim (fix_line raw) = ';' :: rest) :
    rest ≠ [] ∧ ¬ "//".toList <+: rest := by
  obtain ⟨ws, -, -, hfix⟩ := ltrim_raw_and_fix raw hne
  rw [hfix] at h
  have hns := ltrim_code_not_semicolon_slashes raw
  have hl : (ltrim (split_trailing_inline_comment raw).1).getLast? ≠ some ';' := by
    obtain ⟨hws, hdec⟩ := ltrim_decomp (split_trailing_inline_comment raw).1
    intro hc
    apply hlast
    rw [hdec, getLast?_ws_append _ _ hne]
    exact hc
  generalize ltrim (split_trailing_inline_comment raw).1 = c0 at h hne hns hl
  generalize (split_trailing_inline_comment raw).2 = com at h
  cases c0 with
  | nil => exact absurd rfl hne
  | cons a x =>
    simp only [List.cons_append, List.cons.injEq] at h
    obtain ⟨rfl, hrest⟩ := h
    subst hrest
    constructor
    · simp
    · rintro ⟨z, hz⟩
      cases x with
      | nil => exact hl rfl
      | cons a1 x1 =>
        cases x1 with
        | nil =>
          simp only [String.toList, List.cons_append, List.nil_append, List.cons.injEq] at hz
          exact absurd hz.2.1 (by decide)
        | cons a2 x2 =>
          simp only [String.toList, List.cons_append, List.nil_append, List.cons.injEq] at hz
          obtain ⟨rfl, rfl, -⟩ := hz
          exact hns x2 rfl

/-- C19: a reported line has a non-whitespace character in its code segment.
A line whose code segment is blank, so a blank line, a whitespace-only line
and a line that is only a `//` comment, is never reported; and the line fix
mode writes for a reported line is its non-blank code, `;` and its comment:
it is never whitespace, `;` and the comment, and after its leading whitespace
it is neither a bare `;` nor a `;` followed by a `//` comment. -/
theorem reported_has_code (req : Bool) (lines : List CStr) (k : Nat) (raw : CStr)
    (hraw : lines[k]? = some raw) :
    (k + 1 ∈ violations req lines →
      (∃ c ∈ (split_trailing_inline_comment raw).1, isspace c = false) ∧
      (fix_output req lines)[k]? = some ((split_trailing_inline_comment raw).1 ++
        ';' :: (split_trailing_inline_comment raw).2) ∧
      (∀ ws : CStr, ws.all isspace = true →
        (fix_output req lines)[k]? ≠
          some (ws ++ ';' :: (split_trailing_inline_comment raw).2)) ∧
      (∀ out rest : CStr, (fix_output req lines)[k]? = some out →
        ltrim out = ';' :: rest → rest ≠ [] ∧ ¬ "//".toList <+: rest)) ∧
    ((split_trailing_inline_comment raw).1.all isspace = true →
      k + 1 ∉ violations req lines) ∧
    (raw.all isspace = true → k + 1 ∉ violations req lines) ∧
    ("//".toList <+: ltrim raw → k + 1 ∉ violations req lines) := by
  have hget := scan_file_get req lines k raw hraw
  have hblank : (split_trailing_inline_comment raw).1.all isspace = true →
      k + 1 ∉ violations req lines := fun h =>
    not_mem_violations req lines k _ hget (not_reported_of_blank_code req _ raw _ h)
  refine ⟨?_, hblank, fun h => hblank (blank_code_of_blank_line raw h),
    fun h => hblank (blank_code_of_comment_line raw h)⟩
  intro hv
  have hrep : (process_line req (run_state ScanState.init (lines.take k)) raw
      (lines.getD (k + 1) [])).reported = true := by
    cases hr : (process_line req (run_state ScanState.init (lines.take k)) raw
      (lines.getD (k + 1) [])).reported
    · exact absurd hv (not_mem_violations req lines k _ hget hr)
    · rfl
  have hne := (reported_facts req _ raw _ hrep).1
  have hnb : ∃ c ∈ (split_trailing_inline_comment raw).1, isspace c = false := by
    obtain ⟨a, t, hat⟩ := List.exists_cons_of_ne_nil hne
    exact ⟨a, mem_of_mem_ltrim _ a (by rw [hat]; exact List.mem_cons_self _ _),
      ltrim_head_not_space _ a t hat⟩
  have hout : (fix_output req lines)[k]? = some ((split_trailing_inline_comment raw).1 ++
      ';' :: (split_trailing_inline_comment raw).2) := by
    rw [fix_output_get req lines k raw hraw, process_line_out, if_pos hrep]
  refine ⟨hnb, hout, ?_, ?_⟩
  · intro ws hws heq
    rw [hout] at heq
    have h1 := List.append_cancel_right (Option.some.inj heq)
    rw [h1] at hnb
    obtain ⟨c, hc, hcs⟩ := hnb
    have := List.all_eq_true.mp hws c hc
    rw [hcs] at this
    exact Bool.noConfusion this
  · intro out rest ho hl
    rw [hout] at ho
    have hlast : (split_trailing_inline_comment raw).1.getLast? ≠ some ';' := by
      intro hc
      have := (reported_imp req _ raw _ hrep).2.2
      rw [needs_semicolon_of_semicolon _ hc] at this
      exact Bool.noConfusion this
    rw [← Option.some.inj ho] at hl
    exact fix_line_not_bare raw rest hne hlast hl

theorem reported_has_code_witness :
    0 + 1 ∉ violations true (file_of ["   ", "// only a comment", "", "x"]) ∧
    1 + 1 ∉ violations true (file_of ["   ", "// only a comment", "", "x"]) ∧
    violations true (file_of ["   ", "// only a comment", "", "x"]) = [4] ∧
    (∃ c ∈ (split_trailing_inline_comment "x".toList).1, isspace c = false) := by
  have h0 := reported_has_code true (file_of ["   ", "// only a comment", "", "x"]) 0
    "   ".toList (by decide)
  have h1 := reported_has_code true (file_of ["   ", "// only a comment", "", "x"]) 1
    "// only a comment".toList (by decide)
  have h3 := reported_has_code true (file_of ["   ", "// only a comment", "", "x"]) 3
    "x".toList (by decide)
  exact ⟨h0.2.2.1 (by decide), h1.2.2.2 (by decide), by decide, (h3.1 (by decide)).1⟩

/-! ## Trailing whitespace -/

/-- C20: trailing whitespace matters on a line without a comment, whose code
segment is the raw line as it is: the one-line file `x = 1; ` (with a trailing
space) yields one violation and the fix output `x = 1; ;`, while the line
`x = 1; // c` is never reported, in any file and under either configuration. -/
theorem trailing_whitespace_significant :
    (∀ line : CStr, (∀ i, is_comment_start line i = false) →
      (split_trailing_inline_comment line).1 = line) ∧
    (split_trailing_inline_comment "x = 1; ".toList).1 = "x = 1; ".toList ∧
    (∀ req, violations req (file_of ["x = 1; "]) = [1] ∧
      fix_output req (file_of ["x = 1; "]) = file_of ["x = 1; ;"]) ∧
    (split_trailing_inline_comment "x = 1; // c".toList).1 = "x = 1;".toList ∧
    (∀ req st next, (process_line req st "x = 1; // c".toList next).reported = false) ∧
    (∀ req lines k, lines[k]? = some "x = 1; // c".toList →
      k + 1 ∉ violations req lines) := by
  have hall : ∀ req st next, (process_line req st "x = 1; // c".toList next).reported
      = false := by
    intro req st next
    cases hr : (process_line req st "x = 1; // c".toList next).reported
    · rfl
    · have := (reported_imp req st _ next hr).2.2
      rw [needs_semicolon_of_semicolon _ (by decide)] at this
      exact Bool.noConfusion this
  refine ⟨?_, by decide, ?_, by decide, hall, ?_⟩
  · intro line h
    rw [split_of_no_start line h]
  · intro req
    cases req <;> exact ⟨by decide, by decide⟩
  · intro req lines k hraw
    exact not_mem_violations req lines k _ (scan_file_get req lines k _ hraw) (hall _ _ _)

theorem trailing_whitespace_significant_witness :
    (split_trailing_inline_comment "x = 1; ".toList).1 = "x = 1; ".toList ∧
    0 + 1 ∉ violations true (file_of ["x = 1; // c"]) ∧
    violations true (file_of ["x = 1; "]) = [1] := by
  have h := trailing_whitespace_significant
  refine ⟨h.1 "x = 1; ".toList ?_, h.2.2.2.2.2 true (file_of ["x = 1; // c"]) 0 (by decide),
    (h.2.2.1 true).1⟩
  have hb : ∀ i, i < 10 → is_comment_start "x = 1; ".toList i = false := by decide
  intro i
  by_cases hi : i < 10
  · exact hb i hi
  · simp only [is_comment_start]
    rw [List.get?_eq_none.mpr (by simp only [String.toList]; simp at hi ⊢; omega)]
    rfl

/-! ## Fix mode failures -/

/-- C16, as stated, fails when the temporary file cannot be created:
`process_file` returns before the line loop, so the violation of `a.js` (its
only line, `let x = 1`) is not recorded, neither by the call nor by the run. -/
theorem create_failure_records_nothing :
    violations true (file_of ["let x = 1"]) = [1] ∧
    no_tmp_fs.read "a.js".toList = some (file_of ["let x = 1"]) ∧
    (process_file true no_tmp_fs "a.js".toList true []).missing = [] ∧
    (process_file true no_tmp_fs "a.js".toList true []).scanned = false ∧
    (main_run true true no_tmp_fs (file_of ["a.js"])).missing = [] ∧
    (process_file true no_rename_fs "a.js".toList true []).missing =
      [⟨"a.js".toList, 1⟩] := by
  refine ⟨by decide, by decide, by decide, by decide, by decide, by decide⟩

/-- C16, amended: in both failure cases of fix mode the file keeps its
content and `process_file` returns 1.  When the rename fails the violations
of the file have been recorded; when the temporary file cannot be created the
file is skipped before the line loop and nothing is recorded for it. -/
theorem fix_failure_outcome (req : Bool) (fs : FileSys) (path : CStr) (lines : List CStr)
    (missing_out : List Violation) (hread : fs.read path = some lines) :
    (fs.can_create_tmp path = false →
      (process_file req fs path true missing_out).rc = 1 ∧
      (process_file req fs path true missing_out).written = none ∧
      fs.write path (process_file req fs path true missing_out).written = fs ∧
      (process_file req fs path true missing_out).scanned = false ∧
      (process_file req fs path true missing_out).missing = missing_out) ∧
    (fs.can_create_tmp path = true → fs.can_rename path = false →
      (process_file req fs path true missing_out).rc = 1 ∧
      (process_file req fs path true missing_out).written = none ∧
      fs.write path (process_file req fs path true missing_out).written = fs ∧
      (process_file req fs path true missing_out).scanned = true ∧
      (process_file req fs path true missing_out).missing =
        missing_out ++ (violations req lines).map (fun n => ⟨path, n⟩)) := by
  constructor
  · intro h
    simp [process_file, hread, h, FileSys.write]
  · intro h1 h2
    simp [process_file, hread, h1, h2, FileSys.write]

theorem fix_failure_outcome_witness :
    (process_file true no_tmp_fs "a.js".toList true []).missing = [] ∧
    (process_file true no_rename_fs "a.js".toList true []).missing =
      [] ++ (violations true (file_of ["let x = 1"])).map (fun n => ⟨"a.js".toList, n⟩) ∧
    (process_file true no_rename_fs "a.js".toList true []).written = none := by
  have h1 := (fix_failure_outcome true no_tmp_fs "a.js".toList (file_of ["let x = 1"]) []
    (by decide)).1 (by decide)
  have h2 := (fix_failure_outcome true no_rename_fs "a.js".toList (file_of ["let x = 1"]) []
    (by decide)).2 (by decide) (by decide)
  exact ⟨h1.2.2.2.2, h2.2.2.2.2, h2.2.1⟩

/-! ## The conditional block -/

theorem ltrim_idem (s : CStr) : ltrim (ltrim s) = ltrim s := by
  cases h : ltrim s with
  | nil => rfl
  | cons a t => exact ltrim_cons_of_not_space a t (ltrim_head_not_space s a t h)

theorem cond_step_trigger (d : Int) (t : CStr) (s : Bool) (h1 : cond_starts t = true)
    (h2 : count_char t '(' - count_char t ')' > 0) :
    cond_block_step false d t s = (true, count_char t '(' - count_char t ')', true) := by
  unfold cond_block_step
  simp only [Bool.not_false, if_true, h1, h2]

theorem cond_step_pending (d : Int) (t : CStr) (s : Bool) :
    cond_block_step true d t s =
      (decide (d + (count_char t '(' - count_char t ')') > 0),
        d + (count_char t '(' - count_char t ')'), true) := by
  unfold cond_block_step
  simp only [Bool.not_true, Bool.false_eq_true, if_false]
  by_cases h : d + (count_char t '(' - count_char t ')') ≤ 0
  · simp [h]
  · simp only [h, if_false]
    congr 1
    simp only [not_le] at h
    simp [h]

theorem step_state_cond (st : ScanState) (raw : CStr) :
    (step_state st raw).in_cond_block =
      (cond_block_step st.in_cond_block st.cond_paren_depth (ltrim raw) false).1 ∧
    (step_state st raw).cond_paren_depth =
      (cond_block_step st.in_cond_block st.cond_paren_depth (ltrim raw) false).2.1 := by
  simp only [step_state, process_line]
  exact cond_block_step_fst _ _ _ _ _

theorem cond_starts_of_check (raw : CStr)
    (h : "if ".toList <+: cond_check raw ∨ "if(".toList <+: cond_check raw ∨
      "while ".toList <+: cond_check raw ∨ "while(".toList <+: cond_check raw ∨
      "for ".toList <+: cond_check raw ∨ "for(".toList <+: cond_check raw ∨
      "else if".toList <+: cond_check raw) :
    cond_starts (ltrim raw) = true := by
  unfold cond_starts
  simp only []
  rw [cond_test_iff, ltrim_idem]
  unfold cond_check at h
  tauto

/-- The loop body on a line reached with the conditional block pending, or
starting it, sets `suppress`. -/
theorem process_line_in_cond (req : Bool) (st : ScanState) (raw next : CStr)
    (h : st.in_cond_block = true ∨
      (cond_starts (ltrim raw) = true ∧ line_paren_net raw > 0)) :
    (process_line req st raw next).suppress = true ∧
    (process_line req st raw next).reported = false := by
  have hc : ∀ s, (cond_block_step st.in_cond_block st.cond_paren_depth (ltrim raw) s).2.2
      = true := by
    intro s
    cases hb : st.in_cond_block
    · rcases h with h | h
      · rw [hb] at h; exact Bool.noConfusion h
      · rw [cond_step_trigger _ _ _ h.1 h.2]
    · rw [cond_step_pending]
  have hs : (process_line req st raw next).suppress = true := by
    simp only [process_line]
    apply suppress_logical_mono
    apply return_block_step_mono
    exact hc _
  exact ⟨hs, not_reported_of_suppress req st raw next hs⟩

theorem tracker_counter_self (lines : List CStr) (t : Nat) (traw : CStr)
    (ht : lines[t]? = some traw) : tracker_counter lines t t = line_paren_net traw := by
  unfold tracker_counter
  have : (lines.drop t).take (t - t + 1) = [traw] := by
    rw [Nat.sub_self, Nat.zero_add]
    have h0 : (lines.drop t)[0]? = some traw := by
      rw [List.getElem?_drop]; simpa using ht
    cases hd : lines.drop t with
    | nil => rw [hd] at h0; simp at h0
    | cons a rest =>
      rw [hd] at h0
      simp at h0
      subst h0
      rfl
  rw [this]
  simp

theorem tracker_counter_succ (lines : List CStr) (t j : Nat) (raw : CStr) (htj : t ≤ j)
    (hj : lines[j + 1]? = some raw) :
    tracker_counter lines t (j + 1) = tracker_counter lines t j + line_paren_net raw := by
  unfold tracker_counter
  have h1 : j + 1 - t + 1 = (j - t + 1) + 1 := by omega
  have h2 : (lines.drop t)[j - t + 1]? = some raw := by
    rw [List.getElem?_drop]
    have : t + (j - t + 1) = j + 1 := by omega
    rw [this]; exact hj
  rw [h1, List.take_succ, h2]
  simp

/-- From the trigger line on, while the counter stays positive, the counters
after each line are the running sum and the block is pending. -/
theorem in_cond_after (lines : List CStr) (t : Nat) (traw : CStr)
    (ht : lines[t]? = some traw)
    (hidle : (run_state ScanState.init (lines.take t)).in_cond_block = false)
    (htrig : cond_starts (ltrim traw) = true) (hpos : line_paren_net traw > 0) :
    ∀ d, t + d < lines.length →
      (∀ i, t ≤ i → i < t + d → tracker_counter lines t i > 0) →
      (run_state ScanState.init (lines.take (t + d + 1))).cond_paren_depth =
        tracker_counter lines t (t + d) ∧
      (run_state ScanState.init (lines.take (t + d + 1))).in_cond_block =
        decide (tracker_counter lines t (t + d) > 0) := by
  intro d
  induction d with
  | zero =>
    intro hlen hopen
    have htk : lines.take (t + 0 + 1) = lines.take t ++ [traw] := by
      rw [Nat.add_zero, List.take_succ, ht]; rfl
    have hrun : run_state ScanState.init (lines.take (t + 0 + 1)) =
        step_state (run_state ScanState.init (lines.take t)) traw := by
      rw [htk, run_state, List.foldl_append]; rfl
    rw [hrun, (step_state_cond _ traw).1, (step_state_cond _ traw).2, hidle,
      cond_step_trigger _ _ _ htrig hpos, Nat.add_zero, tracker_counter_self lines t traw ht]
    exact ⟨rfl, by simp [line_paren_net] at hpos ⊢; exact hpos⟩
  | succ d ih =>
    intro hlen hopen
    obtain ⟨h1, h2⟩ := ih (by omega) (fun i hi1 hi2 => hopen i hi1 (by omega))
    have hposd := hopen (t + d) (by omega) (by omega)
    have hget : lines[t + d + 1]? = some lines[t + d + 1] := List.getElem?_eq_getElem (by omega)
    have htk : lines.take (t + d + 1 + 1) = lines.take (t + d + 1) ++ [lines[t + d + 1]] := by
      rw [List.take_succ, hget]; rfl
    have hrun : run_state ScanState.init (lines.take (t + d + 1 + 1)) =
        step_state (run_state ScanState.init (lines.take (t + d + 1))) lines[t + d + 1] := by
      rw [htk, run_state, List.foldl_append]; rfl
    have hc := tracker_counter_succ lines t (t + d) _ (by omega) hget
    rw [show t + (d + 1) = t + d + 1 from rfl, hrun, (step_state_cond _ _).1,
      (step_state_cond _ _).2, h2, h1, decide_eq_true hposd, cond_step_pending, hc]
    exact ⟨rfl, rfl⟩

/-- C12: when a line is reached with the conditional block idle, and after its
leading whitespace, any leading closing braces and whitespace again it begins
with `if`, `while` or `for` followed by a space or `(`, or with `else if`, and
its own count of `(` minus `)` is positive, then the block becomes pending
with that count as its counter; every line from that line on, as long as the
counter was positive after each line before it, is suppressed and not
reported; after each such line the counter is the running sum of the lines'
own counts (so no line in between sets it anew), and the block is pending
exactly while that sum is positive: it is idle after the first line that
brings the sum to 0 or below. -/
theorem conditional_block_suppressed (req : Bool) (lines : List CStr) (t j : Nat)
    (traw raw : CStr) (ht : lines[t]? = some traw)
    (hidle : (state_before req lines t).in_cond_block = false)
    (htrig : "if ".toList <+: cond_check traw ∨ "if(".toList <+: cond_check traw ∨
      "while ".toList <+: cond_check traw ∨ "while(".toList <+: cond_check traw ∨
      "for ".toList <+: cond_check traw ∨ "for(".toList <+: cond_check traw ∨
      "else if".toList <+: cond_check traw)
    (hpos : line_paren_net traw > 0)
    (htj : t ≤ j) (hj : lines[j]? = some raw)
    (hopen : ∀ i, t ≤ i → i < j → tracker_counter lines t i > 0) :
    tracker_counter lines t t = line_paren_net traw ∧
    ∃ r, (scan_file req lines)[j]? = some (j + 1, r) ∧ r.suppress = true ∧
      r.reported = false ∧ j + 1 ∉ violations req lines ∧
      r.st.cond_paren_depth = tracker_counter lines t j ∧
      r.st.in_cond_block = decide (tracker_counter lines t j > 0) ∧
      (state_before req lines (j + 1)).in_cond_block =
        decide (tracker_counter lines t j > 0) := by
  have htlen : t < lines.length := (List.getElem?_eq_some_iff.mp ht).1
  have hjlen : j < lines.length := (List.getElem?_eq_some_iff.mp hj).1
  rw [state_before_eq req lines t (by omega)] at hidle
  have hstarts := cond_starts_of_check traw htrig
  have hget := scan_file_get req lines j raw hj
  obtain ⟨d, rfl⟩ : ∃ d, j = t + d := ⟨j - t, by omega⟩
  have hafter := in_cond_after lines t traw ht hidle hstarts hpos d hjlen
    (fun i h1 h2 => hopen i h1 h2)
  have hcond : (run_state ScanState.init (lines.take (t + d))).in_cond_block = true ∨
      (cond_starts (ltrim raw) = true ∧ line_paren_net raw > 0) := by
    cases d with
    | zero =>
      right
      rw [Nat.add_zero, ht] at hj
      rw [← Option.some.inj hj]
      exact ⟨hstarts, hpos⟩
    | succ d =>
      left
      have hprev := in_cond_after lines t traw ht hidle hstarts hpos d (by omega)
        (fun i h1 h2 => hopen i h1 (by omega))
      rw [show t + (d + 1) = t + d + 1 from rfl, hprev.2]
      exact decide_eq_true (hopen (t + d) (by omega) (by omega))
  obtain ⟨hs, hr⟩ := process_line_in_cond req _ raw (lines.getD (t + d + 1) []) hcond
  have hst : (process_line req (run_state ScanState.init (lines.take (t + d))) raw
      (lines.getD (t + d + 1) [])).st =
      run_state ScanState.init (lines.take (t + d + 1)) := by
    rw [process_line_st]
    have htk : lines.take (t + d + 1) = lines.take (t + d) ++ [raw] := by
      rw [List.take_succ, hj]; rfl
    rw [htk, run_state, run_state, List.foldl_append]
    rfl
  refine ⟨tracker_counter_self lines t traw ht, _, hget, hs, hr,
    not_mem_violations req lines (t + d) _ hget hr, ?_, ?_, ?_⟩
  · rw [hst]; exact hafter.1
  · rw [hst]; exact hafter.2
  · rw [state_before_eq req lines (t + d + 1) (by omega)]
    exact hafter.2

theorem conditional_block_suppressed_witness :
    violations true (file_of ["if (a &&", "    b) \x7b", "  x = 1", "\x7d"]) = [3] ∧
    1 + 1 ∉ violations true (file_of ["if (a &&", "    b) \x7b", "  x = 1", "\x7d"]) ∧
    (state_before true (file_of ["if (a &&", "    b) \x7b", "  x = 1", "\x7d"]) 1).in_cond_block
      = true ∧
    (state_before true (file_of ["if (a &&", "    b) \x7b", "  x = 1", "\x7d"]) 2).in_cond_block
      = false := by
  obtain ⟨-, r, -, -, -, hv, -, -, -⟩ := conditional_block_suppressed true
    (file_of ["if (a &&", "    b) \x7b", "  x = 1", "\x7d"]) 0 1 "if (a &&".toList
    "    b) \x7b".toList (by decide) (by decide) (Or.inl (by decide)) (by decide) (by decide)
    (by decide)
    (by
      intro i h1 h2
      have : i = 0 := by omega
      subst this
      decide)
  exact ⟨by decide, hv, by decide, by decide⟩

/-! ## Indentation -/

theorem suppress_continuation_core (pd bd : Int) (code raw nt : CStr) :
    suppress_continuation pd bd code raw nt =
      (decide (pd > 0) || decide (bd > 0) ||
        (decide (code.length > 0) && lastChar code == ',') ||
        (decide (code.length > 0) && is_binop (lastChar code)) ||
        (charAt nt 0 == ')' || charAt nt 0 == ']') ||
        is_binop (charAt nt 0)) := by
  rw [suppress_continuation_eq]
  cases h1 : (charAt nt 0 == ')')
  · cases hb : is_binop (charAt nt 0)
    · obtain ⟨h2, h3⟩ := binop_of_amp_or_bar _ hb
      simp only [h2, h3, Bool.false_and, Bool.or_false]
    · simp only [Bool.or_true, Bool.true_or]
  · simp only [Bool.true_or, Bool.or_true, Bool.true_and]

theorem lastChar_mem (s : CStr) (h : s ≠ []) : lastChar s ∈ s := by
  rcases eq_nil_or_snoc s with h0 | ⟨pre, y, rfl⟩
  · exact absurd h0 h
  · rw [lastChar_concat]; simp

/-- A test of the last character that fails on whitespace gives the same
answer on a string and on the string without its leading whitespace. -/
theorem ends_in_ltrim (s : CStr) (P : Char → Bool)
    (hP : ∀ c, isspace c = true → P c = false) :
    (decide ((ltrim s).length > 0) && P (lastChar (ltrim s))) =
      (decide (s.length > 0) && P (lastChar s)) := by
  obtain ⟨hws, hdec⟩ := ltrim_decomp s
  generalize s.takeWhile isspace = ws at hws hdec
  by_cases ht : ltrim s = []
  · rw [ht] at hdec ⊢
    rw [List.append_nil] at hdec
    subst hdec
    by_cases hs : s = []
    · subst hs; rfl
    · have := hP _ (List.all_eq_true.mp hws _ (lastChar_mem s hs))
      rw [this]
      simp
  · have hl : lastChar s = lastChar (ltrim s) := by
      obtain ⟨pre, y, hy⟩ : ∃ pre y, ltrim s = pre ++ [y] := by
        rcases eq_nil_or_snoc (ltrim s) with h0 | h
        · exact absurd h0 ht
        · exact h
      conv_lhs => rw [hdec, hy, ← List.append_assoc, lastChar_concat]
      rw [hy, lastChar_concat]
    have h1 : (ltrim s).length > 0 := List.length_pos.mpr ht
    have h2 : s.length > 0 := by
      rw [hdec, List.length_append]; omega
    rw [hl]
    simp [h1, h2]

theorem count_char_ltrim (s : CStr) (c : Char) (hc : isspace c = false) :
    count_char (ltrim s) c = count_char s c := by
  obtain ⟨hws, hdec⟩ := ltrim_decomp s
  conv_rhs => rw [hdec, count_char_append, count_char_ws _ c hws hc]
  simp

theorem depth_deltas_ltrim (s : CStr) :
    (depth_deltas (ltrim s)).1 = (depth_deltas s).1 ∧
    (depth_deltas (ltrim s)).2.1 = (depth_deltas s).2.1 := by
  rw [(depth_deltas_eq _).1, (depth_deltas_eq _).2, (depth_deltas_eq s).1,
    (depth_deltas_eq s).2, count_char_ltrim s _ (by decide), count_char_ltrim s _ (by decide),
    count_char_ltrim s _ (by decide), count_char_ltrim s _ (by decide)]
  exact ⟨rfl, rfl⟩

theorem contains_semicolon_ltrim (s : CStr) :
    (ltrim s).contains ';' = s.contains ';' := by
  obtain ⟨hws, hdec⟩ := ltrim_decomp s
  generalize s.takeWhile isspace = ws at hws hdec
  rw [Bool.eq_iff_iff]
  simp only [List.contains_iff_exists_mem_beq, beq_iff_eq]
  constructor
  · rintro ⟨a, ha, rfl⟩
    exact ⟨_, mem_of_mem_ltrim s _ ha, rfl⟩
  · rintro ⟨a, ha, rfl⟩
    rw [hdec, List.mem_append] at ha
    rcases ha with ha | ha
    · have := List.all_eq_true.mp hws _ ha
      exact absurd this (by decide)
    · exact ⟨_, ha, rfl⟩

theorem var_block_step_congr (b : Bool) (raw raw' t : CStr) (s : Bool)
    (h : raw'.contains ';' = raw.contains ';') :
    var_block_step b raw' t s = var_block_step b raw t s := by
  unfold var_block_step
  rw [h]

theorem needs_semicolon_ltrim (s : CStr) :
    needs_semicolon_codeonly (ltrim s) = needs_semicolon_codeonly s := by
  have key : ∀ c : Char, isspace c = false →
      ((ltrim s).getLast? = some c ↔ s.getLast? = some c) := by
    intro c hc
    rw [← ends1_iff, ← ends1_iff,
      ends_in_ltrim s (fun x => x == c) (fun x hx => by
        simp only [beq_eq_false_iff_ne, ne_eq]
        intro h; rw [h, hc] at hx; exact Bool.noConfusion hx)]
  rw [Bool.eq_iff_iff]
  constructor
  · intro h
    apply needs_semicolon_true_of
    intro c hc
    constructor
    · intro hcc
      subst hcc
      have := (needs_semicolon_false_iff (ltrim s)).mpr
        ⟨_, (key ';' (by decide)).mpr hc, Or.inl rfl⟩
      rw [h] at this; exact Bool.noConfusion this
    · intro hcc
      subst hcc
      have := (needs_semicolon_false_iff (ltrim s)).mpr
        ⟨_, (key ',' (by decide)).mpr hc, Or.inr rfl⟩
      rw [h] at this; exact Bool.noConfusion this
  · intro h
    apply needs_semicolon_true_of
    intro c hc
    constructor
    · intro hcc
      subst hcc
      have := (needs_semicolon_false_iff s).mpr ⟨_, (key ';' (by decide)).mp hc, Or.inl rfl⟩
      rw [h] at this; exact Bool.noConfusion this
    · intro hcc
      subst hcc
      have := (needs_semicolon_false_iff s).mpr ⟨_, (key ',' (by decide)).mp hc, Or.inr rfl⟩
      rw [h] at this; exact Bool.noConfusion this

theorem is_ignorable_ltrim (req : Bool) (raw : CStr) :
    is_ignorable_line_logic req (ltrim raw) = is_ignorable_line_logic req raw := by
  unfold is_ignorable_line_logic
  simp only [ltrim_idem]

theorem suppress_continuation_ltrim (pd bd : Int) (code raw raw' nt : CStr) :
    suppress_continuation pd bd (ltrim code) raw' nt =
      suppress_continuation pd bd code raw nt := by
  rw [suppress_continuation_core, suppress_continuation_core,
    ends_in_ltrim code (fun x => x == ',') (fun x hx => by
      simp only [beq_eq_false_iff_ne, ne_eq]
      intro h; rw [h] at hx; revert hx; decide),
    ends_in_ltrim code is_binop (fun x hx => by
      cases hb : is_binop x
      · rfl
      · exfalso
        simp only [is_binop, Bool.or_eq_true, beq_iff_eq] at hb
        rcases hb with ((((((h | h) | h) | h) | h) | h) | h) | h <;>
          rw [h] at hx <;> revert hx <;> decide)]

/-- The loop body gives the same verdicts and counters on a line and on the
line without its leading whitespace. -/
theorem process_line_ltrim (req : Bool) (st : ScanState) (raw next : CStr) :
    (process_line req st (ltrim raw) next).suppress = (process_line req st raw next).suppress ∧
    (process_line req st (ltrim raw) next).reported = (process_line req st raw next).reported ∧
    (process_line req st (ltrim raw) next).st = (process_line req st raw next).st := by
  simp only [process_line]
  rw [split_ltrim, ltrim_idem, (depth_deltas_ltrim _).1, (depth_deltas_ltrim _).2,
    suppress_continuation_ltrim _ _ _ raw, var_block_step_congr _ raw (ltrim raw) _ _
      (contains_semicolon_ltrim raw), is_ignorable_ltrim, needs_semicolon_ltrim]
  exact ⟨rfl, rfl, rfl⟩

theorem reindented_ltrim (a b : CStr) (h : reindented a b) : ltrim a = ltrim b := by
  obtain ⟨ws, ws', t, h1, h2, rfl, rfl⟩ := h
  rw [ltrim_ws_append ws t h1, ltrim_ws_append ws' t h2]

theorem process_line_next_ltrim (req : Bool) (st : ScanState) (raw n n' : CStr)
    (h : ltrim n = ltrim n') : process_line req st raw n = process_line req st raw n' := by
  simp only [process_line, h]

theorem process_line_reindented (req : Bool) (st : ScanState) (a b n n' : CStr)
    (hab : ltrim a = ltrim b) (hn : ltrim n = ltrim n') :
    (process_line req st a n).suppress = (process_line req st b n').suppress ∧
    (process_line req st a n).reported = (process_line req st b n').reported ∧
    (process_line req st a n).st = (process_line req st b n').st := by
  obtain ⟨a1, a2, a3⟩ := process_line_ltrim req st a n
  obtain ⟨b1, b2, b3⟩ := process_line_ltrim req st b n'
  rw [process_line_next_ltrim req st _ n n' hn, hab] at a1 a2 a3
  exact ⟨a1.symm.trans b1, a2.symm.trans b2, a3.symm.trans b3⟩

theorem head_reindented (ra rb : List CStr) (h : List.Forall₂ reindented ra rb) :
    ltrim (ra.headD []) = ltrim (rb.headD []) := by
  cases h with
  | nil => rfl
  | cons hxy _ => exact reindented_ltrim _ _ hxy

theorem scan_reindented (req : Bool) (L L' : List CStr) (h : List.Forall₂ reindented L L') :
    ∀ (i : Nat) (st : ScanState),
      ((scan_lines req i st L).filter (fun p => p.2.reported)).map (fun p => p.1) =
        ((scan_lines req i st L').filter (fun p => p.2.reported)).map (fun p => p.1) ∧
      (scan_lines req i st L).map (fun p => p.2.suppress) =
        (scan_lines req i st L').map (fun p => p.2.suppress) := by
  induction h with
  | nil => intro i st; exact ⟨rfl, rfl⟩
  | cons hab hrest ih =>
    rename_i a b ra rb
    intro i st
    obtain ⟨h1, h2, h3⟩ := process_line_reindented req st a b (ra.headD []) (rb.headD [])
      (reindented_ltrim a b hab) (head_reindented ra rb hrest)
    simp only [scan_lines, List.filter_cons, List.map_cons]
    rw [h1, h2, h3]
    obtain ⟨i1, i2⟩ := ih (i + 1) (process_line req st b (rb.headD [])).st
    rw [i2]
    refine ⟨?_, rfl⟩
    split
    · simp only [List.map_cons]; rw [i1]
    · exact i1

/-- C18: the reported line numbers do not depend on indentation: if every
line of a second file is the line of the first at the same position with its
leading whitespace replaced by another (possibly empty) run of whitespace,
both files yield the same violations, and the same `suppress` verdicts. -/
theorem indentation_independent (req : Bool) (L L' : List CStr)
    (h : List.Forall₂ reindented L L') :
    violations req L = violations req L' ∧
    (scan_file req L).map (fun p => p.2.suppress) =
      (scan_file req L').map (fun p => p.2.suppress) :=
  scan_reindented req L L' h 0 ScanState.init

theorem indentation_independent_witness :
    violations true (file_of ["  if (a) \x7b", "\t x = 1", "  \x7d", "y()"]) =
      violations true (file_of ["if (a) \x7b", "x = 1", "     \x7d", "  y()"]) ∧
    violations true (file_of ["if (a) \x7b", "x = 1", "     \x7d", "  y()"]) = [2, 4] := by
  refine ⟨(indentation_independent true
    (file_of ["  if (a) \x7b", "\t x = 1", "  \x7d", "y()"])
    (file_of ["if (a) \x7b", "x = 1", "     \x7d", "  y()"]) ?_).1, by decide⟩
  refine List.Forall₂.cons ⟨"  ".toList, [], "if (a) \x7b".toList, by decide, by decide, rfl, rfl⟩
    (List.Forall₂.cons ⟨"\t ".toList, [], "x = 1".toList, by decide, by decide, rfl, rfl⟩
      (List.Forall₂.cons ⟨"  ".toList, "     ".toList, "\x7d".toList, by decide, by decide,
          rfl, rfl⟩
        (List.Forall₂.cons ⟨[], "  ".toList, "y()".toList, by decide, by decide, rfl, rfl⟩
          List.Forall₂.nil)))

/-! ## Comments and the block trackers -/

theorem step_state_return (st : ScanState) (raw : CStr) :
    (step_state st raw).in_return_block =
      (return_block_step st.in_return_block st.return_paren_depth (ltrim raw) false).1 ∧
    (step_state st raw).return_paren_depth =
      (return_block_step st.in_return_block st.return_paren_depth (ltrim raw) false).2.1 := by
  simp only [step_state, process_line]
  exact return_block_step_fst _ _ _ _ _

theorem return_step_pending (d : Int) (t : CStr) (s : Bool) :
    (return_block_step true d t s).2.1 = d + (count_char t '(' - count_char t ')') := by
  unfold return_block_step
  simp

theorem return_step_trigger (d : Int) (t : CStr) (s : Bool)
    (h : starts_return_paren t = true) :
    (return_block_step false d t s).2.1 = count_char t '(' - count_char t ')' := by
  unfold return_block_step
  simp [h]

theorem cond_step_start (d : Int) (t : CStr) (s : Bool) (h : cond_starts t = true) :
    (cond_block_step false d t s).2.1 = count_char t '(' - count_char t ')' := by
  unfold cond_block_step
  simp only [Bool.not_false, if_true, h]
  split <;> rfl

/-- C21: the block trackers count parentheses over the whole line after its
leading whitespace, comment included, while the running depth counts them
over the code segment only.  So a `(` in the comment of an `if (...)` line
starts the conditional block: the lines `if (a) \x7b // (todo`, `x = 1`,
`\x7d` give no violation, the block being pending after each of them, while
`if (a) \x7b`, `x = 1`, `\x7d` give exactly one violation, at line 2. -/
theorem trackers_count_comments (st : ScanState) (raw : CStr) :
    (step_state st raw).paren_depth = st.paren_depth + code_paren_net raw ∧
    (st.in_cond_block = true →
      (step_state st raw).cond_paren_depth = st.cond_paren_depth + line_paren_net raw) ∧
    (st.in_cond_block = false → cond_starts (ltrim raw) = true →
      (step_state st raw).cond_paren_depth = line_paren_net raw) ∧
    (st.in_return_block = true →
      (step_state st raw).return_paren_depth = st.return_paren_depth + line_paren_net raw) ∧
    (st.in_return_block = false → starts_return_paren (ltrim raw) = true →
      (step_state st raw).return_paren_depth = line_paren_net raw) ∧
    line_paren_net "if (a) \x7b // (todo".toList = 1 ∧
    code_paren_net "if (a) \x7b // (todo".toList = 0 ∧
    (∀ req, violations req (file_of ["if (a) \x7b // (todo", "x = 1", "\x7d"]) = [] ∧
      violations req (file_of ["if (a) \x7b", "x = 1", "\x7d"]) = [2] ∧
      (state_before req (file_of ["if (a) \x7b // (todo", "x = 1", "\x7d"]) 1).in_cond_block
        = true ∧
      (state_before req (file_of ["if (a) \x7b // (todo", "x = 1", "\x7d"]) 1).paren_depth
        = 0 ∧
      (state_before req (file_of ["if (a) \x7b // (todo", "x = 1", "\x7d"]) 3).in_cond_block
        = true ∧
      (state_before req (file_of ["if (a) \x7b", "x = 1", "\x7d"]) 1).in_cond_block
        = false) := by
  refine ⟨(step_state_depths st raw).1, ?_, ?_, ?_, ?_, by decide, by decide, ?_⟩
  · intro h
    rw [(step_state_cond st raw).2, h, cond_step_pending]
    rfl
  · intro h hs
    rw [(step_state_cond st raw).2, h, cond_step_start _ _ _ hs]
    rfl
  · intro h
    rw [(step_state_return st raw).2, h, return_step_pending]
    rfl
  · intro h hs
    rw [(step_state_return st raw).2, h, return_step_trigger _ _ _ hs]
    rfl
  · intro req
    cases req <;> exact ⟨by decide, by decide, by decide, by decide, by decide, by decide⟩

theorem trackers_count_comments_witness :
    (step_state ScanState.init "if (a) \x7b // (todo".toList).cond_paren_depth = 1 ∧
    (step_state ScanState.init "if (a) \x7b // (todo".toList).paren_depth = 0 + 0 ∧
    violations true (file_of ["if (a) \x7b // (todo", "x = 1", "\x7d"]) = [] ∧
    violations true (file_of ["if (a) \x7b", "x = 1", "\x7d"]) = [2] := by
  have h := trackers_count_comments ScanState.init "if (a) \x7b // (todo".toList
  have h3 := h.2.2.1 rfl (by decide)
  have h1 := h.1
  rw [h.2.2.2.2.2.1] at h3
  rw [h.2.2.2.2.2.2.1] at h1
  exact ⟨h3, h1, (h.2.2.2.2.2.2.2 true).1, (h.2.2.2.2.2.2.2 true).2.1⟩

end Lint
